import Mathlib

/-!
# Geo_Rezaul_Bhai.cpp : planar geometry primitives and the monotone-chain hull

A shallow embedding of `src/code/Geo_Rezaul_Bhai.cpp`.  The scalar type `T`
(`double` in the source) is read as exact arithmetic: an arbitrary linearly
ordered field `K`, so every definition below is executable at `K = ℚ` and the
theorems hold at `ℚ` and `ℝ` alike.

Out-parameters (`pt &out`) become an extra argument (the value before the call)
and an extra component of the result (the value after the call).

The two bounded resources of the source are bounded here as well: a write past
the end of the array `pt H[100000 + 5]` of `monotoneChain` and a conversion
`int o = ...` outside the range of the 32-bit `int` in `isConvex` are undefined
in the source and `none` in `monotoneChainH` and `toInt`.
-/

namespace Geo

/-- The source `struct pt { T x, y; }`. -/
@[ext]
structure pt (K : Type) where
  x : K
  y : K
deriving DecidableEq, Repr

variable {K : Type} [LinearOrderedField K]

namespace pt

/-- The source `pt::operator+`. -/
def add (a p : pt K) : pt K := ⟨a.x + p.x, a.y + p.y⟩

/-- The source `pt::operator-`. -/
def sub (a p : pt K) : pt K := ⟨a.x - p.x, a.y - p.y⟩

/-- The source `pt::operator*` (scaling by a scalar on the right). -/
def mul (a : pt K) (d : K) : pt K := ⟨a.x * d, a.y * d⟩

/-- The source `pt::operator/` (division by a scalar). -/
def div (a : pt K) (d : K) : pt K := ⟨a.x / d, a.y / d⟩

instance : Add (pt K) := ⟨add⟩
instance : Sub (pt K) := ⟨sub⟩
instance : HMul (pt K) K (pt K) := ⟨mul⟩
instance : HDiv (pt K) K (pt K) := ⟨div⟩

/-- The source `pt::operator<`: `if (x != p.x) return x < p.x; return y < p.y;`. -/
def lt (a p : pt K) : Prop := if a.x ≠ p.x then a.x < p.x else a.y < p.y

instance (a p : pt K) : Decidable (lt a p) := by
  unfold lt; infer_instance

/-- The order `std::sort` arranges by: `a` may stand before `p` when `p < a` is false. -/
def le (a p : pt K) : Prop := ¬ lt p a

instance (a p : pt K) : Decidable (le a p) := by
  unfold le; infer_instance

end pt

/-- The source `sq`. -/
def sq (p : pt K) : K := p.x * p.x + p.y * p.y

/-- The source `perp`. -/
def perp (p : pt K) : pt K := ⟨-p.y, p.x⟩

/-- The source `dot`. -/
def dot (v w : pt K) : K := v.x * w.x + v.y * w.y

/-- The source `cross`. -/
def cross (v w : pt K) : K := v.x * w.y - v.y * w.x

/-- The source `orient`. -/
def orient (a b c : pt K) : K := cross (b - a) (c - a)

/-- The source `struct line { pt v; T c; }`. -/
@[ext]
structure line (K : Type) where
  v : pt K
  c : K
deriving DecidableEq, Repr

namespace line

/-- The source constructor `line(pt p, pt q)`: `v = q - p; c = cross(v, p);`. -/
def ofPoints (p q : pt K) : line K := ⟨q - p, cross (q - p) p⟩

/-- The source `line::side`. -/
def side (l : line K) (p : pt K) : K := cross l.v p - l.c

/-- The source `line::refl`: `p - perp(v) * 2 * side(p) / sq(v)`. -/
def refl (l : line K) (p : pt K) : pt K := p - perp l.v * (2 : K) * l.side p / sq l.v

end line

/-- The source `inter(l1, l2, out)`: the returned flag and the value of `out` after the call. -/
def inter (l1 l2 : line K) (out : pt K) : Bool × pt K :=
  let d := cross l1.v l2.v
  if d = 0 then (false, out)
  else (true, (l2.v * l1.c - l1.v * l2.c) / d)

/-- The source `inDisk`. -/
def inDisk (a b p : pt K) : Bool := decide (dot (a - p) (b - p) ≤ 0)

/-- The source `onSegment`. -/
def onSegment (a b p : pt K) : Bool := decide (orient a b p = 0) && inDisk a b p

/-- The source `properInter(a, b, c, d, i)`: the returned flag and the value of `i` after
the call. -/
def properInter (a b c d i : pt K) : Bool × pt K :=
  let oa := orient c d a
  let ob := orient c d b
  let oc := orient a b c
  let od := orient a b d
  if oa * ob < 0 ∧ oc * od < 0 then (true, (a * ob - b * oa) / (ob - oa))
  else (false, i)

/-- The source `inters`.  Its local `pt out;` is uninitialised in the source; the flag
returned by `properInter` does not depend on it, so any initial content will do. -/
def inters (a b c d : pt K) : Bool :=
  let out : pt K := ⟨0, 0⟩
  if (properInter a b c d out).1 then true
  else if onSegment c d a then true
  else if onSegment c d b then true
  else if onSegment a b c then true
  else if onSegment a b d then true
  else false

/-! ## Convex hull, monotone chain

The global buffer `H` together with the index `st` is a stack: only `H[0..st-1]` is ever
read, `st--` drops the newest entry and `H[st++] = p` adds one.  The stack is held as a list
with the newest entry `H[st-1]` first.

`H` is the array `pt H[100000 + 5]` and the source writes `H[st++]` without a bound check.
`hullStep`, `lowerPass`, `upperPass`, `hullBuffer` and `monotoneChain` describe the steps of
a run all of whose writes are inside the array; `hullStepH`, `lowerPassH`, `upperPassH` and
`monotoneChainH` below are the same run with the array bound checked at every write. -/

/-- The call `sort(points.begin(), points.end())`, which orders by `pt::operator<`. -/
def sortPoints (points : List (pt K)) : List (pt K) :=
  points.insertionSort pt.le

/-- The inner loop `while (st >= lim and orient(H[st-2], H[st-1], p) < 0) st--;`
(`lim` is `2` in the first pass and `taken + 2` in the second). -/
def popWhile (lim : Int) (p : pt K) : List (pt K) → List (pt K)
  | b :: a :: rest =>
    if lim ≤ ((rest.length + 2 : Nat) : Int) ∧ orient a b p < 0 then popWhile lim p (a :: rest)
    else b :: a :: rest
  | s => s

/-- One turn of either `for` loop: the inner `while`, then `H[st++] = p`. -/
def hullStep (lim : Int) (H : List (pt K)) (p : pt K) : List (pt K) :=
  p :: popWhile lim p H

/-- The stack after the first `for` loop (lower hull), run over the sorted points. -/
def lowerPass (sorted : List (pt K)) : List (pt K) :=
  sorted.foldl (hullStep 2) []

/-- The stack after the second `for` loop, which visits `points[n-2]`, ..., `points[0]`
with `taken = st - 1`. -/
def upperPass (sorted : List (pt K)) : List (pt K) :=
  let low := lowerPass sorted
  let taken : Int := (low.length : Int) - 1
  sorted.reverse.tail.foldl (hullStep (taken + 2)) low

/-- The buffer `H[0..st-1]` left by `monotoneChain(points)`, oldest entry first. -/
def hullBuffer (points : List (pt K)) : List (pt K) :=
  (upperPass (sortPoints points)).reverse

/-- The value `st` returned by `monotoneChain(points)`. -/
def monotoneChain (points : List (pt K)) : Int :=
  ((hullBuffer points).length : Int)

/-- The hull polygon: the buffer read up to the returned length minus the duplicated
closing point, `H[0..st-2]`. -/
def hullVertices (points : List (pt K)) : List (pt K) :=
  (hullBuffer points).dropLast

/-- The number of entries of the global array `pt H[100000 + 5]`. -/
def Hsize : Nat := 100005

/-- One turn of either `for` loop on the array `H`: the inner `while`, then the write
`H[st++] = p`, which is inside the array only when `st < Hsize`.  `none` is a run that has
written past the end of `H` (undefined behaviour), after which nothing is known. -/
def hullStepH (lim : Int) (H : Option (List (pt K))) (p : pt K) : Option (List (pt K)) :=
  match H with
  | none => none
  | some S => if (popWhile lim p S).length < Hsize then some (p :: popWhile lim p S) else none

/-- The first `for` loop on the array `H`. -/
def lowerPassH (sorted : List (pt K)) : Option (List (pt K)) :=
  sorted.foldl (hullStepH 2) (some [])

/-- The second `for` loop on the array `H`, with `taken = st - 1`. -/
def upperPassH (sorted : List (pt K)) : Option (List (pt K)) :=
  match lowerPassH sorted with
  | none => none
  | some low =>
    let taken : Int := (low.length : Int) - 1
    sorted.reverse.tail.foldl (hullStepH (taken + 2)) (some low)

/-- The source `monotoneChain` on the array `H`: the returned value `st` together with the
buffer `H[0..st-1]`, oldest entry first; `none` when a write went past the end of `H`. -/
def monotoneChainH (points : List (pt K)) : Option (Int × List (pt K)) :=
  match upperPassH (sortPoints points) with
  | none => none
  | some S => some ((S.length : Int), S.reverse)

/-- The input `(0,0), (1,0), ..., (n-1,0)`: `n` distinct points on the x-axis. -/
def flatRow (n : Nat) : List (pt K) :=
  (List.range n).map (fun (i : Nat) => (⟨(i : K), 0⟩ : pt K))

/-! ## Lines: the remaining constructors and metric functions

`sqrt` is the C library function; it is taken as a parameter `sqrt : K → K`, so that the
definitions stay executable and the theorems can state what they need of it. -/

/-- The source `abs(pt p)`: `sqrt(sq(p))`. -/
def abs (sqrt : K → K) (p : pt K) : K := sqrt (sq p)

namespace line

/-- The source constructor `line(T a, T b, T c)`: `v = pt(b, -a); c = c;`.  The parameter `c`
hides the member of the same name, so `c = c` assigns the parameter to itself and the member
`c` is never written; `c0` is the content the member's storage happens to hold. -/
def ofEquation (a b c : K) (c0 : K) : line K :=
  let _unused := c
  ⟨⟨b, -a⟩, c0⟩

/-- The source constructor `line(pt v, T c)`: `v = v; c = c;`.  Both parameters hide the
members, so neither member is written; `v0` and `c0` are the contents their storage happens
to hold. -/
def ofDirection (v : pt K) (c : K) (v0 : pt K) (c0 : K) : line K :=
  let _unused := (v, c)
  ⟨v0, c0⟩

/-- The source `line::dist`: `abs(side(p)) / abs(v)`, the first `abs` on a scalar. -/
def dist (sqrt : K → K) (l : line K) (p : pt K) : K := |l.side p| / abs sqrt l.v

/-- The source `line::sqDist`. -/
def sqDist (l : line K) (p : pt K) : K := l.side p * l.side p / sq l.v

/-- The source `line::cmpProj`. -/
def cmpProj (l : line K) (p q : pt K) : Bool := decide (dot l.v p < dot l.v q)

/-- The source `line::translate`: `line(v, c + cross(v, t))`, built by the direction/offset
constructor (whose members keep the storage contents `v0`, `c0`). -/
def translate (l : line K) (t : pt K) (v0 : pt K) (c0 : K) : line K :=
  ofDirection l.v (l.c + cross l.v t) v0 c0

/-- The source `line::proj`. -/
def proj (l : line K) (p : pt K) : pt K := p - perp l.v * l.side p / sq l.v

end line

/-- The source `segPoint`. -/
def segPoint (sqrt : K → K) (a b p : pt K) : K :=
  if a ≠ b ∧ (line.ofPoints a b).cmpProj a p = true ∧ (line.ofPoints a b).cmpProj p b = true then
    (line.ofPoints a b).dist sqrt p
  else min (abs sqrt (p - a)) (abs sqrt (p - b))

/-- The source `segSeg`. -/
def segSeg (sqrt : K → K) (a b c d : pt K) : K :=
  let dummy : pt K := ⟨0, 0⟩
  if (properInter a b c d dummy).1 then 0
  else min (min (min (segPoint sqrt a b c) (segPoint sqrt a b d)) (segPoint sqrt c d a))
    (segPoint sqrt c d b)

/-! ## Polygons -/

/-- Truncation towards zero: the integer part kept when a `double` is converted to an
integer type. -/
def trunc [FloorRing K] (x : K) : Int := if 0 ≤ x then ⌊x⌋ else ⌈x⌉

/-- The conversion `int o = ...` of a `double` to the 32-bit `int`: truncation towards zero
when the truncated value is in the range of `int`, from `-2^31` to `2^31 - 1`; outside that
range the conversion is undefined, which is `none` here. -/
def toInt [FloorRing K] (x : K) : Option Int :=
  if -2147483648 ≤ trunc x ∧ trunc x ≤ 2147483647 then some (trunc x) else none

/-- The source `isConvex`; `p[i]` is read as `p.getD i`, every index being in range.  The
result is `none` when one of the conversions `int o = orient(...)` is undefined. -/
def isConvex [FloorRing K] (p : List (pt K)) : Option Bool :=
  let n := p.length
  let flags := (List.range n).foldl (fun (s : Option (Bool × Bool)) i =>
    match s, toInt (orient (p.getD i ⟨0, 0⟩) (p.getD ((i + 1) % n) ⟨0, 0⟩)
        (p.getD ((i + 2) % n) ⟨0, 0⟩)) with
    | some s, some o => some (if 0 < o then true else s.1, if o < 0 then true else s.2)
    | _, _ => none) (some (false, false))
  match flags with
  | some f => some (!(f.1 && f.2))
  | none => none

/-- The sum `area` accumulated by the loop of `areaPolygon` (before `fabs` and halving). -/
def shoelaceSum (p : List (pt K)) : K :=
  let n := p.length
  (List.range n).foldl (fun area i =>
    area + cross (p.getD i ⟨0, 0⟩) (p.getD ((i + 1) % n) ⟨0, 0⟩)) 0

/-- The source `areaPolygon`: `fabs(area) / 2.0`. -/
def areaPolygon (p : List (pt K)) : K := |shoelaceSum p| / 2

/-- The source `pointInPolygon`. -/
def pointInPolygon (p : List (pt K)) (q : pt K) : Bool :=
  let n := p.length
  (List.range n).foldl (fun (c : Bool) i =>
    let pi := p.getD i ⟨0, 0⟩
    let pj := p.getD ((i + 1) % n) ⟨0, 0⟩
    if ((pi.y ≤ q.y ∧ q.y < pj.y) ∨ (pj.y ≤ q.y ∧ q.y < pi.y)) ∧
        q.x < pi.x + (pj.x - pi.x) * (q.y - pi.y) / (pj.y - pi.y) then !c else c) false

/-- The source `centroidPolygon`. -/
def centroidPolygon (p : List (pt K)) : pt K :=
  let n := p.length
  let scale := 6 * areaPolygon p
  let c := (List.range n).foldl (fun (c : pt K) i =>
    c + (p.getD i ⟨0, 0⟩ + p.getD ((i + 1) % n) ⟨0, 0⟩) *
      cross (p.getD i ⟨0, 0⟩) (p.getD ((i + 1) % n) ⟨0, 0⟩)) ⟨0, 0⟩
  c / scale

/-! ## Circles -/

/-- The source `circleLine`: the returned count and the value of `out` after the call. -/
def circleLine (sqrt : K → K) (c : pt K) (r : K) (l : line K) (out : pt K × pt K) :
    Int × (pt K × pt K) :=
  let h2 := r * r - l.sqDist c
  if h2 < 0 then (0, out)
  else
    let p := l.proj c
    let h := l.v * sqrt h2 / abs sqrt l.v
    (1 + (if 0 < h2 then 1 else 0), (p - h, p + h))

/-- The source `circleCircle`: `none` when `assert(r1 != r2)` aborts, otherwise the returned
count and the value of `out` after the call.  The last line is `return 1 + h2 > 0;`, which
C++ reads as `(1 + h2) > 0`, a `bool` converted to `int`. -/
def circleCircle (sqrt : K → K) (c1 : pt K) (r1 : K) (c2 : pt K) (r2 : K)
    (out : pt K × pt K) : Option (Int × (pt K × pt K)) :=
  let d := c2 - c1
  let d2 := sq d
  if d2 = 0 then
    if r1 ≠ r2 then some (0, out) else none
  else
    let pd := (d2 + r1 * r1 - r2 * r2) / 2
    let h2 := r1 * r1 - pd * pd / d2
    if h2 < 0 then some (0, out)
    else
      let p := c1 + d * pd / d2
      let h := perp d * sqrt (h2 / d2)
      some (if 1 + h2 > 0 then 1 else 0, (p - h, p + h))

/-- The orientation of the `i`-th vertex triple of a polygon, as read by `isConvex`:
`orient(p[i], p[(i+1) % n], p[(i+2) % n])`. -/
def orientAt (p : List (pt K)) (i : Nat) : K :=
  orient (p.getD i ⟨0, 0⟩) (p.getD ((i + 1) % p.length) ⟨0, 0⟩)
    (p.getD ((i + 2) % p.length) ⟨0, 0⟩)

/-! ## Polygon edges as a list (used in the proofs about the polygon loops) -/

/-- The consecutive pairs `(L[0], L[1]), (L[1], L[2]), ...` of a list. -/
def edges {α : Type} (L : List α) : List (α × α) := L.zip L.tail

/-- The closed walk of a polygon: the vertex list followed by its first vertex again. -/
def closeWalk {α : Type} (p : List α) : List α := p ++ p.take 1

/-! ## Segments as point sets (the geometric reading used by the segment claims) -/

/-- The closed segment with endpoints `a` and `b`: the points `a + (b - a) * t`, `0 ≤ t ≤ 1`. -/
def OnSeg (a b x : pt K) : Prop := ∃ t : K, 0 ≤ t ∧ t ≤ 1 ∧ x = a + (b - a) * t

/-- The expression `(a * ob - b * oa) / (ob - oa)` that `properInter` assigns to `i` in its
true branch. -/
def crossPoint (a b c d : pt K) : pt K :=
  (a * orient c d b - b * orient c d a) / (orient c d b - orient c d a)

/-! ## Invariants of the hull passes (used in the proofs about `monotoneChain`) -/

/-- The properties of a visiting order that the scan argument rests on: a total order on
points together with the four turn lemmas. -/
structure TurnOrder (le : pt K → pt K → Prop) : Prop where
  refl : ∀ a, le a a
  total : ∀ a b, le a b ∨ le b a
  trans : ∀ a b c, le a b → le b c → le a c
  antisymm : ∀ a b, le a b → le b a → a = b
  pop_low : ∀ o t p q, le o t → le o q → le o p → 0 ≤ orient o t q → orient o t p < 0 →
    0 ≤ orient o p q
  pop_high : ∀ o t p q, le o p → le t p → le q p → orient o t p < 0 → 0 ≤ orient t p q →
    0 ≤ orient o p q
  ext_fwd : ∀ s t p q, le s t → s ≠ t → le q t → le t p → 0 ≤ orient s t q →
    0 ≤ orient s t p → 0 ≤ orient t p q
  ext_bwd : ∀ a b c q, le a b → le b c → b ≠ c → le b q → 0 ≤ orient a b c →
    0 ≤ orient b c q → 0 ≤ orient a b q

/-- Edge `u → v` of a chain (`v` newer than `u`): both ends are visited points, `u` comes
first, and every visited point between them in the order lies on or left of the edge. -/
def LocalLeft (le : pt K → pt K → Prop) (P : Set (pt K)) (v u : pt K) : Prop :=
  v ∈ P ∧ u ∈ P ∧ le u v ∧ ∀ q ∈ P, le u q → le q v → 0 ≤ orient u v q

/-- Every three consecutive entries of a stack (newest first) make a left turn or are
collinear. -/
def LeftTurns : List (pt K) → Prop
  | c :: b :: a :: r => 0 ≤ orient a b c ∧ LeftTurns (b :: a :: r)
  | _ => True

/-- The invariant of one pass: `S` is the stack (newest first) after the points `P` were
visited. -/
structure ScanInv (le : pt K → pt K → Prop) (P : Set (pt K)) (S : List (pt K)) : Prop where
  mem : ∀ x ∈ S, x ∈ P
  top : ∀ t ∈ S.head?, ∀ q ∈ P, le q t
  edges : S.Chain' (LocalLeft le P)
  turns : LeftTurns S

/-! ## The hull polygon and its vertex mean (used in the proofs about
`pointInPolygon`) -/

/-- The arithmetic mean of a list of points (the centroid of the vertices). -/
def vertexMean (V : List (pt K)) : pt K :=
  V.foldl (fun s w => s + w) ⟨0, 0⟩ / (V.length : K)

/-- A stack (newest first) along which a key `g` that does not rise from an entry to the
next newer one has not risen before either: `g c ≤ g b → g b ≤ g a` for consecutive entries
`c, b, a`. -/
def Persist (g : pt K → K) : List (pt K) → Prop
  | c :: b :: a :: r => (g c ≤ g b → g b ≤ g a) ∧ Persist g (b :: a :: r)
  | _ => True

/-- The condition under which the loop of `pointInPolygon` toggles, for the edge `e` from
`p[i]` to `p[j]`. -/
def Toggles (q : pt K) (e : pt K × pt K) : Prop :=
  ((e.1.y ≤ q.y ∧ q.y < e.2.y) ∨ (e.2.y ≤ q.y ∧ q.y < e.1.y)) ∧
    q.x < e.1.x + (e.2.x - e.1.x) * (q.y - e.1.y) / (e.2.y - e.1.y)

instance (q : pt K) : DecidablePred (Toggles q) := fun e =>
  inferInstanceAs (Decidable (((e.1.y ≤ q.y ∧ q.y < e.2.y) ∨ (e.2.y ≤ q.y ∧ q.y < e.1.y)) ∧
    q.x < e.1.x + (e.2.x - e.1.x) * (q.y - e.1.y) / (e.2.y - e.1.y)))

/-! ## Component lemmas for the vector operations -/

@[simp] theorem pt.add_x (a b : pt K) : (a + b).x = a.x + b.x := rfl
@[simp] theorem pt.add_y (a b : pt K) : (a + b).y = a.y + b.y := rfl
@[simp] theorem pt.sub_x (a b : pt K) : (a - b).x = a.x - b.x := rfl
@[simp] theorem pt.sub_y (a b : pt K) : (a - b).y = a.y - b.y := rfl
@[simp] theorem pt.mul_x (a : pt K) (d : K) : (a * d).x = a.x * d := rfl
@[simp] theorem pt.mul_y (a : pt K) (d : K) : (a * d).y = a.y * d := rfl
@[simp] theorem pt.div_x (a : pt K) (d : K) : (a / d).x = a.x / d := rfl
@[simp] theorem pt.div_y (a : pt K) (d : K) : (a / d).y = a.y / d := rfl

theorem orient_eq (a b c : pt K) :
    orient a b c = (b.x - a.x) * (c.y - a.y) - (b.y - a.y) * (c.x - a.x) := rfl

theorem sq_pos_of_ne {p q : pt K} (h : p ≠ q) : 0 < sq (q - p) := by
  have hne : q.x - p.x ≠ 0 ∨ q.y - p.y ≠ 0 := by
    by_contra hcon
    push_neg at hcon
    exact h (pt.ext (sub_eq_zero.mp hcon.1).symm (sub_eq_zero.mp hcon.2).symm)
  simp only [sq, pt.sub_x, pt.sub_y]
  rcases hne with hx | hy
  · have := mul_self_pos.mpr hx
    have := mul_self_nonneg (q.y - p.y)
    linarith
  · have := mul_self_pos.mpr hy
    have := mul_self_nonneg (q.x - p.x)
    linarith

/-! ## Orientation -/

/-- C6: `orient(p,p,p) = 0`, and swapping the last two arguments negates the orientation,
`orient(a,b,c) = -orient(a,c,b)`. -/
theorem orient_self_and_antisymm (a b c p : pt K) :
    orient p p p = 0 ∧ orient a b c = -orient a c b := by
  constructor
  · simp [orient_eq]
  · simp only [orient_eq]; ring

/-! ## Line intersection and reflection -/

/-- C7: `inter` returns false exactly when the cross product of the directions is zero, and
then `out` keeps its value; otherwise it returns true and the point written to `out` lies on
both lines.  The lines through (0,0)-(1,0) and (0,0)-(0,1) give the point (0,0). -/
theorem inter_spec (l1 l2 : line K) (out : pt K) :
    ((inter l1 l2 out).1 = false ↔ cross l1.v l2.v = 0) ∧
    ((inter l1 l2 out).1 = false → (inter l1 l2 out).2 = out) ∧
    ((inter l1 l2 out).1 = true →
      l1.side (inter l1 l2 out).2 = 0 ∧ l2.side (inter l1 l2 out).2 = 0) ∧
    inter (line.ofPoints (⟨0, 0⟩ : pt K) ⟨1, 0⟩) (line.ofPoints (⟨0, 0⟩ : pt K) ⟨0, 1⟩) out
      = (true, ⟨0, 0⟩) := by
  refine ⟨?_, ?_, ?_, ?_⟩
  · by_cases hd : cross l1.v l2.v = 0 <;> simp [inter, hd]
  · by_cases hd : cross l1.v l2.v = 0 <;> simp [inter, hd]
  · by_cases hd : cross l1.v l2.v = 0
    · simp [inter, hd]
    · intro _
      have hd2 : l1.v.x * l2.v.y - l1.v.y * l2.v.x ≠ 0 := hd
      have he : inter l1 l2 out = (true, (l2.v * l1.c - l1.v * l2.c) / cross l1.v l2.v) := by
        simp [inter, hd]
      rw [he]
      simp only [line.side, cross, pt.div_x, pt.div_y, pt.sub_x, pt.sub_y, pt.mul_x, pt.mul_y]
      constructor
      · field_simp
        ring
      · field_simp
        ring
  · simp [inter, line.ofPoints, cross]
    ext <;> simp

/-- C8: reflection in a line built from two distinct points is an involution:
`l.refl(l.refl(p)) = p`. -/
theorem refl_refl (p1 p2 p : pt K) (h : p1 ≠ p2) :
    (line.ofPoints p1 p2).refl ((line.ofPoints p1 p2).refl p) = p := by
  have hs : 0 < sq (p2 - p1) := sq_pos_of_ne h
  have hs2 : (p2.x - p1.x) * (p2.x - p1.x) + (p2.y - p1.y) * (p2.y - p1.y) ≠ 0 := ne_of_gt hs
  ext
  · simp only [line.refl, line.side, line.ofPoints, cross, perp, sq, pt.sub_x, pt.sub_y,
      pt.mul_x, pt.mul_y, pt.div_x, pt.div_y]
    field_simp
    ring
  · simp only [line.refl, line.side, line.ofPoints, cross, perp, sq, pt.sub_x, pt.sub_y,
      pt.mul_x, pt.mul_y, pt.div_x, pt.div_y]
    field_simp
    ring

/-- Witness for `refl_refl`: the x-axis line through (0,0) and (1,0), reflecting (2,3). -/
theorem refl_refl_witness :
    ((⟨0, 0⟩ : pt ℚ) ≠ ⟨1, 0⟩) ∧
    (line.ofPoints (⟨0, 0⟩ : pt ℚ) ⟨1, 0⟩).refl
      ((line.ofPoints (⟨0, 0⟩ : pt ℚ) ⟨1, 0⟩).refl ⟨2, 3⟩) = ⟨2, 3⟩ :=
  ⟨by decide, refl_refl _ _ _ (by decide)⟩

/-! ## The order used by `sort` -/

theorem ptLe_iff (a p : pt K) : pt.le a p ↔ a.x < p.x ∨ (a.x = p.x ∧ a.y ≤ p.y) := by
  unfold pt.le pt.lt
  by_cases h : p.x = a.x
  · simp [h]
  · simp only [ne_eq, h, not_false_eq_true, if_true, not_lt]
    constructor
    · intro hle
      exact Or.inl (lt_of_le_of_ne hle (fun e => h e.symm))
    · rintro (hlt | ⟨e, _⟩)
      · exact le_of_lt hlt
      · exact absurd e.symm h

theorem ptLe_refl (a : pt K) : pt.le a a := by
  rw [ptLe_iff]; exact Or.inr ⟨rfl, le_rfl⟩

theorem ptLe_total (a b : pt K) : pt.le a b ∨ pt.le b a := by
  rw [ptLe_iff, ptLe_iff]
  rcases lt_trichotomy a.x b.x with h | h | h
  · exact Or.inl (Or.inl h)
  · rcases le_total a.y b.y with hy | hy
    · exact Or.inl (Or.inr ⟨h, hy⟩)
    · exact Or.inr (Or.inr ⟨h.symm, hy⟩)
  · exact Or.inr (Or.inl h)

theorem ptLe_trans {a b c : pt K} (hab : pt.le a b) (hbc : pt.le b c) : pt.le a c := by
  rw [ptLe_iff] at *
  rcases hab with h1 | ⟨h1, h1y⟩ <;> rcases hbc with h2 | ⟨h2, h2y⟩
  · exact Or.inl (lt_trans h1 h2)
  · exact Or.inl (h2 ▸ h1)
  · exact Or.inl (h1 ▸ h2)
  · exact Or.inr ⟨h1.trans h2, le_trans h1y h2y⟩

theorem ptLe_antisymm {a b : pt K} (hab : pt.le a b) (hba : pt.le b a) : a = b := by
  rw [ptLe_iff] at *
  rcases hab with h1 | ⟨h1, h1y⟩ <;> rcases hba with h2 | ⟨h2, h2y⟩
  · exact absurd h1 (not_lt.mpr (le_of_lt h2))
  · exact absurd h1 (by rw [h2]; exact lt_irrefl _)
  · exact absurd h2 (by rw [h1]; exact lt_irrefl _)
  · exact pt.ext h1 (le_antisymm h1y h2y)

theorem sortPoints_sorted (l : List (pt K)) : (sortPoints l).Sorted pt.le := by
  haveI : IsTotal (pt K) pt.le := ⟨ptLe_total⟩
  haveI : IsTrans (pt K) pt.le := ⟨fun _ _ _ => ptLe_trans⟩
  exact List.sorted_insertionSort pt.le l

theorem sortPoints_perm (l : List (pt K)) : (sortPoints l).Perm l :=
  List.perm_insertionSort pt.le l

theorem sortPoints_eq_of_perm {l1 l2 : List (pt K)} (h : l1.Perm l2) :
    sortPoints l1 = sortPoints l2 := by
  haveI : IsAntisymm (pt K) pt.le := ⟨fun _ _ => ptLe_antisymm⟩
  exact List.eq_of_perm_of_sorted
    ((sortPoints_perm l1).trans (h.trans (sortPoints_perm l2).symm))
    (sortPoints_sorted l1) (sortPoints_sorted l2)

theorem mem_sortPoints {l : List (pt K)} {p : pt K} : p ∈ sortPoints l ↔ p ∈ l :=
  (sortPoints_perm l).mem_iff

/-- The steps of `monotoneChain` do not depend on the order of the input: for two lists that are
permutations of each other the returned length and the buffer contents agree. -/
theorem hullBuffer_perm (l1 l2 : List (pt K)) (h : l1.Perm l2) :
    monotoneChain l1 = monotoneChain l2 ∧ hullBuffer l1 = hullBuffer l2 := by
  unfold monotoneChain hullBuffer
  rw [sortPoints_eq_of_perm h]
  exact ⟨rfl, rfl⟩

/-- C5: on the unit square with its centre, (0,0),(1,0),(1,1),(0,1),(1/2,1/2), the buffer is
(0,0),(1,0),(1,1),(0,1),(0,0) with returned length 5, so the hull read up to the length minus
the closing point is (0,0),(1,0),(1,1),(0,1) and the interior point is left out. -/
theorem monotoneChain_unit_square :
    hullBuffer ([⟨0, 0⟩, ⟨1, 0⟩, ⟨1, 1⟩, ⟨0, 1⟩, ⟨1 / 2, 1 / 2⟩] : List (pt K))
      = [⟨0, 0⟩, ⟨1, 0⟩, ⟨1, 1⟩, ⟨0, 1⟩, ⟨0, 0⟩] ∧
    monotoneChain ([⟨0, 0⟩, ⟨1, 0⟩, ⟨1, 1⟩, ⟨0, 1⟩, ⟨1 / 2, 1 / 2⟩] : List (pt K)) = 5 ∧
    hullVertices ([⟨0, 0⟩, ⟨1, 0⟩, ⟨1, 1⟩, ⟨0, 1⟩, ⟨1 / 2, 1 / 2⟩] : List (pt K))
      = [⟨0, 0⟩, ⟨1, 0⟩, ⟨1, 1⟩, ⟨0, 1⟩] ∧
    (⟨1 / 2, 1 / 2⟩ : pt K) ∉
      hullVertices ([⟨0, 0⟩, ⟨1, 0⟩, ⟨1, 1⟩, ⟨0, 1⟩, ⟨1 / 2, 1 / 2⟩] : List (pt K)) := by
  have hb : hullBuffer ([⟨0, 0⟩, ⟨1, 0⟩, ⟨1, 1⟩, ⟨0, 1⟩, ⟨1 / 2, 1 / 2⟩] : List (pt K))
      = [⟨0, 0⟩, ⟨1, 0⟩, ⟨1, 1⟩, ⟨0, 1⟩, ⟨0, 0⟩] := by
    norm_num [hullBuffer, upperPass, lowerPass, sortPoints, hullStep, popWhile, orient_eq,
      pt.le, pt.lt, List.insertionSort, List.orderedInsert]
  refine ⟨hb, ?_, ?_, ?_⟩
  · rw [monotoneChain, hb]; rfl
  · rw [hullVertices, hb]; rfl
  · rw [hullVertices, hb]
    norm_num [List.dropLast]

/-! ## Segments: `onSegment`, `properInter`, `inters` -/

theorem onSeg_iff (a b x : pt K) :
    OnSeg a b x ↔ ∃ t : K, 0 ≤ t ∧ t ≤ 1 ∧ x.x = a.x + (b.x - a.x) * t ∧
      x.y = a.y + (b.y - a.y) * t := by
  unfold OnSeg
  constructor
  · rintro ⟨t, h0, h1, rfl⟩
    exact ⟨t, h0, h1, rfl, rfl⟩
  · rintro ⟨t, h0, h1, hx, hy⟩
    exact ⟨t, h0, h1, pt.ext hx hy⟩

theorem onSeg_left (a b : pt K) : OnSeg a b a :=
  (onSeg_iff a b a).2 ⟨0, le_rfl, zero_le_one, by simp, by simp⟩

theorem onSeg_right (a b : pt K) : OnSeg a b b :=
  (onSeg_iff a b b).2 ⟨1, zero_le_one, le_rfl, by simp, by simp⟩

theorem onSegment_iff (a b p : pt K) : onSegment a b p = true ↔ OnSeg a b p := by
  rw [onSeg_iff]
  simp only [onSegment, inDisk, Bool.and_eq_true, decide_eq_true_eq, orient_eq, dot,
    pt.sub_x, pt.sub_y]
  constructor
  · rintro ⟨ho, hd⟩
    by_cases hab : a = b
    · subst hab
      have hx := mul_self_nonneg (a.x - p.x)
      have hy := mul_self_nonneg (a.y - p.y)
      have h1 : a.x - p.x = 0 := mul_self_eq_zero.mp (by linarith)
      have h2 : a.y - p.y = 0 := mul_self_eq_zero.mp (by linarith)
      exact ⟨0, le_rfl, zero_le_one, by linarith, by linarith⟩
    · have hS : 0 < sq (b - a) := sq_pos_of_ne hab
      simp only [sq, pt.sub_x, pt.sub_y] at hS
      set S := (b.x - a.x) * (b.x - a.x) + (b.y - a.y) * (b.y - a.y) with hSdef
      set m := (p.x - a.x) * (b.x - a.x) + (p.y - a.y) * (b.y - a.y) with hmdef
      have hSne : S ≠ 0 := ne_of_gt hS
      have hx : p.x = a.x + (b.x - a.x) * (m / S) := by
        field_simp
        linear_combination (-(b.y - a.y)) * ho
      have hy : p.y = a.y + (b.y - a.y) * (m / S) := by
        field_simp
        linear_combination (b.x - a.x) * ho
      have hkey : (m / S) * (m / S) * S ≤ (m / S) * S := by
        have e1 : (m / S) * S = m := by field_simp
        have e2 : (m / S) * (m / S) * S =
            (p.x - a.x) * (p.x - a.x) + (p.y - a.y) * (p.y - a.y) := by
          have hx' : p.x - a.x = (b.x - a.x) * (m / S) := by linarith
          have hy' : p.y - a.y = (b.y - a.y) * (m / S) := by linarith
          rw [hx', hy', hSdef]; ring
        rw [e1, e2, hmdef]
        linarith
      refine ⟨m / S, ?_, ?_, hx, hy⟩
      · by_contra hneg
        push_neg at hneg
        have : 0 < (m / S) * (m / S) * S := mul_pos (mul_pos_of_neg_of_neg hneg hneg) hS
        nlinarith
      · by_contra hneg
        push_neg at hneg
        nlinarith [mul_pos (lt_trans zero_lt_one hneg) hS, mul_pos (mul_pos (sub_pos.mpr hneg) hS) (lt_trans zero_lt_one hneg)]
  · rintro ⟨t, h0, h1, hx, hy⟩
    constructor
    · rw [hx, hy]; ring
    · rw [hx, hy]
      have := mul_nonneg (mul_nonneg h0 (sub_nonneg.mpr h1))
        (add_nonneg (mul_self_nonneg (b.x - a.x)) (mul_self_nonneg (b.y - a.y)))
      nlinarith

theorem orient_onSeg (c d a b : pt K) (t : K) :
    orient c d (a + (b - a) * t) = (1 - t) * orient c d a + t * orient c d b := by
  simp only [orient_eq, pt.add_x, pt.add_y, pt.sub_x, pt.sub_y, pt.mul_x, pt.mul_y]
  ring

theorem orient_eq_zero_of_onSeg {c d x : pt K} (h : OnSeg c d x) : orient c d x = 0 := by
  obtain ⟨t, _, _, rfl⟩ := h
  simp only [orient_eq, pt.add_x, pt.add_y, pt.sub_x, pt.sub_y, pt.mul_x, pt.mul_y]
  ring

theorem orient_diff (a b c d : pt K) :
    orient a b c - orient a b d = orient c d b - orient c d a := by
  simp only [orient_eq]; ring

theorem crossPoint_onSeg_left {a b c d : pt K} (h1 : orient c d a * orient c d b < 0) :
    ∃ t : K, 0 < t ∧ t < 1 ∧ crossPoint a b c d = a + (b - a) * t := by
  have hD : orient c d b - orient c d a ≠ 0 := by
    intro h
    have : orient c d b = orient c d a := by linarith
    rw [this] at h1
    exact absurd h1 (not_lt.mpr (mul_self_nonneg _))
  refine ⟨orient c d a / (orient c d a - orient c d b), ?_, ?_, ?_⟩
  · rcases mul_neg_iff.mp h1 with ⟨ha, hb⟩ | ⟨ha, hb⟩
    · exact div_pos ha (by linarith)
    · exact div_pos_of_neg_of_neg ha (by linarith)
  · rcases mul_neg_iff.mp h1 with ⟨ha, hb⟩ | ⟨ha, hb⟩
    · rw [div_lt_one (by linarith)]; linarith
    · rw [div_lt_one_of_neg (by linarith)]; linarith
  · have hD' : orient c d a - orient c d b ≠ 0 := fun h => hD (by linarith)
    ext
    · simp only [crossPoint, pt.add_x, pt.sub_x, pt.mul_x, pt.div_x]
      field_simp
      ring
    · simp only [crossPoint, pt.add_y, pt.sub_y, pt.mul_y, pt.div_y]
      field_simp
      ring

theorem crossPoint_symm {a b c d : pt K} (hD : orient c d b - orient c d a ≠ 0) :
    crossPoint a b c d = crossPoint c d a b := by
  have hD' : orient a b d - orient a b c ≠ 0 := by
    have := orient_diff a b c d
    intro h
    exact hD (by linarith)
  unfold crossPoint
  ext
  · simp only [pt.sub_x, pt.mul_x, pt.div_x]
    rw [div_eq_div_iff hD hD']
    simp only [orient_eq]; ring
  · simp only [pt.sub_y, pt.mul_y, pt.div_y]
    rw [div_eq_div_iff hD hD']
    simp only [orient_eq]; ring

theorem collinear_param {c d p : pt K} (hcd : c ≠ d) (ho : orient c d p = 0) :
    ∃ α : K, p.x = c.x + (d.x - c.x) * α ∧ p.y = c.y + (d.y - c.y) * α := by
  have hS : 0 < sq (d - c) := sq_pos_of_ne hcd
  simp only [sq, pt.sub_x, pt.sub_y] at hS
  simp only [orient_eq] at ho
  have hSne : (d.x - c.x) * (d.x - c.x) + (d.y - c.y) * (d.y - c.y) ≠ 0 := ne_of_gt hS
  refine ⟨((p.x - c.x) * (d.x - c.x) + (p.y - c.y) * (d.y - c.y)) /
    ((d.x - c.x) * (d.x - c.x) + (d.y - c.y) * (d.y - c.y)), ?_, ?_⟩
  · field_simp
    linear_combination (-(d.y - c.y)) * ho
  · field_simp
    linear_combination (d.x - c.x) * ho

theorem param_inj {c d : pt K} (hcd : c ≠ d) {s r : K}
    (hx : (d.x - c.x) * s = (d.x - c.x) * r) (hy : (d.y - c.y) * s = (d.y - c.y) * r) : s = r := by
  by_cases h : d.x - c.x = 0
  · have h' : d.y - c.y ≠ 0 := by
      intro hy0
      exact hcd (pt.ext (by linarith) (by linarith))
    exact mul_left_cancel₀ h' hy
  · exact mul_left_cancel₀ h hx

/-- Two segments on one line that share a point: an endpoint of one lies on the other. -/
theorem collinear_overlap {a b c d x : pt K} (hcd : c ≠ d)
    (ha : orient c d a = 0) (hb : orient c d b = 0)
    (hab : OnSeg a b x) (hx : OnSeg c d x) :
    OnSeg c d a ∨ OnSeg c d b ∨ OnSeg a b c := by
  obtain ⟨α, hax, hay⟩ := collinear_param hcd ha
  obtain ⟨β, hbx, hby⟩ := collinear_param hcd hb
  obtain ⟨t, ht0, ht1, hxx, hxy⟩ := (onSeg_iff a b x).1 hab
  obtain ⟨s, hs0, hs1, hsx, hsy⟩ := (onSeg_iff c d x).1 hx
  have hs : s = α + (β - α) * t := by
    apply param_inj hcd
    · rw [hax, hbx] at hxx; rw [hxx] at hsx; linear_combination -hsx
    · rw [hay, hby] at hxy; rw [hxy] at hsy; linear_combination -hsy
  by_cases hα : 0 ≤ α ∧ α ≤ 1
  · exact Or.inl ((onSeg_iff c d a).2 ⟨α, hα.1, hα.2, hax, hay⟩)
  by_cases hβ : 0 ≤ β ∧ β ≤ 1
  · exact Or.inr (Or.inl ((onSeg_iff c d b).2 ⟨β, hβ.1, hβ.2, hbx, hby⟩))
  refine Or.inr (Or.inr ?_)
  have h1 : (β - α) * t ≤ max (β - α) 0 := by
    rcases le_total 0 (β - α) with h | h
    · rw [max_eq_left h]; exact mul_le_of_le_one_right h ht1
    · rw [max_eq_right h]; exact mul_nonpos_of_nonpos_of_nonneg h ht0
  have h2 : min (β - α) 0 ≤ (β - α) * t := by
    rcases le_total 0 (β - α) with h | h
    · rw [min_eq_right h]; exact mul_nonneg h ht0
    · rw [min_eq_left h]
      have := mul_le_mul_of_nonpos_left ht1 h
      linarith
  have hαβ : (α < 0 ∧ 1 < β) ∨ (1 < α ∧ β < 0) := by
    rcases lt_or_le α 0 with hα0 | hα0
    · have hβ1 : 1 < β := by
        by_contra hβ1
        push_neg at hβ1
        have hβ0 : β < 0 := by
          by_contra hβ0
          push_neg at hβ0
          exact hβ ⟨hβ0, hβ1⟩
        rcases le_total 0 (β - α) with h | h
        · rw [max_eq_left h] at h1; linarith
        · rw [max_eq_right h] at h1; linarith
      exact Or.inl ⟨hα0, hβ1⟩
    · have hα1 : 1 < α := by
        by_contra hα1
        push_neg at hα1
        exact hα ⟨hα0, hα1⟩
      have hβ0 : β < 0 := by
        by_contra hβ0
        push_neg at hβ0
        have hβ1 : 1 < β := by
          by_contra hβ1
          push_neg at hβ1
          exact hβ ⟨hβ0, hβ1⟩
        rcases le_total 0 (β - α) with h | h
        · rw [min_eq_right h] at h2; linarith
        · rw [min_eq_left h] at h2; linarith
      exact Or.inr ⟨hα1, hβ0⟩
  rw [onSeg_iff]
  rcases hαβ with ⟨h0, h1'⟩ | ⟨h1', h0⟩
  · have hne : β - α ≠ 0 := by linarith
    refine ⟨-α / (β - α), ?_, ?_, ?_, ?_⟩
    · exact div_nonneg (by linarith) (by linarith)
    · rw [div_le_one (by linarith)]; linarith
    · rw [hax, hbx]; field_simp; ring
    · rw [hay, hby]; field_simp; ring
  · have hne : α - β ≠ 0 := by linarith
    refine ⟨α / (α - β), ?_, ?_, ?_, ?_⟩
    · exact div_nonneg (by linarith) (by linarith)
    · rw [div_le_one (by linarith)]; linarith
    · rw [hax, hbx]; field_simp; ring
    · rw [hay, hby]; field_simp; ring

theorem properInter_fst (a b c d i : pt K) :
    (properInter a b c d i).1 = true ↔
      (orient c d a * orient c d b < 0 ∧ orient a b c * orient a b d < 0) := by
  unfold properInter
  by_cases h : orient c d a * orient c d b < 0 ∧ orient a b c * orient a b d < 0
  · simp [h]
  · simp only [h, if_false]
    simp

theorem properInter_snd (a b c d i : pt K)
    (h : orient c d a * orient c d b < 0 ∧ orient a b c * orient a b d < 0) :
    (properInter a b c d i).2 = crossPoint a b c d := by
  unfold properInter crossPoint
  simp [h]

theorem ne_of_orient_ne {c d x a : pt K} (hx : orient c d x = 0) (ha : orient c d a ≠ 0) :
    x ≠ a := by
  intro h
  rw [h] at hx
  exact ha hx

/-- When both orientation products are negative, the point computed by `properInter` lies on
both segments, is their only common point, and is none of the four endpoints. -/
theorem crossPoint_spec {a b c d : pt K}
    (h1 : orient c d a * orient c d b < 0) (h2 : orient a b c * orient a b d < 0) :
    OnSeg a b (crossPoint a b c d) ∧ OnSeg c d (crossPoint a b c d) ∧
    (∀ y, OnSeg a b y → OnSeg c d y → y = crossPoint a b c d) ∧
    crossPoint a b c d ≠ a ∧ crossPoint a b c d ≠ b ∧
    crossPoint a b c d ≠ c ∧ crossPoint a b c d ≠ d := by
  have hD : orient c d b - orient c d a ≠ 0 := by
    intro h
    have : orient c d b = orient c d a := by linarith
    rw [this] at h1
    exact absurd h1 (not_lt.mpr (mul_self_nonneg _))
  obtain ⟨t, ht0, ht1, hX⟩ := crossPoint_onSeg_left h1
  obtain ⟨s, hs0, hs1, hY⟩ := crossPoint_onSeg_left h2
  rw [← crossPoint_symm hD] at hY
  have hab : OnSeg a b (crossPoint a b c d) := ⟨t, le_of_lt ht0, le_of_lt ht1, hX⟩
  have hcd : OnSeg c d (crossPoint a b c d) := ⟨s, le_of_lt hs0, le_of_lt hs1, hY⟩
  have hoa : orient c d a ≠ 0 := fun h => by rw [h, zero_mul] at h1; exact lt_irrefl _ h1
  have hob : orient c d b ≠ 0 := fun h => by rw [h, mul_zero] at h1; exact lt_irrefl _ h1
  have hoc : orient a b c ≠ 0 := fun h => by rw [h, zero_mul] at h2; exact lt_irrefl _ h2
  have hod : orient a b d ≠ 0 := fun h => by rw [h, mul_zero] at h2; exact lt_irrefl _ h2
  refine ⟨hab, hcd, ?_, ne_of_orient_ne (orient_eq_zero_of_onSeg hcd) hoa,
    ne_of_orient_ne (orient_eq_zero_of_onSeg hcd) hob,
    ne_of_orient_ne (orient_eq_zero_of_onSeg hab) hoc,
    ne_of_orient_ne (orient_eq_zero_of_onSeg hab) hod⟩
  intro y hy1 hy2
  obtain ⟨r, _, _, hr⟩ := hy1
  have e1 : (1 - r) * orient c d a + r * orient c d b = 0 := by
    rw [← orient_onSeg, ← hr]; exact orient_eq_zero_of_onSeg hy2
  have e2 : (1 - t) * orient c d a + t * orient c d b = 0 := by
    rw [← orient_onSeg, ← hX]; exact orient_eq_zero_of_onSeg hcd
  have e3 : (r - t) * (orient c d b - orient c d a) = 0 := by linear_combination e1 - e2
  have e4 : r = t := by
    rcases mul_eq_zero.mp e3 with h | h
    · linarith
    · exact absurd h hD
  rw [hr, hX, e4]

theorem sign_dichotomy {t u v : K} (ht0 : 0 < t) (ht1 : t < 1)
    (h : (1 - t) * u + t * v = 0) : u * v < 0 ∨ (u = 0 ∧ v = 0) := by
  by_cases hv : v = 0
  · right
    refine ⟨?_, hv⟩
    rw [hv, mul_zero, add_zero] at h
    rcases mul_eq_zero.mp h with h' | h'
    · linarith
    · exact h'
  · left
    have hv2 : 0 < v * v := mul_self_pos.mpr hv
    have h3 : (1 - t) * (u * v) = -(t * (v * v)) := by linear_combination v * h
    have h4 : (1 - t) * (u * v) < 0 := by
      rw [h3]
      have := mul_pos ht0 hv2
      linarith
    by_contra hcon
    push_neg at hcon
    have := mul_nonneg (by linarith : (0 : K) ≤ 1 - t) hcon
    linarith

theorem onSeg_param_ne {a b x : pt K} {t : K} (hx : x = a + (b - a) * t)
    (hxa : x ≠ a) (hxb : x ≠ b) : t ≠ 0 ∧ t ≠ 1 ∧ a ≠ b := by
  refine ⟨?_, ?_, ?_⟩
  · intro h
    apply hxa
    rw [hx, h]
    ext <;> simp
  · intro h
    apply hxb
    rw [hx, h]
    ext <;> simp
  · intro h
    apply hxa
    rw [hx, h]
    ext <;> simp

/-- A common point of the two segments that is no endpoint: either both orientation
products are negative, or an endpoint of one segment lies on the other. -/
theorem common_point_cases {a b c d x : pt K} (hab : OnSeg a b x) (hcd : OnSeg c d x) :
    (orient c d a * orient c d b < 0 ∧ orient a b c * orient a b d < 0) ∨
    OnSeg c d a ∨ OnSeg c d b ∨ OnSeg a b c ∨ OnSeg a b d := by
  by_cases hxa : x = a
  · exact Or.inr (Or.inl (hxa ▸ hcd))
  by_cases hxb : x = b
  · exact Or.inr (Or.inr (Or.inl (hxb ▸ hcd)))
  by_cases hxc : x = c
  · exact Or.inr (Or.inr (Or.inr (Or.inl (hxc ▸ hab))))
  by_cases hxd : x = d
  · exact Or.inr (Or.inr (Or.inr (Or.inr (hxd ▸ hab))))
  obtain ⟨t, ht0, ht1, hxt⟩ := hab
  obtain ⟨s, hs0, hs1, hxs⟩ := hcd
  have hab : OnSeg a b x := ⟨t, ht0, ht1, hxt⟩
  have hcd : OnSeg c d x := ⟨s, hs0, hs1, hxs⟩
  obtain ⟨t0, t1, hneab⟩ := onSeg_param_ne hxt hxa hxb
  obtain ⟨s0, s1, hnecd⟩ := onSeg_param_ne hxs hxc hxd
  have e1 : (1 - t) * orient c d a + t * orient c d b = 0 := by
    rw [← orient_onSeg, ← hxt]; exact orient_eq_zero_of_onSeg hcd
  have e2 : (1 - s) * orient a b c + s * orient a b d = 0 := by
    rw [← orient_onSeg, ← hxs]; exact orient_eq_zero_of_onSeg hab
  rcases sign_dichotomy (lt_of_le_of_ne ht0 (Ne.symm t0)) (lt_of_le_of_ne ht1 t1) e1 with
    h1 | ⟨ha, hb⟩
  · rcases sign_dichotomy (lt_of_le_of_ne hs0 (Ne.symm s0)) (lt_of_le_of_ne hs1 s1) e2 with
      h2 | ⟨hc, hd⟩
    · exact Or.inl ⟨h1, h2⟩
    · rcases collinear_overlap hneab hc hd hcd hab with h | h | h
      · exact Or.inr (Or.inr (Or.inr (Or.inl h)))
      · exact Or.inr (Or.inr (Or.inr (Or.inr h)))
      · exact Or.inr (Or.inl h)
  · rcases collinear_overlap hnecd ha hb hab hcd with h | h | h
    · exact Or.inr (Or.inl h)
    · exact Or.inr (Or.inr (Or.inl h))
    · exact Or.inr (Or.inr (Or.inr (Or.inl h)))

/-- C9: `properInter` returns true exactly when the closed segments `ab` and `cd` have one
single common point and that point is none of the four endpoints; the point written to `i`
is then that common point. -/
theorem properInter_spec (a b c d i : pt K) :
    ((properInter a b c d i).1 = true ↔
      ∃ x, OnSeg a b x ∧ OnSeg c d x ∧ (∀ y, OnSeg a b y → OnSeg c d y → y = x) ∧
        x ≠ a ∧ x ≠ b ∧ x ≠ c ∧ x ≠ d) ∧
    ((properInter a b c d i).1 = true →
      OnSeg a b (properInter a b c d i).2 ∧ OnSeg c d (properInter a b c d i).2 ∧
      ∀ y, OnSeg a b y → OnSeg c d y → y = (properInter a b c d i).2) := by
  constructor
  · rw [properInter_fst]
    constructor
    · rintro ⟨h1, h2⟩
      exact ⟨crossPoint a b c d, crossPoint_spec h1 h2⟩
    · rintro ⟨x, hab, hcd, huniq, hxa, hxb, hxc, hxd⟩
      rcases common_point_cases hab hcd with h | h | h | h | h
      · exact h
      · exact absurd (huniq a (onSeg_left a b) h).symm hxa
      · exact absurd (huniq b (onSeg_right a b) h).symm hxb
      · exact absurd (huniq c h (onSeg_left c d)).symm hxc
      · exact absurd (huniq d h (onSeg_right c d)).symm hxd
  · intro h
    have h' := (properInter_fst a b c d i).1 h
    rw [properInter_snd a b c d i h']
    obtain ⟨p1, p2, p3, _⟩ := crossPoint_spec h'.1 h'.2
    exact ⟨p1, p2, p3⟩

/-- C10: `inters` returns true exactly when the closed segments `ab` and `cd` (degenerate
ones included) have a point in common. -/
theorem inters_spec (a b c d : pt K) :
    inters a b c d = true ↔ ∃ x, OnSeg a b x ∧ OnSeg c d x := by
  have hi : inters a b c d = true ↔
      ((properInter a b c d ⟨0, 0⟩).1 = true ∨ onSegment c d a = true ∨
        onSegment c d b = true ∨ onSegment a b c = true ∨ onSegment a b d = true) := by
    unfold inters
    by_cases h0 : (properInter a b c d ⟨0, 0⟩).1 = true
    · simp [h0]
    by_cases h1 : onSegment c d a = true
    · simp [h1]
    by_cases h2 : onSegment c d b = true
    · simp [h2]
    by_cases h3 : onSegment a b c = true
    · simp [h3]
    by_cases h4 : onSegment a b d = true
    · simp [h4]
    simp [h0, h1, h2, h3, h4]
  rw [hi, properInter_fst, onSegment_iff, onSegment_iff, onSegment_iff, onSegment_iff]
  constructor
  · rintro (⟨h1, h2⟩ | h | h | h | h)
    · obtain ⟨p1, p2, _⟩ := crossPoint_spec h1 h2
      exact ⟨_, p1, p2⟩
    · exact ⟨a, onSeg_left a b, h⟩
    · exact ⟨b, onSeg_right a b, h⟩
    · exact ⟨c, h, onSeg_left c d⟩
    · exact ⟨d, h, onSeg_right c d⟩
  · rintro ⟨x, hab, hcd⟩
    exact common_point_cases hab hcd

/-! ## Turn lemmas for lexicographically ordered points -/

theorem ptLe_iff_sub (a b : pt K) :
    pt.le a b ↔ 0 < b.x - a.x ∨ (b.x - a.x = 0 ∧ 0 ≤ b.y - a.y) := by
  rw [ptLe_iff]
  constructor
  · rintro (h | ⟨h, hy⟩)
    · exact Or.inl (by linarith)
    · exact Or.inr ⟨by linarith, by linarith⟩
  · rintro (h | ⟨h, hy⟩)
    · exact Or.inl (by linarith)
    · exact Or.inr ⟨by linarith, by linarith⟩

theorem vec_turn_a (dx dy qx qy px py : K)
    (hd : 0 < dx ∨ (dx = 0 ∧ 0 ≤ dy)) (hq : 0 < qx ∨ (qx = 0 ∧ 0 ≤ qy))
    (hp : 0 < px ∨ (px = 0 ∧ 0 ≤ py))
    (h1 : 0 ≤ dx * qy - dy * qx) (h2 : dx * py - dy * px < 0) :
    0 ≤ px * qy - py * qx := by
  have hqx : 0 ≤ qx := by rcases hq with h | h; exact le_of_lt h; exact le_of_eq h.1.symm
  have hpx : 0 ≤ px := by rcases hp with h | h; exact le_of_lt h; exact le_of_eq h.1.symm
  rcases hd with hdx | ⟨hdx, hdy⟩
  · have e : (px * qy - py * qx) * dx = (dx * qy - dy * qx) * px + (dy * px - dx * py) * qx := by
      ring
    have h3 : 0 ≤ (px * qy - py * qx) * dx := by
      rw [e]
      exact add_nonneg (mul_nonneg h1 hpx) (mul_nonneg (by linarith) hqx)
    exact nonneg_of_mul_nonneg_left h3 hdx
  · subst hdx
    have h2' : 0 < dy * px := by linarith
    have hpx' : 0 < px := by
      rcases lt_or_eq_of_le hpx with h | h
      · exact h
      · rw [← h, mul_zero] at h2'; exact absurd h2' (lt_irrefl _)
    have hdy' : 0 < dy := pos_of_mul_pos_left h2' hpx
    have hqx0 : qx = 0 := by
      have : dy * qx ≤ 0 := by linarith
      have := nonpos_of_mul_nonpos_right this hdy'
      linarith
    have hqy : 0 ≤ qy := by
      rcases hq with h | h
      · rw [hqx0] at h; exact absurd h (lt_irrefl _)
      · exact h.2
    rw [hqx0, mul_zero, sub_zero]
    exact mul_nonneg hpx hqy

/-- Pop step, points up to the popped one: `t` is popped for `p`, and `q` lies left of `o → t`. -/
theorem turn_pop_low {o t p q : pt K} (hot : pt.le o t) (hoq : pt.le o q) (hop : pt.le o p)
    (h1 : 0 ≤ orient o t q) (h2 : orient o t p < 0) : 0 ≤ orient o p q := by
  rw [ptLe_iff_sub] at hot hoq hop
  rw [orient_eq] at *
  exact vec_turn_a _ _ _ _ _ _ hot hoq hop h1 h2

theorem vec_turn_b (ox oy tx ty qx qy : K)
    (ho : 0 < ox ∨ (ox = 0 ∧ 0 ≤ oy)) (ht : 0 < tx ∨ (tx = 0 ∧ 0 ≤ ty))
    (hq : 0 < qx ∨ (qx = 0 ∧ 0 ≤ qy))
    (h1 : ox * ty - oy * tx < 0) (h2 : 0 ≤ qx * ty - qy * tx) :
    0 ≤ qx * oy - qy * ox := by
  have hqx : 0 ≤ qx := by rcases hq with h | h; exact le_of_lt h; exact le_of_eq h.1.symm
  have hox : 0 ≤ ox := by rcases ho with h | h; exact le_of_lt h; exact le_of_eq h.1.symm
  rcases ht with htx | ⟨htx, hty⟩
  · have e : (qx * oy - qy * ox) * tx = (oy * tx - ox * ty) * qx + (qx * ty - qy * tx) * ox := by
      ring
    have h3 : 0 ≤ (qx * oy - qy * ox) * tx := by
      rw [e]
      exact add_nonneg (mul_nonneg (by linarith) hqx) (mul_nonneg h2 hox)
    exact nonneg_of_mul_nonneg_left h3 htx
  · subst htx
    have : 0 ≤ ox * ty := mul_nonneg hox hty
    linarith

/-- Pop step, points beyond the popped one: `t` is popped for `p`, and `q` lies left of
`t → p`. -/
theorem turn_pop_high {o t p q : pt K} (hop : pt.le o p) (htp : pt.le t p) (hqp : pt.le q p)
    (h1 : orient o t p < 0) (h2 : 0 ≤ orient t p q) : 0 ≤ orient o p q := by
  rw [ptLe_iff_sub] at hop htp hqp
  rw [orient_eq] at *
  have := vec_turn_b (p.x - o.x) (p.y - o.y) (p.x - t.x) (p.y - t.y)
    (p.x - q.x) (p.y - q.y) hop htp hqp (by linarith) (by linarith)
  linarith

theorem vec_turn_trans (ux uy vx vy wx wy : K)
    (hu : 0 < ux ∨ (ux = 0 ∧ 0 ≤ uy)) (hv : 0 < vx ∨ (vx = 0 ∧ 0 ≤ vy))
    (hw : 0 < wx ∨ (wx = 0 ∧ 0 ≤ wy)) (hv0 : vx ≠ 0 ∨ vy ≠ 0)
    (h1 : 0 ≤ ux * vy - uy * vx) (h2 : 0 ≤ vx * wy - vy * wx) :
    0 ≤ ux * wy - uy * wx := by
  have hux : 0 ≤ ux := by rcases hu with h | h; exact le_of_lt h; exact le_of_eq h.1.symm
  have hwx : 0 ≤ wx := by rcases hw with h | h; exact le_of_lt h; exact le_of_eq h.1.symm
  rcases hv with hvx | ⟨hvx, hvy⟩
  · have e : (ux * wy - uy * wx) * vx = (ux * vy - uy * vx) * wx + (vx * wy - vy * wx) * ux := by
      ring
    have h3 : 0 ≤ (ux * wy - uy * wx) * vx := by
      rw [e]
      exact add_nonneg (mul_nonneg h1 hwx) (mul_nonneg h2 hux)
    exact nonneg_of_mul_nonneg_left h3 hvx
  · subst hvx
    have hvy' : 0 < vy := by
      rcases hv0 with h | h
      · exact absurd rfl h
      · exact lt_of_le_of_ne hvy (Ne.symm h)
    have hwx0 : wx = 0 := by
      have : vy * wx ≤ 0 := by linarith
      have := nonpos_of_mul_nonpos_right this hvy'
      linarith
    have hwy : 0 ≤ wy := by
      rcases hw with h | h
      · rw [hwx0] at h; exact absurd h (lt_irrefl _)
      · exact h.2
    rw [hwx0, mul_zero, sub_zero]
    exact mul_nonneg hux hwy

theorem sub_ne_zero_of_ne {a b : pt K} (h : a ≠ b) : b.x - a.x ≠ 0 ∨ b.y - a.y ≠ 0 := by
  by_contra hcon
  push_neg at hcon
  exact h (pt.ext (by linarith [hcon.1]) (by linarith [hcon.2]))

/-- A point `q` before `t` and left of `s → t` stays left of the next edge `t → p` when the
chain turns left at `t`. -/
theorem turn_ext_fwd {s t p q : pt K} (hst : pt.le s t) (hne : s ≠ t) (hqt : pt.le q t)
    (htp : pt.le t p) (h1 : 0 ≤ orient s t q) (h2 : 0 ≤ orient s t p) : 0 ≤ orient t p q := by
  rw [ptLe_iff_sub] at hst hqt htp
  rw [orient_eq] at *
  have := vec_turn_trans (t.x - q.x) (t.y - q.y) (t.x - s.x) (t.y - s.y)
    (p.x - t.x) (p.y - t.y) hqt hst htp (sub_ne_zero_of_ne hne)
    (by linarith) (by linarith)
  linarith

/-- A point `q` after `b` and left of `b → c` is left of the previous edge `a → b` when the
chain turns left at `b`. -/
theorem turn_ext_bwd {a b c q : pt K} (hab : pt.le a b) (hbc : pt.le b c) (hne : b ≠ c)
    (hbq : pt.le b q) (h1 : 0 ≤ orient a b c) (h2 : 0 ≤ orient b c q) : 0 ≤ orient a b q := by
  rw [ptLe_iff_sub] at hab hbc hbq
  rw [orient_eq] at *
  have := vec_turn_trans (b.x - a.x) (b.y - a.y) (c.x - b.x) (c.y - b.y)
    (q.x - b.x) (q.y - b.y) hab hbc hbq (sub_ne_zero_of_ne hne)
    (by linarith) (by linarith)
  linarith

/-! The same four lemmas for the reversed order, in which the second pass visits the points. -/

theorem turn_pop_low_rev {o t p q : pt K} (hot : pt.le t o) (hoq : pt.le q o) (hop : pt.le p o)
    (h1 : 0 ≤ orient o t q) (h2 : orient o t p < 0) : 0 ≤ orient o p q := by
  rw [ptLe_iff_sub] at hot hoq hop
  rw [orient_eq] at *
  have := vec_turn_a (o.x - t.x) (o.y - t.y) (o.x - q.x) (o.y - q.y)
    (o.x - p.x) (o.y - p.y) hot hoq hop (by linarith) (by linarith)
  linarith

theorem turn_pop_high_rev {o t p q : pt K} (hop : pt.le p o) (htp : pt.le p t)
    (hqp : pt.le p q) (h1 : orient o t p < 0) (h2 : 0 ≤ orient t p q) : 0 ≤ orient o p q := by
  rw [ptLe_iff_sub] at hop htp hqp
  rw [orient_eq] at *
  have := vec_turn_b (o.x - p.x) (o.y - p.y) (t.x - p.x) (t.y - p.y)
    (q.x - p.x) (q.y - p.y) hop htp hqp (by linarith) (by linarith)
  linarith

theorem turn_ext_fwd_rev {s t p q : pt K} (hst : pt.le t s) (hne : s ≠ t) (hqt : pt.le t q)
    (htp : pt.le p t) (h1 : 0 ≤ orient s t q) (h2 : 0 ≤ orient s t p) : 0 ≤ orient t p q := by
  rw [ptLe_iff_sub] at hst hqt htp
  rw [orient_eq] at *
  have := vec_turn_trans (q.x - t.x) (q.y - t.y) (s.x - t.x) (s.y - t.y)
    (t.x - p.x) (t.y - p.y) hqt hst htp (sub_ne_zero_of_ne (Ne.symm hne))
    (by linarith) (by linarith)
  linarith

theorem turn_ext_bwd_rev {a b c q : pt K} (hab : pt.le b a) (hbc : pt.le c b) (hne : b ≠ c)
    (hbq : pt.le q b) (h1 : 0 ≤ orient a b c) (h2 : 0 ≤ orient b c q) : 0 ≤ orient a b q := by
  rw [ptLe_iff_sub] at hab hbc hbq
  rw [orient_eq] at *
  have := vec_turn_trans (a.x - b.x) (a.y - b.y) (b.x - c.x) (b.y - c.y)
    (b.x - q.x) (b.y - q.y) hab hbc hbq (sub_ne_zero_of_ne (Ne.symm hne))
    (by linarith) (by linarith)
  linarith

/-! ## The scan: one pass of the monotone chain -/

theorem ptLe_turnOrder : TurnOrder (pt.le : pt K → pt K → Prop) where
  refl := ptLe_refl
  total := ptLe_total
  trans := fun _ _ _ => ptLe_trans
  antisymm := fun _ _ => ptLe_antisymm
  pop_low := fun _ _ _ _ => turn_pop_low
  pop_high := fun _ _ _ _ => turn_pop_high
  ext_fwd := fun _ _ _ _ => turn_ext_fwd
  ext_bwd := fun _ _ _ _ => turn_ext_bwd

theorem ptGe_turnOrder : TurnOrder (fun a b : pt K => pt.le b a) where
  refl := ptLe_refl
  total := fun a b => ptLe_total b a
  trans := fun _ _ _ h1 h2 => ptLe_trans h2 h1
  antisymm := fun _ _ h1 h2 => ptLe_antisymm h2 h1
  pop_low := fun _ _ _ _ => turn_pop_low_rev
  pop_high := fun _ _ _ _ => turn_pop_high_rev
  ext_fwd := fun _ _ _ _ => turn_ext_fwd_rev
  ext_bwd := fun _ _ _ _ => turn_ext_bwd_rev

theorem popWhile_cons_cons (lim : Int) (p b a : pt K) (rest : List (pt K)) :
    popWhile lim p (b :: a :: rest) =
      if lim ≤ ((rest.length + 2 : Nat) : Int) ∧ orient a b p < 0 then popWhile lim p (a :: rest)
      else b :: a :: rest := by
  rw [popWhile]

theorem popWhile_nil (lim : Int) (p : pt K) : popWhile lim p [] = [] := by
  rw [popWhile]
  intro b a rest h
  exact List.noConfusion h

theorem popWhile_singleton (lim : Int) (p b : pt K) : popWhile lim p [b] = [b] := by
  rw [popWhile]
  intro b1 a rest h
  simp at h

theorem popWhile_suffix (lim : Int) (p : pt K) (S : List (pt K)) : popWhile lim p S <:+ S := by
  induction S with
  | nil => rw [popWhile_nil]
  | cons b tl ih =>
    cases tl with
    | nil => rw [popWhile_singleton]
    | cons a rest =>
      rw [popWhile_cons_cons]
      split_ifs with h
      · exact ih.trans (List.suffix_cons b _)
      · exact List.suffix_refl _

theorem popWhile_ne_nil (lim : Int) (p : pt K) (S : List (pt K)) (hS : S ≠ []) :
    popWhile lim p S ≠ [] := by
  induction S with
  | nil => exact absurd rfl hS
  | cons b tl ih =>
    cases tl with
    | nil => rw [popWhile_singleton]; simp
    | cons a rest =>
      rw [popWhile_cons_cons]
      split_ifs with h
      · exact ih (by simp)
      · simp

theorem leftTurns_tail {b : pt K} {S : List (pt K)} (h : LeftTurns (b :: S)) : LeftTurns S := by
  match S, h with
  | [], _ => trivial
  | [_], _ => trivial
  | _ :: _ :: _, h => exact h.2

theorem leftTurns_suffix {S T : List (pt K)} (h : LeftTurns S) (hs : T <:+ S) : LeftTurns T := by
  obtain ⟨pre, rfl⟩ := hs
  induction pre with
  | nil => exact h
  | cons x pre ih => exact ih (leftTurns_tail h)

theorem orient_right_self (a b : pt K) : orient a b b = 0 := by
  simp only [orient_eq]; ring

/-- The inner loop of the first pass: while it pops, every visited point from the current
top onwards stays on or left of the segment from the top to the new point `p`; it stops at
a left turn. -/
theorem popWhile_two_spec {le : pt K → pt K → Prop} (hle : TurnOrder le) (P : Set (pt K))
    (p : pt K) (hp : ∀ q ∈ P, le q p) :
    ∀ S : List (pt K), S.Chain' (LocalLeft le P) →
      (∀ t ∈ S.head?, ∀ q ∈ P, le t q → 0 ≤ orient t p q) →
      (∀ t ∈ (popWhile 2 p S).head?, ∀ q ∈ P, le t q → 0 ≤ orient t p q) ∧
      (∀ t s r, popWhile 2 p S = t :: s :: r → 0 ≤ orient s t p) := by
  intro S
  induction S with
  | nil =>
    intro _ hL
    rw [popWhile_nil]
    exact ⟨hL, fun t s r h => by simp at h⟩
  | cons b tl ih =>
    cases tl with
    | nil =>
      intro _ hL
      rw [popWhile_singleton]
      exact ⟨hL, fun t s r h => by simp at h⟩
    | cons a rest =>
      intro hc hL
      rw [popWhile_cons_cons]
      split_ifs with h
      · apply ih (List.Chain'.tail hc)
        intro t ht q hq htq
        simp only [List.head?_cons, Option.mem_def, Option.some.injEq] at ht
        subst ht
        obtain ⟨hbP, haP, hab, hloc⟩ := List.Chain'.rel_head hc
        have hLb := hL b (by simp) q hq
        rcases hle.total q b with hqb | hbq
        · exact hle.pop_low _ _ _ _ hab htq (hp _ haP) (hloc q hq htq hqb) h.2
        · exact hle.pop_high _ _ _ _ (hp _ haP) (hp _ hbP) (hp _ hq) h.2 (hLb hbq)
      · refine ⟨hL, ?_⟩
        intro t s r hts
        simp only [List.cons.injEq] at hts
        obtain ⟨rfl, rfl, _⟩ := hts
        have h2 : (2 : Int) ≤ ((rest.length + 2 : Nat) : Int) := by
          push_cast
          have := Int.natCast_nonneg rest.length
          linarith
        by_contra hneg
        exact h ⟨h2, not_le.mp hneg⟩

theorem localLeft_insert {le : pt K → pt K → Prop} (hle : TurnOrder le) {P : Set (pt K)}
    {p : pt K} (hp : ∀ q ∈ P, le q p) {v u : pt K} (h : LocalLeft le P v u) :
    LocalLeft le (insert p P) v u := by
  obtain ⟨hv, hu, huv, hloc⟩ := h
  refine ⟨Set.mem_insert_of_mem _ hv, Set.mem_insert_of_mem _ hu, huv, ?_⟩
  intro q hq huq hqv
  rcases Set.mem_insert_iff.mp hq with rfl | hq
  · have : q = v := hle.antisymm _ _ hqv (hp _ hv)
    rw [this]
    exact le_of_eq (orient_right_self u v).symm
  · exact hloc q hq huq hqv

theorem orient_left_self (a b : pt K) : orient a b a = 0 := by
  simp only [orient_eq]; ring

/-- One turn of the `for` loop keeps the invariant. -/
theorem scanInv_step {le : pt K → pt K → Prop} (hle : TurnOrder le) {P : Set (pt K)}
    {S : List (pt K)} (hinv : ScanInv le P S) {p : pt K} (hp : ∀ q ∈ P, le q p) :
    ScanInv le (insert p P) (hullStep 2 S p) := by
  have hsuf := popWhile_suffix 2 p S
  have hchain : (popWhile 2 p S).Chain' (LocalLeft le P) := hinv.edges.suffix hsuf
  have hmem : ∀ x ∈ popWhile 2 p S, x ∈ P := fun x hx => hinv.mem x (hsuf.subset hx)
  have hL0 : ∀ t ∈ S.head?, ∀ q ∈ P, le t q → 0 ≤ orient t p q := by
    intro t ht q hq htq
    have : q = t := hle.antisymm _ _ (hinv.top t ht q hq) htq
    rw [this]
    exact le_of_eq (orient_left_self _ _).symm
  obtain ⟨hL, hexit⟩ := popWhile_two_spec hle P p hp S hinv.edges hL0
  refine ⟨?_, ?_, ?_, ?_⟩
  · intro x hx
    simp only [hullStep, List.mem_cons] at hx
    rcases hx with rfl | hx
    · exact Set.mem_insert _ _
    · exact Set.mem_insert_of_mem _ (hmem x hx)
  · intro t ht q hq
    simp only [hullStep, List.head?_cons, Option.mem_def, Option.some.injEq] at ht
    subst ht
    rcases Set.mem_insert_iff.mp hq with rfl | hq
    · exact hle.refl _
    · exact hp q hq
  · unfold hullStep
    rw [List.chain'_cons']
    refine ⟨?_, hchain.imp (fun v u h => localLeft_insert hle hp h)⟩
    intro t ht
    have htS : t ∈ popWhile 2 p S := List.mem_of_mem_head? ht
    have htP : t ∈ P := hmem t htS
    refine ⟨Set.mem_insert _ _, Set.mem_insert_of_mem _ htP, hp t htP, ?_⟩
    intro q hq htq _
    rcases Set.mem_insert_iff.mp hq with rfl | hq
    · exact le_of_eq (orient_right_self _ _).symm
    · exact hL t ht q hq htq
  · unfold hullStep
    cases hS : popWhile 2 p S with
    | nil => trivial
    | cons t r =>
      cases r with
      | nil => trivial
      | cons s r2 =>
        refine ⟨hexit t s r2 hS, ?_⟩
        have := leftTurns_suffix hinv.turns hsuf
        rw [hS] at this
        exact this

theorem scanInv_nil (le : pt K → pt K → Prop) : ScanInv le (∅ : Set (pt K)) [] :=
  ⟨fun x hx => by simp at hx, fun t ht => by simp at ht, List.chain'_nil, trivial⟩

/-- The whole pass over a list sorted by `le` keeps the invariant. -/
theorem scanInv_foldl {le : pt K → pt K → Prop} (hle : TurnOrder le) :
    ∀ (l : List (pt K)) (P : Set (pt K)) (S : List (pt K)), l.Pairwise le →
      ScanInv le P S → (∀ q ∈ P, ∀ x ∈ l, le q x) →
      ScanInv le (P ∪ {x | x ∈ l}) (l.foldl (hullStep 2) S) := by
  intro l
  induction l with
  | nil =>
    intro P S _ hinv _
    simpa using hinv
  | cons p l ih =>
    intro P S hsorted hinv hP
    rw [List.pairwise_cons] at hsorted
    have hstep := scanInv_step hle hinv (fun q hq => hP q hq p (by simp))
    have h2 : ∀ q ∈ insert p P, ∀ x ∈ l, le q x := by
      intro q hq x hx
      rcases Set.mem_insert_iff.mp hq with rfl | hq
      · exact hsorted.1 x hx
      · exact hP q hq x (List.mem_cons_of_mem _ hx)
    have := ih (insert p P) (hullStep 2 S p) hsorted.2 hstep h2
    have hset : insert p P ∪ {x | x ∈ l} = P ∪ {x | x ∈ p :: l} := by
      ext x
      simp only [Set.mem_union, Set.mem_insert_iff, Set.mem_setOf_eq, List.mem_cons]
      tauto
    rw [← hset]
    exact this

theorem scanInv_lowerPass {le : pt K → pt K → Prop} (hle : TurnOrder le) (l : List (pt K))
    (hl : l.Pairwise le) : ScanInv le {x | x ∈ l} (lowerPass l) := by
  have := scanInv_foldl hle l ∅ [] hl (scanInv_nil le) (fun q hq => by simp at hq)
  simpa [lowerPass] using this

/-! ## Shape of the two passes -/

theorem foldl_hullStep_sublist (lim : Int) :
    ∀ (l S : List (pt K)), List.Sublist (l.foldl (hullStep lim) S) (l.reverse ++ S) := by
  intro l
  induction l with
  | nil => intro S; simp
  | cons p l ih =>
    intro S
    rw [List.foldl_cons, List.reverse_cons, List.append_assoc]
    refine (ih _).trans ?_
    apply List.Sublist.append_left
    simp only [hullStep, List.singleton_append]
    exact ((popWhile_suffix lim p S).sublist).cons₂ p

theorem lowerPass_sublist (l : List (pt K)) : List.Sublist (lowerPass l) l.reverse := by
  have := foldl_hullStep_sublist 2 l []
  simpa [lowerPass] using this

theorem mem_of_mem_lowerPass {l : List (pt K)} {x : pt K} (h : x ∈ lowerPass l) : x ∈ l :=
  List.mem_reverse.mp ((lowerPass_sublist l).subset h)

theorem lowerPass_concat (l : List (pt K)) (p : pt K) :
    lowerPass (l ++ [p]) = p :: popWhile 2 p (lowerPass l) := by
  simp [lowerPass, List.foldl_append, hullStep]

theorem lowerPass_head (l : List (pt K)) : (lowerPass l).head? = l.getLast? := by
  induction l using List.reverseRecOn with
  | nil => simp [lowerPass]
  | append_singleton l p _ => rw [lowerPass_concat]; simp

theorem hullStep_getLast (lim : Int) (S : List (pt K)) (p : pt K) (hS : S ≠ []) :
    (hullStep lim S p).getLast? = S.getLast? := by
  unfold hullStep
  have hne := popWhile_ne_nil lim p S hS
  have hlast : (popWhile lim p S).getLast? = S.getLast? := by
    obtain ⟨pre, hpre⟩ := popWhile_suffix lim p S
    have := List.getLast?_append_of_ne_nil pre hne
    rw [hpre] at this
    exact this.symm
  rw [← hlast]
  cases h : popWhile lim p S with
  | nil => exact absurd h hne
  | cons t T => simp [List.getLast?_cons_cons]

theorem foldl_hullStep_getLast (lim : Int) :
    ∀ (l S : List (pt K)), S ≠ [] → (l.foldl (hullStep lim) S).getLast? = S.getLast? := by
  intro l
  induction l with
  | nil => intro S _; rfl
  | cons p l ih =>
    intro S hS
    rw [List.foldl_cons, ih _ (by simp [hullStep]), hullStep_getLast lim S p hS]

theorem lowerPass_getLast (l : List (pt K)) : (lowerPass l).getLast? = l.head? := by
  cases l with
  | nil => simp [lowerPass]
  | cons p l =>
    unfold lowerPass
    rw [List.foldl_cons, foldl_hullStep_getLast 2 l _ (by simp [hullStep])]
    simp [hullStep, popWhile_nil]

theorem popWhile_append (p : pt K) (L : List (pt K)) :
    ∀ U : List (pt K), U ≠ [] →
      popWhile ((L.length : Int) + 2) p (U ++ L) = popWhile 2 p U ++ L := by
  intro U
  induction U with
  | nil => intro h; exact absurd rfl h
  | cons b U ih =>
    intro _
    cases U with
    | nil =>
      rw [popWhile_singleton]
      cases L with
      | nil => simp [popWhile_singleton]
      | cons a rest =>
        simp only [List.singleton_append]
        rw [popWhile_cons_cons]
        have : ¬ (((a :: rest).length : Int) + 2 ≤ ((rest.length + 2 : Nat) : Int)) := by
          simp only [List.length_cons]
          push_cast
          linarith
        simp [this]
    | cons a U =>
      have ih' := ih (by simp)
      simp only [List.cons_append] at ih' ⊢
      rw [popWhile_cons_cons, popWhile_cons_cons]
      have h1 : ((L.length : Int) + 2 ≤ (((U ++ L).length + 2 : Nat) : Int)) := by
        simp only [List.length_append]
        push_cast
        have := Int.natCast_nonneg U.length
        linarith
      have h2 : (2 : Int) ≤ ((U.length + 2 : Nat) : Int) := by
        push_cast
        have := Int.natCast_nonneg U.length
        linarith
      by_cases ho : orient a b p < 0
      · simp only [h1, h2, ho, and_self, if_true]
        exact ih'
      · simp [ho]

theorem foldl_hullStep_append (L : List (pt K)) :
    ∀ (l U : List (pt K)), U ≠ [] →
      l.foldl (hullStep ((L.length : Int) + 2)) (U ++ L) = l.foldl (hullStep 2) U ++ L := by
  intro l
  induction l with
  | nil => intro U _; rfl
  | cons p l ih =>
    intro U hU
    rw [List.foldl_cons, List.foldl_cons]
    have : hullStep ((L.length : Int) + 2) (U ++ L) p = hullStep 2 U p ++ L := by
      simp only [hullStep, popWhile_append p L U hU, List.cons_append]
    rw [this]
    exact ih _ (by simp [hullStep])

/-- The stack after both passes: the second pass builds the chain of the reversed list on
top of the first chain without its newest entry. -/
theorem upperPass_eq (l : List (pt K)) :
    upperPass l = lowerPass l.reverse ++ (lowerPass l).tail := by
  induction l using List.reverseRecOn with
  | nil => simp [upperPass, lowerPass]
  | append_singleton l p _ =>
    unfold upperPass
    simp only [List.reverse_append, List.reverse_singleton, List.singleton_append, List.tail_cons]
    rw [lowerPass_concat]
    simp only [List.tail_cons, List.length_cons]
    have e : ((((popWhile 2 p (lowerPass l)).length + 1 : Nat) : Int) - 1 + 2)
        = (((popWhile 2 p (lowerPass l)).length : Nat) : Int) + 2 := by
      push_cast; ring
    rw [e]
    have := foldl_hullStep_append (popWhile 2 p (lowerPass l)) l.reverse [p] (by simp)
    simp only [List.singleton_append] at this
    rw [this]
    simp [lowerPass, hullStep, popWhile_nil]

/-! ## From the local invariant to the whole chain (distinct points) -/

/-- Walking down the stack from an edge that has `q` on its left: `q` lies after the lower
end of that edge, so it is on the left of every older edge too. -/
theorem allLeft_down {le : pt K → pt K → Prop} (hle : TurnOrder le) (P : Set (pt K))
    (q : pt K) :
    ∀ (rest : List (pt K)) (c b : pt K), (c :: b :: rest).Chain' (LocalLeft le P) →
      LeftTurns (c :: b :: rest) → (c :: b :: rest).Nodup → le b q → 0 ≤ orient b c q →
      (c :: b :: rest).Chain' (fun v u => 0 ≤ orient u v q) := by
  intro rest
  induction rest with
  | nil =>
    intro c b _ _ _ _ h
    exact List.chain'_cons.mpr ⟨h, List.chain'_singleton _⟩
  | cons a r ih =>
    intro c b hc ht hnd hbq h
    have hcb := List.Chain'.rel_head hc
    have hba := List.Chain'.rel_head (List.Chain'.tail hc)
    have hne : b ≠ c := by
      intro e
      rw [List.nodup_cons] at hnd
      exact hnd.1 (by rw [e]; simp)
    have hab : 0 ≤ orient a b q :=
      hle.ext_bwd a b c q hba.2.2.1 hcb.2.2.1 hne hbq ht.1 h
    refine List.chain'_cons.mpr ⟨h, ?_⟩
    exact ih b a (List.Chain'.tail hc) (leftTurns_tail ht) (List.Nodup.of_cons hnd)
      (hle.trans _ _ _ hba.2.2.1 hbq) hab

/-- With distinct points, every visited point lies on or left of every edge of the chain. -/
theorem allLeft_of_scanInv {le : pt K → pt K → Prop} (hle : TurnOrder le) (P : Set (pt K))
    (q : pt K) (hq : q ∈ P) :
    ∀ S : List (pt K), S.Chain' (LocalLeft le P) → LeftTurns S → S.Nodup →
      (∀ t ∈ S.head?, le q t) → (∀ b ∈ S.getLast?, le b q) →
      S.Chain' (fun v u => 0 ≤ orient u v q) := by
  intro S
  induction S with
  | nil => intro _ _ _ _ _; exact List.chain'_nil
  | cons c tl ih =>
    cases tl with
    | nil => intro _ _ _ _ _; exact List.chain'_singleton _
    | cons b rest =>
      intro hc ht hnd htop hbot
      have hcb := List.Chain'.rel_head hc
      have hqc : le q c := htop c (by simp)
      by_cases hbq : le b q
      · exact allLeft_down hle P q rest c b hc ht hnd hbq (hcb.2.2.2 q hq hbq hqc)
      · have hqb : le q b := (hle.total q b).resolve_right hbq
        have hrec := ih (List.Chain'.tail hc) (leftTurns_tail ht) (List.Nodup.of_cons hnd)
          (fun t ht' => by
            simp only [List.head?_cons, Option.mem_def, Option.some.injEq] at ht'
            rw [← ht']; exact hqb)
          (fun b' hb' => hbot b' (by rw [List.getLast?_cons_cons]; exact hb'))
        refine List.chain'_cons.mpr ⟨?_, hrec⟩
        cases rest with
        | nil =>
          exact absurd (hbot b (by simp)) hbq
        | cons a r =>
          have hba := List.Chain'.rel_head (List.Chain'.tail hc)
          have hne : a ≠ b := by
            intro e
            have h2 := List.Nodup.of_cons hnd
            rw [List.nodup_cons] at h2
            exact h2.1 (by rw [← e]; simp)
          have hab : 0 ≤ orient a b q := (List.chain'_cons.mp hrec).1
          exact hle.ext_fwd a b c q hba.2.2.1 hne hqb hcb.2.2.1 hab ht.1

theorem chain_forall {α : Type} {P : Set α} {R : α → α → α → Prop} :
    ∀ S : List α, (∀ q ∈ P, S.Chain' (R q)) → S.Chain' (fun v u => ∀ q ∈ P, R q v u) := by
  intro S
  induction S with
  | nil => intro _; exact List.chain'_nil
  | cons c tl ih =>
    cases tl with
    | nil => intro _; exact List.chain'_singleton _
    | cons b rest =>
      intro h
      refine List.chain'_cons.mpr ⟨fun q hq => List.Chain'.rel_head (h q hq), ?_⟩
      exact ih (fun q hq => List.Chain'.tail (h q hq))

/-- One pass over distinct points sorted by `le`: every point of the list lies on or left of
every edge of the resulting chain. -/
theorem lowerPass_allLeft {le : pt K → pt K → Prop} (hle : TurnOrder le) (l : List (pt K))
    (hl : l.Pairwise le) (hnd : l.Nodup) :
    (lowerPass l).Chain' (fun v u => ∀ q ∈ l, 0 ≤ orient u v q) := by
  have hinv := scanInv_lowerPass hle l hl
  have hS : (lowerPass l).Nodup := (lowerPass_sublist l).nodup (List.nodup_reverse.mpr hnd)
  have := chain_forall (P := {x | x ∈ l}) (R := fun q v u => 0 ≤ orient u v q) (lowerPass l)
    (fun q hq => allLeft_of_scanInv hle _ q hq _ hinv.edges hinv.turns hS
      (fun t ht => hinv.top t ht q hq)
      (fun b hb => by
        rw [lowerPass_getLast] at hb
        cases l with
        | nil => simp at hb
        | cons x l =>
          simp only [List.head?_cons, Option.mem_def, Option.some.injEq] at hb
          rw [← hb]
          have hq' : q = x ∨ q ∈ l := by simpa using hq
          rcases hq' with e | hq'
          · rw [e]; exact hle.refl _
          · exact (List.pairwise_cons.mp hl).1 q hq'))
  exact this

/-! ## The buffer after both passes -/

theorem sortPoints_pairwise (l : List (pt K)) : (sortPoints l).Pairwise pt.le :=
  sortPoints_sorted l

theorem sortPoints_nodup {l : List (pt K)} (h : l.Nodup) : (sortPoints l).Nodup :=
  (sortPoints_perm l).nodup_iff.mpr h

theorem chain_getElem {α : Type} {R : α → α → Prop} :
    ∀ (l : List α), l.Chain' R → ∀ (i : Nat) (a b : α), l[i]? = some a → l[i + 1]? = some b →
      R a b := by
  intro l
  induction l with
  | nil => intro _ i a b ha _; simp at ha
  | cons x l ih =>
    intro hc i a b ha hb
    cases i with
    | zero =>
      cases l with
      | nil => simp at hb
      | cons y l =>
        simp only [List.getElem?_cons_zero, Option.some.injEq, zero_add,
          List.getElem?_cons_succ] at ha hb
        rw [← ha, ← hb]
        exact List.Chain'.rel_head hc
    | succ i =>
      simp only [List.getElem?_cons_succ] at ha hb
      exact ih (List.Chain'.tail hc) i a b ha hb

/-- Distinct points: every edge of the stack left by both passes has every input point on
it or on its left. -/
theorem upperPass_allLeft (l : List (pt K)) (hl : l.Pairwise pt.le) (hnd : l.Nodup) :
    (upperPass l).Chain' (fun v u => ∀ q ∈ l, 0 ≤ orient u v q) := by
  rw [upperPass_eq, List.chain'_append]
  have hlow := lowerPass_allLeft ptLe_turnOrder l hl hnd
  have hup := lowerPass_allLeft ptGe_turnOrder l.reverse (List.pairwise_reverse.mpr hl)
    (List.nodup_reverse.mpr hnd)
  refine ⟨?_, List.Chain'.tail hlow, ?_⟩
  · exact hup.imp (fun v u h q hq => h q (List.mem_reverse.mpr hq))
  · intro x hx y hy
    rw [lowerPass_getLast, List.head?_reverse, ← lowerPass_head] at hx
    cases hS : lowerPass l with
    | nil => rw [hS] at hx; simp at hx
    | cons x1 T =>
      rw [hS] at hx hy hlow
      simp only [List.head?_cons, Option.mem_def, Option.some.injEq] at hx
      subst hx
      simp only [List.tail_cons] at hy
      exact List.Chain'.rel_head? hlow hy

/-- Inputs without repeated points: every input point lies on or left of
every edge `H[i] → H[i+1]` of the buffer, `0 ≤ i < st - 1`. -/
theorem hullBuffer_contains_points (points : List (pt K)) (hnd : points.Nodup) (i : Nat)
    (a b : pt K) (ha : (hullBuffer points)[i]? = some a)
    (hb : (hullBuffer points)[i + 1]? = some b) (p : pt K) (hp : p ∈ points) :
    0 ≤ orient a b p := by
  have h := upperPass_allLeft (sortPoints points) (sortPoints_pairwise points)
    (sortPoints_nodup hnd)
  have h2 : (hullBuffer points).Chain' (fun u v => ∀ q ∈ sortPoints points, 0 ≤ orient u v q) := by
    unfold hullBuffer
    rw [List.chain'_reverse]
    exact h
  exact chain_getElem _ h2 i a b ha hb p (mem_sortPoints.mpr hp)

theorem hullBuffer_dup_example :
    hullBuffer ([⟨0, 0⟩, ⟨1, 1⟩, ⟨1, 1⟩, ⟨2, 0⟩] : List (pt ℚ))
      = [⟨0, 0⟩, ⟨1, 1⟩, ⟨1, 1⟩, ⟨2, 0⟩, ⟨1, 1⟩, ⟨1, 1⟩, ⟨0, 0⟩] := by
  norm_num [hullBuffer, upperPass, lowerPass, sortPoints, hullStep, popWhile, orient_eq,
    pt.le, pt.lt, List.insertionSort, List.orderedInsert]

theorem hullBuffer_triangle_example :
    hullBuffer ([⟨0, 0⟩, ⟨1, 0⟩, ⟨0, 1⟩] : List (pt ℚ))
      = [⟨0, 0⟩, ⟨1, 0⟩, ⟨0, 1⟩, ⟨0, 0⟩] := by
  norm_num [hullBuffer, upperPass, lowerPass, sortPoints, hullStep, popWhile, orient_eq,
    pt.le, pt.lt, List.insertionSort, List.orderedInsert]

/-! ## Turns along the closed hull walk -/

theorem orient_rotate (a b c : pt K) : orient a b c = orient b c a := by
  simp only [orient_eq]; ring

/-- Where two chains built in opposite orders meet at `M`: the newest edge `y → M` of one and
the oldest edge `M → e` of the other make a left turn (or are collinear). -/
theorem junction_turn {le : pt K → pt K → Prop} (hle : TurnOrder le) {P : Set (pt K)}
    {M y e : pt K} (h1 : LocalLeft le P M y) (h2 : LocalLeft (fun a b => le b a) P e M) :
    0 ≤ orient y M e := by
  obtain ⟨_, hyP, hyM, hloc1⟩ := h1
  obtain ⟨heP, _, heM, hloc2⟩ := h2
  rcases hle.total y e with hye | hey
  · exact hloc1 e heP hye heM
  · have := hloc2 y hyP hyM hey
    rw [orient_rotate]
    exact this

theorem lowerPass_two (l : List (pt K)) (h : 2 ≤ l.length) :
    ∃ M y T, lowerPass l = M :: y :: T := by
  induction l using List.reverseRecOn with
  | nil => simp at h
  | append_singleton l p _ =>
    rw [lowerPass_concat]
    have hl : l ≠ [] := by
      intro e
      rw [e] at h
      simp at h
    have hne : lowerPass l ≠ [] := by
      intro e
      have := lowerPass_head l
      rw [e] at this
      simp only [List.head?_nil] at this
      exact hl (List.getLast?_eq_none_iff.mp this.symm)
    have hne2 := popWhile_ne_nil 2 p (lowerPass l) hne
    cases hS : popWhile 2 p (lowerPass l) with
    | nil => exact absurd hS hne2
    | cons y T => exact ⟨p, y, T, rfl⟩

theorem leftTurns_append (M : pt K) (T : List (pt K)) :
    ∀ U : List (pt K), LeftTurns (U ++ [M]) → LeftTurns (M :: T) →
      (∀ e ∈ U.getLast?, ∀ y ∈ T.head?, 0 ≤ orient y M e) → LeftTurns (U ++ M :: T) := by
  intro U
  induction U with
  | nil => intro _ h _; exact h
  | cons c U ih =>
    intro hU hT hj
    cases U with
    | nil =>
      cases T with
      | nil => trivial
      | cons y T => exact ⟨hj c (by simp) y (by simp), hT⟩
    | cons b U =>
      have hrec : LeftTurns ((b :: U) ++ M :: T) :=
        ih (leftTurns_tail hU) hT (fun e he y hy => hj e (by
          rw [List.getLast?_cons_cons]; exact he) y hy)
      cases U with
      | nil => exact ⟨hU.1, hrec⟩
      | cons d U => exact ⟨hU.1, hrec⟩

/-- The stack after both passes, written with the whole first chain at the bottom. -/
theorem upperPass_eq_dropLast (l : List (pt K)) :
    upperPass l = (lowerPass l.reverse).dropLast ++ lowerPass l := by
  rw [upperPass_eq]
  cases hl : lowerPass l with
  | nil =>
    have h1 := lowerPass_head l
    rw [hl] at h1
    have : l = [] := List.getLast?_eq_none_iff.mp h1.symm
    subst this
    simp [lowerPass]
  | cons M T =>
    have h1 := lowerPass_head l
    rw [hl] at h1
    have h2 := lowerPass_getLast l.reverse
    rw [List.head?_reverse, ← h1] at h2
    simp only [List.head?_cons] at h2
    have := List.dropLast_append_getLast? M h2
    conv_lhs => rw [← this]
    simp

theorem scanInv_upper (l : List (pt K)) (hl : l.Pairwise pt.le) :
    ScanInv (fun a b : pt K => pt.le b a) {x | x ∈ l} (lowerPass l.reverse) := by
  have h := scanInv_lowerPass ptGe_turnOrder l.reverse (List.pairwise_reverse.mpr hl)
  have hset : {x : pt K | x ∈ l.reverse} = {x | x ∈ l} := by
    ext x
    simp
  rw [hset] at h
  exact h

/-- Any sorted input: all consecutive triples of the stack left by both passes turn left or
are collinear, the triple across the two passes included. -/
theorem upperPass_leftTurns (l : List (pt K)) (hl : l.Pairwise pt.le) :
    LeftTurns (upperPass l) := by
  have hlow := scanInv_lowerPass ptLe_turnOrder l hl
  have hup := scanInv_upper l hl
  rw [upperPass_eq_dropLast]
  cases hLw : lowerPass l with
  | nil =>
    have h1 := lowerPass_head l
    rw [hLw] at h1
    have : l = [] := List.getLast?_eq_none_iff.mp h1.symm
    subst this
    simp [lowerPass, LeftTurns]
  | cons M T =>
    have h1 := lowerPass_head l
    rw [hLw] at h1 hlow
    have h2 := lowerPass_getLast l.reverse
    rw [List.head?_reverse, ← h1] at h2
    simp only [List.head?_cons] at h2
    have hsplit := List.dropLast_append_getLast? M h2
    rw [← hsplit] at hup
    apply leftTurns_append M T _ hup.turns hlow.turns
    intro e he y hy
    have e1 : LocalLeft pt.le {x | x ∈ l} M y := List.Chain'.rel_head? hlow.edges hy
    have e2 : LocalLeft (fun a b : pt K => pt.le b a) {x | x ∈ l} e M :=
      (List.chain'_append.mp hup.edges).2.2 e he M (by simp)
    exact junction_turn ptLe_turnOrder e1 e2

/-- Any sorted input of at least two points: the buffer starts `m, y, ...` and ends with `m`
again, and the turn `H[st-2] → m → y` across the closing point is a left turn as well. -/
theorem upperPass_wrap (l : List (pt K)) (hl : l.Pairwise pt.le) (h2 : 2 ≤ l.length) :
    ∃ m y rest, (upperPass l).reverse = m :: y :: rest ∧ (upperPass l).head? = some m ∧
      LeftTurns (y :: upperPass l) := by
  have hlow := scanInv_lowerPass ptLe_turnOrder l hl
  have hup := scanInv_upper l hl
  obtain ⟨m, e, E, hUp⟩ := lowerPass_two l.reverse (by simpa using h2)
  obtain ⟨M, y1, T, hLw⟩ := lowerPass_two l h2
  have hrev : ∃ m0 y R, (lowerPass l).reverse = m0 :: y :: R := by
    rw [hLw]
    cases hr : (M :: y1 :: T).reverse with
    | nil => simp at hr
    | cons m0 R1 =>
      cases R1 with
      | nil =>
        have := congrArg List.length hr
        simp at this
      | cons y R => exact ⟨m0, y, R, rfl⟩
  obtain ⟨m0, y, R, hrev⟩ := hrev
  have hLw2 : lowerPass l = R.reverse ++ [y, m0] := by
    have := congrArg List.reverse hrev
    simpa using this
  have hm : m0 = m := by
    have a1 := lowerPass_getLast l
    have a2 := lowerPass_head l.reverse
    rw [List.getLast?_reverse, ← a1, hUp, hLw2] at a2
    simp at a2
    exact a2.symm
  subst hm
  have hF : upperPass l = m0 :: e :: (E ++ (lowerPass l).tail) := by
    rw [upperPass_eq, hUp]; rfl
  refine ⟨m0, y, R ++ (lowerPass l.reverse).dropLast.reverse, ?_, ?_, ?_⟩
  · rw [upperPass_eq_dropLast, List.reverse_append, hrev]; rfl
  · rw [hF]; rfl
  · have hturn := upperPass_leftTurns l hl
    rw [hF] at hturn ⊢
    refine ⟨?_, hturn⟩
    rw [hUp] at hup
    rw [hLw2] at hlow
    have e1 : LocalLeft (fun a b : pt K => pt.le b a) {x | x ∈ l} m0 e :=
      List.Chain'.rel_head hup.edges
    have e2 : LocalLeft pt.le {x | x ∈ l} y m0 :=
      List.Chain'.rel_head (List.Chain'.right_of_append hlow.edges)
    exact junction_turn ptGe_turnOrder e1 e2

theorem leftTurns_getElem :
    ∀ S : List (pt K), LeftTurns S → ∀ (k : Nat) (c b a : pt K), S[k]? = some c →
      S[k + 1]? = some b → S[k + 2]? = some a → 0 ≤ orient a b c := by
  intro S
  induction S with
  | nil => intro _ k c b a hc _ _; simp at hc
  | cons x S ih =>
    intro ht k c b a hc hb ha
    cases k with
    | zero =>
      cases S with
      | nil => simp at hb
      | cons y S =>
        cases S with
        | nil => simp at ha
        | cons z S =>
          simp only [List.getElem?_cons_zero, Option.some.injEq, zero_add,
            List.getElem?_cons_succ] at hc hb ha
          rw [← hc, ← hb, ← ha]
          exact ht.1
    | succ k =>
      simp only [List.getElem?_cons_succ] at hc hb ha
      exact ih (leftTurns_tail ht) k c b a hc hb ha

theorem leftTurns_reverse_getElem (S : List (pt K)) (h : LeftTurns S) (j : Nat) (a b c : pt K)
    (ha : S.reverse[j]? = some a) (hb : S.reverse[j + 1]? = some b)
    (hc : S.reverse[j + 2]? = some c) : 0 ≤ orient a b c := by
  have hlen : j + 2 < S.length := by
    have := (List.getElem?_eq_some_iff.mp hc).1
    simpa using this
  rw [List.getElem?_reverse (by omega)] at ha hb hc
  have e1 : S.length - 1 - (j + 1) = (S.length - 1 - (j + 2)) + 1 := by omega
  have e2 : S.length - 1 - j = (S.length - 1 - (j + 2)) + 2 := by omega
  rw [e1] at hb
  rw [e2] at ha
  exact leftTurns_getElem S h _ c b a hc hb ha

theorem upperPass_length_le_one (l : List (pt K)) (h : l.length < 2) :
    (upperPass l).length ≤ 1 := by
  rw [upperPass_eq_dropLast, List.length_append, List.length_dropLast]
  have h1 := (lowerPass_sublist l).length_le
  have h2 := (lowerPass_sublist l.reverse).length_le
  simp only [List.length_reverse] at h1 h2
  omega

/-- The cyclic reading of a polygon `m, y, V` against the closed walk `m, y, V, m, y`. -/
theorem cyclic_of_walk (m y : pt K) (V : List (pt K))
    (hT : ∀ (j : Nat) (a b c : pt K), (m :: y :: V ++ [m] ++ [y])[j]? = some a →
      (m :: y :: V ++ [m] ++ [y])[j + 1]? = some b →
      (m :: y :: V ++ [m] ++ [y])[j + 2]? = some c → 0 ≤ orient a b c)
    (i : Nat) (a b c : pt K) (ha : (m :: y :: V)[i]? = some a)
    (hb : (m :: y :: V)[(i + 1) % (m :: y :: V).length]? = some b)
    (hc : (m :: y :: V)[(i + 2) % (m :: y :: V).length]? = some c) : 0 ≤ orient a b c := by
  have hi : i < (m :: y :: V).length := (List.getElem?_eq_some_iff.mp ha).1
  rw [← List.getElem?_rotate hi] at hb hc
  have r1 : (m :: y :: V).rotate 1 = y :: V ++ [m] := by
    rw [List.rotate_cons_succ, List.rotate_zero]
  have r2 : (m :: y :: V).rotate 2 = V ++ [m, y] := by
    rw [List.rotate_cons_succ]
    simp only [List.cons_append]
    rw [List.rotate_cons_succ, List.rotate_zero]
    simp
  rw [r1] at hb
  rw [r2] at hc
  have hlen : (m :: y :: V).length = V.length + 2 := by simp
  rw [hlen] at hi
  apply hT i a b c
  · have : (m :: y :: V ++ [m] ++ [y]) = (m :: y :: V) ++ ([m] ++ [y]) := by simp
    rw [this, List.getElem?_append_left (by rw [hlen]; exact hi)]
    exact ha
  · have : (m :: y :: V ++ [m] ++ [y]) = m :: ((y :: V ++ [m]) ++ [y]) := by simp
    rw [this, List.getElem?_cons_succ, List.getElem?_append_left (by simp; omega)]
    exact hb
  · have : (m :: y :: V ++ [m] ++ [y]) = m :: y :: (V ++ [m, y]) := by simp
    rw [this, List.getElem?_cons_succ, List.getElem?_cons_succ]
    exact hc

/-- Weak turns: every three cyclically consecutive hull
vertices `V[i], V[i+1], V[i+2]` (indices modulo the vertex count, `V` the buffer without
its closing point) make a left turn or are collinear, `orient ≥ 0`, for every input. -/
theorem hullVertices_turns_weak (points : List (pt K)) (i : Nat) (a b c : pt K)
    (ha : (hullVertices points)[i]? = some a)
    (hb : (hullVertices points)[(i + 1) % (hullVertices points).length]? = some b)
    (hc : (hullVertices points)[(i + 2) % (hullVertices points).length]? = some c) :
    0 ≤ orient a b c := by
  have hV : hullVertices points = (upperPass (sortPoints points)).reverse.dropLast := rfl
  by_cases h2 : 2 ≤ (sortPoints points).length
  · obtain ⟨m, y, rest, hH, hhead, hturns⟩ :=
      upperPass_wrap (sortPoints points) (sortPoints_pairwise points) h2
    have hlast : (upperPass (sortPoints points)).reverse.getLast? = some m := by
      rw [List.getLast?_reverse]; exact hhead
    have hsplit := List.dropLast_append_getLast? m hlast
    rw [← hV] at hsplit
    have hT := leftTurns_reverse_getElem (y :: upperPass (sortPoints points)) hturns
    rw [List.reverse_cons, ← hsplit] at hT
    rw [hH] at hsplit
    generalize hullVertices points = V at *
    cases V with
    | nil => simp at ha
    | cons v0 V =>
      cases V with
      | nil =>
        simp only [List.length_singleton, Nat.mod_one, List.getElem?_cons_zero,
          Option.some.injEq] at hb hc
        have hi : i < 1 := by simpa using (List.getElem?_eq_some_iff.mp ha).1
        have hi0 : i = 0 := by omega
        subst hi0
        simp only [List.getElem?_cons_zero, Option.some.injEq] at ha
        rw [← ha, ← hb, ← hc]
        exact le_of_eq (orient_left_self v0 v0).symm
      | cons v1 V =>
        simp only [List.cons_append, List.cons.injEq] at hsplit
        obtain ⟨rfl, rfl, _⟩ := hsplit
        exact cyclic_of_walk v0 v1 V hT i a b c ha hb hc
  · have hlen := upperPass_length_le_one (sortPoints points) (by omega)
    have : (hullVertices points).length = 0 := by
      rw [hV, List.length_dropLast, List.length_reverse]
      omega
    have hi := (List.getElem?_eq_some_iff.mp ha).1
    omega

/-! ## Counting hull vertices -/

theorem chain_and {α : Type} {R Q : α → α → Prop} :
    ∀ S : List α, S.Chain' R → S.Chain' Q → S.Chain' (fun a b => R a b ∧ Q a b) := by
  intro S
  induction S with
  | nil => intro _ _; exact List.chain'_nil
  | cons c tl ih =>
    cases tl with
    | nil => intro _ _; exact List.chain'_singleton _
    | cons b rest =>
      intro h1 h2
      exact List.chain'_cons.mpr ⟨⟨List.Chain'.rel_head h1, List.Chain'.rel_head h2⟩,
        ih (List.Chain'.tail h1) (List.Chain'.tail h2)⟩

/-- An entry of a chain that is not its last entry has a next entry. -/
theorem chain_next {α : Type} {R : α → α → Prop} (x : α) :
    ∀ S : List α, S.Chain' R → x ∈ S → (∀ z ∈ S.getLast?, z ≠ x) → ∃ a, a ∈ S ∧ R x a := by
  intro S
  induction S with
  | nil => intro _ hx _; simp at hx
  | cons c tl ih =>
    cases tl with
    | nil =>
      intro _ hx hlast
      simp only [List.mem_singleton] at hx
      exact absurd hx.symm (hlast c (by simp))
    | cons b rest =>
      intro hc hx hlast
      rcases List.mem_cons.mp hx with rfl | hx
      · exact ⟨b, by simp, List.Chain'.rel_head hc⟩
      · obtain ⟨a, ha, hR⟩ := ih (List.Chain'.tail hc) hx
          (fun z hz => hlast z (by rw [List.getLast?_cons_cons]; exact hz))
        exact ⟨a, List.mem_cons_of_mem _ ha, hR⟩

theorem vec_parallel_zero (ux uy wx wy qx qy : K)
    (hu : 0 < ux ∨ (ux = 0 ∧ 0 ≤ uy)) (hw : 0 < wx ∨ (wx = 0 ∧ 0 ≤ wy))
    (hu0 : ux ≠ 0 ∨ uy ≠ 0) (hw0 : wx ≠ 0 ∨ wy ≠ 0)
    (h0 : ux * wy - uy * wx = 0) (hA : 0 ≤ ux * qy - uy * qx) (hB : wx * qy - wy * qx ≤ 0) :
    ux * qy - uy * qx = 0 := by
  have hux : 0 ≤ ux := by rcases hu with h | h; exact le_of_lt h; exact le_of_eq h.1.symm
  have ex : (wx * qy - wy * qx) * ux = (ux * qy - uy * qx) * wx := by
    linear_combination (-qx) * h0
  have ey : (wx * qy - wy * qx) * uy = (ux * qy - uy * qx) * wy := by
    linear_combination (-qy) * h0
  rcases hw with hwx | ⟨hwx, hwy⟩
  · have h1 : (ux * qy - uy * qx) * wx ≤ 0 := by
      rw [← ex]; exact mul_nonpos_of_nonpos_of_nonneg hB hux
    have h2 : 0 ≤ (ux * qy - uy * qx) * wx := mul_nonneg hA (le_of_lt hwx)
    have h3 : (ux * qy - uy * qx) * wx = 0 := le_antisymm h1 h2
    rcases mul_eq_zero.mp h3 with h | h
    · exact h
    · exact absurd h (ne_of_gt hwx)
  · have hwy' : 0 < wy := by
      rcases hw0 with h | h
      · exact absurd hwx h
      · exact lt_of_le_of_ne hwy (Ne.symm h)
    have hux0 : ux = 0 := by
      rw [hwx, mul_zero, sub_zero] at h0
      rcases mul_eq_zero.mp h0 with h | h
      · exact h
      · exact absurd h (ne_of_gt hwy')
    have huy : 0 < uy := by
      rcases hu with h | h
      · rw [hux0] at h; exact absurd h (lt_irrefl _)
      · rcases hu0 with h' | h'
        · exact absurd hux0 h'
        · exact lt_of_le_of_ne h.2 (Ne.symm h')
    have h1 : (ux * qy - uy * qx) * wy ≤ 0 := by
      rw [← ey]; exact mul_nonpos_of_nonpos_of_nonneg hB (le_of_lt huy)
    have h2 : 0 ≤ (ux * qy - uy * qx) * wy := mul_nonneg hA (le_of_lt hwy')
    have h3 : (ux * qy - uy * qx) * wy = 0 := le_antisymm h1 h2
    rcases mul_eq_zero.mp h3 with h | h
    · exact h
    · exact absurd h (ne_of_gt hwy')

/-- A point `x` strictly between `a` and `e` with both `a → x` and `e → x` having `q` on
their left, where `a, x, e` are collinear: then `q` is on their line. -/
theorem collinear_through {a x e q : pt K} (hax : pt.le a x) (hne1 : a ≠ x) (hxe : pt.le x e)
    (hne2 : x ≠ e) (h0 : orient a x e = 0) (hA : 0 ≤ orient a x q) (hB : 0 ≤ orient e x q) :
    orient a x q = 0 := by
  rw [ptLe_iff_sub] at hax hxe
  rw [orient_eq] at *
  have := vec_parallel_zero (x.x - a.x) (x.y - a.y) (e.x - x.x) (e.y - x.y) (q.x - x.x)
    (q.y - x.y) hax hxe (sub_ne_zero_of_ne hne1) (sub_ne_zero_of_ne hne2)
    (by linarith) (by linarith) (by linarith)
  linarith

theorem collinear_of_line {a x p q r : pt K} (hne : a ≠ x) (hp : orient a x p = 0)
    (hq : orient a x q = 0) (hr : orient a x r = 0) : orient p q r = 0 := by
  obtain ⟨α, hpx, hpy⟩ := collinear_param hne hp
  obtain ⟨β, hqx, hqy⟩ := collinear_param hne hq
  obtain ⟨γ, hrx, hry⟩ := collinear_param hne hr
  rw [orient_eq, hpx, hpy, hqx, hqy, hrx, hry]
  ring

theorem orient_swap_ends (a x e : pt K) : orient e x a = -orient a x e := by
  simp only [orient_eq]; ring

/-- Distinct points, not all on one line: no point other than the two extreme ones is kept by
both passes. -/
theorem chains_disjoint (l : List (pt K)) (hl : l.Pairwise pt.le) (hnd : l.Nodup)
    (hnc : ∃ p ∈ l, ∃ q ∈ l, ∃ r ∈ l, orient p q r ≠ 0) (x : pt K)
    (hxU : x ∈ (lowerPass l.reverse).tail) (hxL : x ∈ (lowerPass l).tail) : False := by
  have hLwN : (lowerPass l).Nodup := (lowerPass_sublist l).nodup (List.nodup_reverse.mpr hnd)
  have hUpN : (lowerPass l.reverse).Nodup :=
    (lowerPass_sublist l.reverse).nodup (by simpa using hnd)
  have hlow := scanInv_lowerPass ptLe_turnOrder l hl
  have hup := scanInv_upper l hl
  have hlowL := lowerPass_allLeft ptLe_turnOrder l hl hnd
  have hupL := lowerPass_allLeft ptGe_turnOrder l.reverse (List.pairwise_reverse.mpr hl)
    (List.nodup_reverse.mpr hnd)
  have hLwHead := lowerPass_head l
  have hLwLast := lowerPass_getLast l
  have hUpHead := lowerPass_head l.reverse
  have hUpLast := lowerPass_getLast l.reverse
  rw [List.getLast?_reverse] at hUpHead
  rw [List.head?_reverse] at hUpLast
  cases hLw : lowerPass l with
  | nil => rw [hLw] at hxL; simp at hxL
  | cons M T =>
    cases hUp : lowerPass l.reverse with
    | nil => rw [hUp] at hxU; simp at hxU
    | cons m U =>
      rw [hLw] at hxL hLwN hlow hlowL hLwHead hLwLast
      rw [hUp] at hxU hUpN hup hupL hUpHead hUpLast
      simp only [List.tail_cons] at hxL hxU
      simp only [List.head?_cons] at hLwHead hUpHead
      have hxM : x ≠ M := fun e => (List.nodup_cons.mp hLwN).1 (e ▸ hxL)
      have hxm : x ≠ m := fun e => (List.nodup_cons.mp hUpN).1 (e ▸ hxU)
      have c1 := chain_and _ (chain_and _ hlow.edges hlowL)
        (List.Pairwise.chain' hLwN)
      have c2 := chain_and _ (chain_and _ hup.edges hupL)
        (List.Pairwise.chain' hUpN)
      obtain ⟨a, _, ⟨ha1, ha2⟩, ha3⟩ := chain_next x _ c1 (List.mem_cons_of_mem _ hxL)
        (fun z hz => by
          rw [hLwLast, ← hUpHead] at hz
          simp only [Option.mem_def, Option.some.injEq] at hz
          rw [← hz]; exact hxm.symm)
      obtain ⟨e, _, ⟨he1, he2⟩, he3⟩ := chain_next x _ c2 (List.mem_cons_of_mem _ hxU)
        (fun z hz => by
          rw [hUpLast, ← hLwHead] at hz
          simp only [Option.mem_def, Option.some.injEq] at hz
          rw [← hz]; exact hxM.symm)
      have haP : a ∈ l := ha1.2.1
      have heP : e ∈ l := he1.2.1
      have hax : pt.le a x := ha1.2.2.1
      have hxe : pt.le x e := he1.2.2.1
      have h0 : orient a x e = 0 := by
        have p1 := ha2 e heP
        have p2 := he2 a (List.mem_reverse.mpr haP)
        rw [orient_swap_ends] at p2
        linarith
      have hline : ∀ q ∈ l, orient a x q = 0 := fun q hq =>
        collinear_through hax (Ne.symm ha3) hxe he3 h0 (ha2 q hq)
          (he2 q (List.mem_reverse.mpr hq))
      obtain ⟨p, hp, q, hq, r, hr, hne⟩ := hnc
      exact hne (collinear_of_line (Ne.symm ha3) (hline p hp) (hline q hq) (hline r hr))

/-- Distinct points that are not all collinear: the hull vertex count, the
returned length minus the duplicated closing point, is at most the number of input points. -/
theorem hullBuffer_count_le (points : List (pt K)) (hnd : points.Nodup)
    (hnc : ∃ p ∈ points, ∃ q ∈ points, ∃ r ∈ points, orient p q r ≠ 0) :
    monotoneChain points - 1 ≤ (points.length : Int) := by
  have hl := sortPoints_pairwise points
  have hnd' := sortPoints_nodup hnd
  have hnc' : ∃ p ∈ sortPoints points, ∃ q ∈ sortPoints points, ∃ r ∈ sortPoints points,
      orient p q r ≠ 0 := by
    obtain ⟨p, hp, q, hq, r, hr, hne⟩ := hnc
    exact ⟨p, mem_sortPoints.mpr hp, q, mem_sortPoints.mpr hq, r, mem_sortPoints.mpr hr, hne⟩
  have hLwN : (lowerPass (sortPoints points)).Nodup :=
    (lowerPass_sublist _).nodup (List.nodup_reverse.mpr hnd')
  have hUpN : (lowerPass (sortPoints points).reverse).Nodup :=
    (lowerPass_sublist _).nodup (by simpa using hnd')
  have hnodup : ((lowerPass (sortPoints points).reverse).tail ++
      (lowerPass (sortPoints points)).tail).Nodup := by
    rw [List.nodup_append]
    exact ⟨hUpN.tail, hLwN.tail, fun x h1 h2 =>
      chains_disjoint _ hl hnd' hnc' x h1 h2⟩
  have hsub : ((lowerPass (sortPoints points).reverse).tail ++
      (lowerPass (sortPoints points)).tail) ⊆ points := by
    intro x hx
    rcases List.mem_append.mp hx with h | h
    · have := mem_of_mem_lowerPass (List.mem_of_mem_tail h)
      exact mem_sortPoints.mp (List.mem_reverse.mp this)
    · exact mem_sortPoints.mp (mem_of_mem_lowerPass (List.mem_of_mem_tail h))
  have hle := (List.subperm_of_subset hnodup hsub).length_le
  have hlen : (hullBuffer points).length =
      (lowerPass (sortPoints points).reverse).length +
        (lowerPass (sortPoints points)).tail.length := by
    unfold hullBuffer
    rw [List.length_reverse, upperPass_eq, List.length_append]
  unfold monotoneChain
  rw [hlen]
  rw [List.length_append, List.length_tail, List.length_tail] at hle
  rw [List.length_tail]
  push_cast
  omega

/-! ## Concrete runs used as counterexamples and witnesses -/

theorem hullVertices_triangle_example :
    hullVertices ([⟨0, 0⟩, ⟨1, 0⟩, ⟨0, 1⟩] : List (pt ℚ)) = [⟨0, 0⟩, ⟨1, 0⟩, ⟨0, 1⟩] := by
  rw [hullVertices, hullBuffer_triangle_example]; rfl

theorem hullBuffer_flat_example :
    hullBuffer ([⟨0, 0⟩, ⟨1, 0⟩, ⟨2, 0⟩, ⟨1, 1⟩] : List (pt ℚ))
      = [⟨0, 0⟩, ⟨1, 0⟩, ⟨2, 0⟩, ⟨1, 1⟩, ⟨0, 0⟩] := by
  norm_num [hullBuffer, upperPass, lowerPass, sortPoints, hullStep, popWhile, orient_eq,
    pt.le, pt.lt, List.insertionSort, List.orderedInsert]

theorem hullVertices_flat_example :
    hullVertices ([⟨0, 0⟩, ⟨1, 0⟩, ⟨2, 0⟩, ⟨1, 1⟩] : List (pt ℚ))
      = [⟨0, 0⟩, ⟨1, 0⟩, ⟨2, 0⟩, ⟨1, 1⟩] := by
  rw [hullVertices, hullBuffer_flat_example]; rfl

theorem hullBuffer_line_example :
    hullBuffer ([⟨0, 0⟩, ⟨1, 0⟩, ⟨2, 0⟩] : List (pt ℚ))
      = [⟨0, 0⟩, ⟨1, 0⟩, ⟨2, 0⟩, ⟨1, 0⟩, ⟨0, 0⟩] := by
  norm_num [hullBuffer, upperPass, lowerPass, sortPoints, hullStep, popWhile, orient_eq,
    pt.le, pt.lt, List.insertionSort, List.orderedInsert]

/-! ## The buffer holds input points and is closed -/

theorem mem_of_mem_upperPass {l : List (pt K)} {x : pt K} (h : x ∈ upperPass l) : x ∈ l := by
  rw [upperPass_eq] at h
  rcases List.mem_append.mp h with h | h
  · exact List.mem_reverse.mp (mem_of_mem_lowerPass h)
  · exact mem_of_mem_lowerPass (List.mem_of_mem_tail h)

theorem lowerPass_ne_nil {l : List (pt K)} (h : l ≠ []) : lowerPass l ≠ [] := by
  intro e
  have := lowerPass_head l
  rw [e] at this
  exact h (List.getLast?_eq_none_iff.mp this.symm)

theorem upperPass_head (l : List (pt K)) : (upperPass l).head? = l.head? := by
  by_cases h : l = []
  · subst h; rfl
  · rw [upperPass_eq]
    have hne : lowerPass l.reverse ≠ [] := lowerPass_ne_nil (by simpa using h)
    cases hU : lowerPass l.reverse with
    | nil => exact absurd hU hne
    | cons m U =>
      have := lowerPass_head l.reverse
      rw [hU, List.getLast?_reverse] at this
      simpa using this

theorem upperPass_getLast (l : List (pt K)) : (upperPass l).getLast? = l.head? := by
  by_cases h : l = []
  · subst h; rfl
  · rw [upperPass_eq_dropLast, List.getLast?_append_of_ne_nil _ (lowerPass_ne_nil h)]
    exact lowerPass_getLast l

/-- Every entry of the buffer `H[0..st-1]` is an input point, and for at least two
input points the buffer is closed: `H[st-1] = H[0]`, the smallest input point in the order
of `pt::operator<` (by `x`, then `y`). -/
theorem hullBuffer_members_closed (points : List (pt K)) :
    (∀ x ∈ hullBuffer points, x ∈ points) ∧
    (2 ≤ points.length → ∃ m, (hullBuffer points)[0]? = some m ∧
      (hullBuffer points)[(hullBuffer points).length - 1]? = some m ∧
      m ∈ points ∧ ∀ p ∈ points, ¬ pt.lt p m) := by
  constructor
  · intro x hx
    exact mem_sortPoints.mp (mem_of_mem_upperPass (List.mem_reverse.mp hx))
  · intro h2
    have hlen : (sortPoints points).length = points.length := (sortPoints_perm points).length_eq
    cases hs : sortPoints points with
    | nil => rw [hs] at hlen; simp at hlen; omega
    | cons m rest =>
      refine ⟨m, ?_, ?_, ?_, ?_⟩
      · rw [← List.head?_eq_getElem?]
        unfold hullBuffer
        rw [List.head?_reverse, upperPass_getLast, hs]; rfl
      · rw [← List.getLast?_eq_getElem?]
        unfold hullBuffer
        rw [List.getLast?_reverse, upperPass_head, hs]; rfl
      · exact mem_sortPoints.mp (by rw [hs]; simp)
      · intro p hp
        have hp' : p ∈ sortPoints points := mem_sortPoints.mpr hp
        have hsorted := sortPoints_pairwise points
        rw [hs] at hp' hsorted
        rcases List.mem_cons.mp hp' with e | hp'
        · rw [e]; exact ptLe_refl m
        · exact (List.pairwise_cons.mp hsorted).1 p hp'

/-! ## Loops over the edges of a polygon

The loops of the polygon functions visit the index pairs `(i, (i + 1) % n)`; the entries read
are the consecutive pairs of the closed walk. -/

theorem edges_cons_cons {α : Type} (a b : α) (L : List α) :
    edges (a :: b :: L) = (a, b) :: edges (b :: L) := rfl

theorem edges_singleton {α : Type} (a : α) : edges [a] = [] := rfl

theorem edges_nil {α : Type} : edges ([] : List α) = [] := rfl

theorem edges_concat {α : Type} (x : α) :
    ∀ (L : List α) (z : α), edges (L ++ [z] ++ [x]) = edges (L ++ [z]) ++ [(z, x)] := by
  intro L
  induction L with
  | nil => intro z; rfl
  | cons a L ih =>
    intro z
    cases L with
    | nil => rfl
    | cons b L =>
      have := ih z
      simp only [List.cons_append] at this ⊢
      rw [edges_cons_cons, edges_cons_cons, this]
      rfl

theorem range_map_edges {α : Type} (d : α) :
    ∀ p : List α, (List.range (p.length - 1)).map (fun i => (p.getD i d, p.getD (i + 1) d))
      = edges p := by
  intro p
  induction p with
  | nil => rfl
  | cons a p ih =>
    cases p with
    | nil => rfl
    | cons b p =>
      have e : (a :: b :: p).length - 1 = (b :: p).length - 1 + 1 := by simp
      rw [e, List.range_succ_eq_map, List.map_cons, List.map_map, edges_cons_cons, ← ih]
      rfl

/-- The index pairs `(i, (i + 1) % n)`, `i = 0 .. n-1`, read the edges of the closed walk. -/
theorem range_map_closeWalk {α : Type} (d : α) (p : List α) :
    (List.range p.length).map (fun i => (p.getD i d, p.getD ((i + 1) % p.length) d))
      = edges (closeWalk p) := by
  induction p using List.reverseRecOn with
  | nil => rfl
  | append_singleton L z _ =>
    cases L with
    | nil => simp [closeWalk, edges, List.range_succ]
    | cons a L =>
      have hW : closeWalk (a :: L ++ [z]) = (a :: L) ++ [z] ++ [a] := by
        simp [closeWalk]
      rw [hW, edges_concat, ← range_map_edges d]
      have hlen : (a :: L ++ [z]).length = ((a :: L) ++ [z]).length - 1 + 1 := by simp
      rw [hlen, List.range_succ, List.map_append]
      congr 1
      · apply List.map_congr_left
        intro i hi
        have hi' : i + 1 < ((a :: L) ++ [z]).length - 1 + 1 := by
          have := List.mem_range.mp hi
          omega
        rw [Nat.mod_eq_of_lt hi']
      · simp only [List.map_cons, List.map_nil, List.cons.injEq, Prod.mk.injEq, and_true]
        constructor
        · simp [List.getD_eq_getElem?_getD]
        · simp

/-! ## `areaPolygon` -/

theorem foldl_add_eq_sum {α : Type} (g : α → K) :
    ∀ (L : List α) (init : K), L.foldl (fun acc e => acc + g e) init = init + (L.map g).sum := by
  intro L
  induction L with
  | nil => intro init; simp
  | cons a L ih =>
    intro init
    rw [List.foldl_cons, ih, List.map_cons, List.sum_cons, add_assoc]

/-- The shoelace sum is the sum of `cross` over the edges of the closed walk. -/
theorem shoelaceSum_eq (p : List (pt K)) :
    shoelaceSum p = ((edges (closeWalk p)).map (fun e => cross e.1 e.2)).sum := by
  unfold shoelaceSum
  rw [← range_map_closeWalk (⟨0, 0⟩ : pt K) p, ← zero_add (List.sum _),
    ← foldl_add_eq_sum, List.foldl_map]

theorem closeWalk_rotate_one_perm {α : Type} (p : List α) :
    (edges (closeWalk (p.rotate 1))).Perm (edges (closeWalk p)) := by
  cases p with
  | nil => exact List.Perm.refl _
  | cons a L =>
    rw [List.rotate_cons_succ, List.rotate_zero]
    cases L with
    | nil => exact List.Perm.refl _
    | cons b L =>
      have h1 : closeWalk (b :: L ++ [a]) = (b :: L) ++ [a] ++ [b] := by simp [closeWalk]
      have h2 : closeWalk (a :: b :: L) = a :: ((b :: L) ++ [a]) := by simp [closeWalk]
      rw [h1, h2, edges_concat]
      simp only [List.cons_append]
      rw [edges_cons_cons]
      exact List.perm_append_singleton _ _

theorem closeWalk_rotate_perm {α : Type} (p : List α) (k : Nat) :
    (edges (closeWalk (p.rotate k))).Perm (edges (closeWalk p)) := by
  induction k with
  | zero => rw [List.rotate_zero]
  | succ k ih =>
    rw [← List.rotate_rotate]
    exact (closeWalk_rotate_one_perm _).trans ih

theorem shoelaceSum_rotate (p : List (pt K)) (k : Nat) :
    shoelaceSum (p.rotate k) = shoelaceSum p := by
  rw [shoelaceSum_eq, shoelaceSum_eq]
  exact ((closeWalk_rotate_perm p k).map _).sum_eq

theorem cross_swap (a b : pt K) : cross b a = -cross a b := by
  simp only [cross]; ring

theorem edgeSum_reverse :
    ∀ L : List (pt K), ((edges L.reverse).map (fun e => cross e.1 e.2)).sum
      = -((edges L).map (fun e => cross e.1 e.2)).sum := by
  intro L
  induction L with
  | nil => simp [edges]
  | cons a L ih =>
    cases L with
    | nil => simp [edges]
    | cons b L =>
      have h : (a :: b :: L).reverse = L.reverse ++ [b] ++ [a] := by simp
      have h' : (b :: L).reverse = L.reverse ++ [b] := by simp
      rw [h, edges_concat, ← h', List.map_append, List.sum_append, ih, edges_cons_cons]
      simp only [List.map_cons, List.map_nil, List.sum_cons, List.sum_nil, add_zero]
      rw [cross_swap a b]
      ring

theorem closeWalk_reverse {α : Type} (p : List α) :
    (closeWalk p).reverse = closeWalk (p.reverse.rotate (p.length - 1)) := by
  cases p with
  | nil => rfl
  | cons a L =>
    have h : (a :: L).reverse.rotate ((a :: L).length - 1) = a :: L.reverse := by
      have := List.rotate_append_length_eq L.reverse [a]
      simpa using this
    rw [h]
    simp [closeWalk]

theorem shoelaceSum_reverse (p : List (pt K)) : shoelaceSum p.reverse = -shoelaceSum p := by
  rw [← shoelaceSum_rotate p.reverse (p.length - 1), shoelaceSum_eq, ← closeWalk_reverse,
    edgeSum_reverse, shoelaceSum_eq]

/-- C12: `areaPolygon` gives the same value for the reversed vertex list and for every cyclic
rotation of it, and the value is never negative. -/
theorem areaPolygon_invariant (p : List (pt K)) :
    areaPolygon p = areaPolygon p.reverse ∧
    (∀ k : Nat, areaPolygon p = areaPolygon (p.rotate k)) ∧
    0 ≤ areaPolygon p := by
  refine ⟨?_, ?_, ?_⟩
  · unfold areaPolygon
    rw [shoelaceSum_reverse, abs_neg]
  · intro k
    unfold areaPolygon
    rw [shoelaceSum_rotate]
  · unfold areaPolygon
    exact div_nonneg (abs_nonneg _) (by norm_num)

/-! ## `centroidPolygon` -/

/-- C13, the code at the failing input: for the clockwise unit square (0,0),(0,1),(1,1),(1,0)
the shoelace sum is -2 and `centroidPolygon` returns (-1/2,-1/2), not (1/2,1/2), while the
reversed (counter-clockwise) list gives (1/2,1/2). -/
theorem centroidPolygon_cw_square :
    shoelaceSum ([⟨0, 0⟩, ⟨0, 1⟩, ⟨1, 1⟩, ⟨1, 0⟩] : List (pt ℚ)) = -2 ∧
    centroidPolygon ([⟨0, 0⟩, ⟨0, 1⟩, ⟨1, 1⟩, ⟨1, 0⟩] : List (pt ℚ)) = ⟨-1 / 2, -1 / 2⟩ ∧
    centroidPolygon ([⟨0, 0⟩, ⟨0, 1⟩, ⟨1, 1⟩, ⟨1, 0⟩] : List (pt ℚ)).reverse = ⟨1 / 2, 1 / 2⟩ := by
  refine ⟨?_, ?_, ?_⟩
  · norm_num [shoelaceSum, List.range_succ, cross, List.getD]
  · norm_num [centroidPolygon, areaPolygon, shoelaceSum, List.range_succ, cross, List.getD]
    ext <;> norm_num
  · norm_num [centroidPolygon, areaPolygon, shoelaceSum, List.range_succ, cross, List.getD]
    ext <;> norm_num

/-! ## Circles -/

/-- C14, the code against the claim: `circleCircle` never returns 2.  For non-concentric
circles it returns 0 when `h2 < 0` and 1 whenever `h2 ≥ 0`, because `return 1 + h2 > 0;`
compares `1 + h2` with 0; the unit circles centred at (0,0) and (1,0) give 1. -/
theorem circleCircle_count (sqrt : K → K) (c1 : pt K) (r1 : K) (c2 : pt K) (r2 : K)
    (out : pt K × pt K) :
    (sq (c2 - c1) ≠ 0 →
      (r1 * r1 - ((sq (c2 - c1) + r1 * r1 - r2 * r2) / 2) *
          ((sq (c2 - c1) + r1 * r1 - r2 * r2) / 2) / sq (c2 - c1) < 0 →
        (circleCircle sqrt c1 r1 c2 r2 out).map Prod.fst = some 0) ∧
      (0 ≤ r1 * r1 - ((sq (c2 - c1) + r1 * r1 - r2 * r2) / 2) *
          ((sq (c2 - c1) + r1 * r1 - r2 * r2) / 2) / sq (c2 - c1) →
        (circleCircle sqrt c1 r1 c2 r2 out).map Prod.fst = some 1)) ∧
    (circleCircle sqrt ⟨0, 0⟩ 1 ⟨1, 0⟩ 1 out).map Prod.fst = some 1 := by
  constructor
  · intro hd
    constructor
    · intro h
      simp [circleCircle, hd, h]
    · intro h
      have h' : ¬ (r1 * r1 - ((sq (c2 - c1) + r1 * r1 - r2 * r2) / 2) *
          ((sq (c2 - c1) + r1 * r1 - r2 * r2) / 2) / sq (c2 - c1) < 0) := not_lt.mpr h
      have h1 : 0 < 1 + (r1 * r1 - ((sq (c2 - c1) + r1 * r1 - r2 * r2) / 2) *
          ((sq (c2 - c1) + r1 * r1 - r2 * r2) / 2) / sq (c2 - c1)) := by linarith
      simp [circleCircle, hd, h', h1]
  · norm_num [circleCircle, sq]

/-- Counterexample to C15 as stated: concentric circles of radii 1 and 2 pass the assertion
(the call returns 0), concentric circles of equal radius 1 fail it. -/
theorem circleCircle_assert_counterexample :
    circleCircle (fun x : ℚ => x) ⟨0, 0⟩ 1 ⟨0, 0⟩ 2 (⟨0, 0⟩, ⟨0, 0⟩)
      = some (0, (⟨0, 0⟩, ⟨0, 0⟩)) ∧
    circleCircle (fun x : ℚ => x) ⟨0, 0⟩ 1 ⟨0, 0⟩ 1 (⟨0, 0⟩, ⟨0, 0⟩) = none := by
  constructor
  · norm_num [circleCircle, sq]
  · norm_num [circleCircle, sq]

/-- C15 (amended, the two cases exchanged): for concentric circles `assert(r1 != r2)` aborts
exactly when the radii are equal; with different radii the call returns 0 and leaves `out`
as it was. -/
theorem circleCircle_assert (sqrt : K → K) (c : pt K) (r1 r2 : K) (out : pt K × pt K) :
    (circleCircle sqrt c r1 c r2 out = none ↔ r1 = r2) ∧
    (r1 ≠ r2 → circleCircle sqrt c r1 c r2 out = some (0, out)) := by
  have hd : sq (c - c) = 0 := by simp [sq]
  constructor
  · by_cases h : r1 = r2
    · simp [circleCircle, hd, h]
    · simp [circleCircle, hd, h]
  · intro h
    simp [circleCircle, hd, h]

/-- C16: `circleLine` returns 0, 1 or 2 according to the sign of `h2 = r² - l.sqDist(c)`; with
centre (0,0), radius 1 and the line through (0,0) and (1,0) it returns 2 and writes
((-1,0), (1,0)).  Of `sqrt` only `sqrt(1) = 1` is used. -/
theorem circleLine_count (sqrt : K → K) (hs : sqrt 1 = 1) (c : pt K) (r : K) (l : line K)
    (out : pt K × pt K) :
    (r * r - l.sqDist c < 0 → (circleLine sqrt c r l out).1 = 0) ∧
    (r * r - l.sqDist c = 0 → (circleLine sqrt c r l out).1 = 1) ∧
    (0 < r * r - l.sqDist c → (circleLine sqrt c r l out).1 = 2) ∧
    circleLine sqrt ⟨0, 0⟩ 1 (line.ofPoints ⟨0, 0⟩ ⟨1, 0⟩) out = (2, (⟨-1, 0⟩, ⟨1, 0⟩)) := by
  refine ⟨?_, ?_, ?_, ?_⟩
  · intro h
    simp [circleLine, h]
  · intro h
    simp [circleLine, h]
  · intro h
    have h' : ¬ (r * r - l.sqDist c < 0) := not_lt.mpr (le_of_lt h)
    simp [circleLine, h', h]
  · have e1 : (line.ofPoints (⟨0, 0⟩ : pt K) ⟨1, 0⟩).sqDist ⟨0, 0⟩ = 0 := by
      simp [line.sqDist, line.side, line.ofPoints, cross]
    have e2 : abs sqrt (line.ofPoints (⟨0, 0⟩ : pt K) ⟨1, 0⟩).v = 1 := by
      simp [abs, line.ofPoints, sq, hs]
    simp only [circleLine, e1, e2]
    norm_num [hs, line.proj, line.side, line.ofPoints, cross, perp, sq]
    constructor <;> ext <;> simp

/-- Witness for `circleLine_count`: the real square root, centre (0,0), radius 1 and the line
through (0,0) and (1,0). -/
theorem circleLine_count_witness :
    Real.sqrt 1 = 1 ∧
    circleLine Real.sqrt ⟨0, 0⟩ 1 (line.ofPoints ⟨0, 0⟩ ⟨1, 0⟩) (⟨0, 0⟩, ⟨0, 0⟩)
      = (2, (⟨-1, 0⟩, ⟨1, 0⟩)) :=
  ⟨Real.sqrt_one,
    (circleLine_count Real.sqrt Real.sqrt_one ⟨0, 0⟩ 1 (line.ofPoints ⟨0, 0⟩ ⟨1, 0⟩)
      (⟨0, 0⟩, ⟨0, 0⟩)).2.2.2⟩

/-! ## The line constructors -/

/-- C17, the code against the claim: the constructor from the equation form writes the
direction `(b, -a)` but never the offset, and the constructor from direction and offset
writes neither member, whatever arguments are passed; so `line(1, 0, 5)` built where the
storage held offset 0 does not have offset 5, and `translate` ignores its line and shift. -/
theorem line_constructors_unassigned (a b c c0 : K) (v v0 t : pt K) (l : line K) :
    (line.ofEquation a b c c0).v = ⟨b, -a⟩ ∧
    (line.ofEquation a b c c0).c = c0 ∧
    line.ofDirection v c v0 c0 = ⟨v0, c0⟩ ∧
    l.translate t v0 c0 = ⟨v0, c0⟩ ∧
    (line.ofEquation (1 : K) 0 5 0).c ≠ 5 := by
  refine ⟨rfl, rfl, rfl, rfl, ?_⟩
  show (0 : K) ≠ 5
  norm_num

/-! ## `isConvex` -/

theorem foldl_flags (o : Nat → Int) :
    ∀ (L : List Nat) (a b : Bool),
      L.foldl (fun (s : Bool × Bool) i =>
        (if 0 < o i then true else s.1, if o i < 0 then true else s.2)) (a, b)
      = (a || L.any (fun i => decide (0 < o i)), b || L.any (fun i => decide (o i < 0))) := by
  intro L
  induction L with
  | nil => intro a b; simp
  | cons i L ih =>
    intro a b
    rw [List.foldl_cons, ih]
    by_cases h1 : 0 < o i <;> by_cases h2 : o i < 0 <;> simp [h1, h2]

theorem foldl_flags_none (f : Nat → Option Int) :
    ∀ L : List Nat, L.foldl (fun (s : Option (Bool × Bool)) i =>
      match s, f i with
      | some s, some o => some (if 0 < o then true else s.1, if o < 0 then true else s.2)
      | _, _ => none) none = none := by
  intro L
  induction L with
  | nil => rfl
  | cons i L ih => rw [List.foldl_cons]; exact ih

/-- While every conversion is defined, the loop of `isConvex` is the loop over the converted
values. -/
theorem foldl_flags_some (f : Nat → Option Int) (z : Nat → Int) :
    ∀ (L : List Nat) (s : Bool × Bool), (∀ i ∈ L, f i = some (z i)) →
      L.foldl (fun (s : Option (Bool × Bool)) i =>
        match s, f i with
        | some s, some o => some (if 0 < o then true else s.1, if o < 0 then true else s.2)
        | _, _ => none) (some s)
      = some (L.foldl (fun (s : Bool × Bool) i =>
        (if 0 < z i then true else s.1, if z i < 0 then true else s.2)) s) := by
  intro L
  induction L with
  | nil => intro s _; rfl
  | cons i L ih =>
    intro s h
    rw [List.foldl_cons, List.foldl_cons, h i (by simp)]
    exact ih _ (fun j hj => h j (List.mem_cons_of_mem _ hj))

/-- One undefined conversion makes the whole loop undefined. -/
theorem foldl_flags_undefined (f : Nat → Option Int) (i : Nat) (hf : f i = none) :
    ∀ (L : List Nat) (s : Option (Bool × Bool)), i ∈ L →
      L.foldl (fun (s : Option (Bool × Bool)) i =>
        match s, f i with
        | some s, some o => some (if 0 < o then true else s.1, if o < 0 then true else s.2)
        | _, _ => none) s = none := by
  intro L
  induction L with
  | nil => intro s h; simp at h
  | cons j L ih =>
    intro s h
    rw [List.foldl_cons]
    by_cases e : j = i
    · subst e
      rw [hf]
      cases s <;> exact foldl_flags_none f L
    · refine ih _ ?_
      rcases List.mem_cons.mp h with h | h
      · exact absurd h.symm e
      · exact h

/-- What `isConvex` computes when every conversion `int o = orient(...)` is defined: no
triple truncates to a positive and another to a negative integer. -/
theorem isConvex_eq [FloorRing K] (p : List (pt K))
    (hr : ∀ i, i < p.length → toInt (orientAt p i) = some (trunc (orientAt p i))) :
    ∃ b, isConvex p = some b ∧ (b = true ↔
      ¬ ((∃ i, i < p.length ∧ 0 < trunc (orientAt p i)) ∧
         (∃ j, j < p.length ∧ trunc (orientAt p j) < 0))) := by
  have hs := foldl_flags_some (fun i => toInt (orientAt p i)) (fun i => trunc (orientAt p i))
    (List.range p.length) (false, false) (fun i hi => hr i (List.mem_range.mp hi))
  have hf := foldl_flags (fun i => trunc (orientAt p i)) (List.range p.length) false false
  rw [hf] at hs
  have hc : isConvex p = match ((List.range p.length).foldl
      (fun (s : Option (Bool × Bool)) i =>
        match s, toInt (orientAt p i) with
        | some s, some o => some (if 0 < o then true else s.1, if o < 0 then true else s.2)
        | _, _ => none) (some (false, false))) with
      | some f => some (!(f.1 && f.2))
      | none => none := rfl
  rw [hs] at hc
  refine ⟨_, hc, ?_⟩
  have h1 : ((List.range p.length).any fun i => decide (0 < trunc (orientAt p i))) = true ↔
      ∃ i, i < p.length ∧ 0 < trunc (orientAt p i) := by
    simp [List.any_eq_true]
  have h2 : ((List.range p.length).any fun i => decide (trunc (orientAt p i) < 0)) = true ↔
      ∃ j, j < p.length ∧ trunc (orientAt p j) < 0 := by
    simp [List.any_eq_true]
  rw [← h1, ← h2]
  cases ((List.range p.length).any fun i => decide (0 < trunc (orientAt p i))) <;>
    cases ((List.range p.length).any fun i => decide (trunc (orientAt p i) < 0)) <;> simp

theorem isConvex_undefined [FloorRing K] (p : List (pt K)) (i : Nat) (hi : i < p.length)
    (h : toInt (orientAt p i) = none) : isConvex p = none := by
  have hc : isConvex p = match ((List.range p.length).foldl
      (fun (s : Option (Bool × Bool)) i =>
        match s, toInt (orientAt p i) with
        | some s, some o => some (if 0 < o then true else s.1, if o < 0 then true else s.2)
        | _, _ => none) (some (false, false))) with
      | some f => some (!(f.1 && f.2))
      | none => none := rfl
  rw [hc, foldl_flags_undefined (fun i => toInt (orientAt p i)) i h _ _ (List.mem_range.mpr hi)]

theorem trunc_intCast [FloorRing K] (z : Int) : trunc (z : K) = z := by
  unfold trunc
  split_ifs <;> simp

theorem toInt_intCast [FloorRing K] (z : Int) (h1 : -2147483648 ≤ z) (h2 : z ≤ 2147483647) :
    toInt (z : K) = some z := by
  unfold toInt
  rw [trunc_intCast, if_pos ⟨h1, h2⟩]

theorem toInt_intCast_large [FloorRing K] (z : Int) (h : 2147483647 < z) :
    toInt (z : K) = none := by
  unfold toInt
  rw [trunc_intCast, if_neg]
  intro hcon
  omega

/-- C11 (amended): when the orientation values of the vertex triples are integers in the
range of `int` (from `-2^31` to `2^31 - 1`), `isConvex(p)` returns, and returns true exactly
when the triples do not contain both a strictly positive and a strictly negative orientation,
anywhere around the polygon; zero orientations are tolerated. -/
theorem isConvex_iff [FloorRing K] (p : List (pt K))
    (hint : ∀ i, i < p.length → ∃ z : Int, -2147483648 ≤ z ∧ z ≤ 2147483647 ∧
      orientAt p i = (z : K)) :
    ∃ b, isConvex p = some b ∧ (b = true ↔
      ¬ ((∃ i, i < p.length ∧ 0 < orientAt p i) ∧ (∃ j, j < p.length ∧ orientAt p j < 0))) := by
  have hr : ∀ i, i < p.length → toInt (orientAt p i) = some (trunc (orientAt p i)) := by
    intro i hi
    obtain ⟨z, h1, h2, hz⟩ := hint i hi
    rw [hz, toInt_intCast z h1 h2, trunc_intCast]
  obtain ⟨b, hb, hiff⟩ := isConvex_eq p hr
  refine ⟨b, hb, ?_⟩
  rw [hiff]
  have hpos : ∀ i, i < p.length → (0 < trunc (orientAt p i) ↔ 0 < orientAt p i) := by
    intro i hi
    obtain ⟨z, _, _, hz⟩ := hint i hi
    rw [hz, trunc_intCast]
    exact Int.cast_pos.symm
  have hneg : ∀ i, i < p.length → (trunc (orientAt p i) < 0 ↔ orientAt p i < 0) := by
    intro i hi
    obtain ⟨z, _, _, hz⟩ := hint i hi
    rw [hz, trunc_intCast]
    exact Int.cast_lt_zero.symm
  constructor
  · intro h hcon
    obtain ⟨⟨i, hi, h1⟩, ⟨j, hj, h2⟩⟩ := hcon
    exact h ⟨⟨i, hi, (hpos i hi).mpr h1⟩, ⟨j, hj, (hneg j hj).mpr h2⟩⟩
  · intro h hcon
    obtain ⟨⟨i, hi, h1⟩, ⟨j, hj, h2⟩⟩ := hcon
    exact h ⟨⟨i, hi, (hpos i hi).mp h1⟩, ⟨j, hj, (hneg j hj).mp h2⟩⟩

theorem orientAt_spike_example :
    orientAt ([⟨0, 0⟩, ⟨1, 0⟩, ⟨1, 1⟩, ⟨1, 0⟩] : List (pt ℚ)) 0 = ((1 : Int) : ℚ) ∧
    orientAt ([⟨0, 0⟩, ⟨1, 0⟩, ⟨1, 1⟩, ⟨1, 0⟩] : List (pt ℚ)) 1 = ((0 : Int) : ℚ) ∧
    orientAt ([⟨0, 0⟩, ⟨1, 0⟩, ⟨1, 1⟩, ⟨1, 0⟩] : List (pt ℚ)) 2 = ((-1 : Int) : ℚ) ∧
    orientAt ([⟨0, 0⟩, ⟨1, 0⟩, ⟨1, 1⟩, ⟨1, 0⟩] : List (pt ℚ)) 3 = ((0 : Int) : ℚ) := by
  refine ⟨?_, ?_, ?_, ?_⟩ <;> norm_num [orientAt, orient_eq, List.getD]

/-- Counterexample to C11 as stated: for the vertex list (0,0),(1,0),(1,1),(1,0) the triple
orientations are 1, 0, -1, 0, so no two cyclically consecutive ones have strictly opposite
signs, yet `isConvex` returns false. -/
theorem isConvex_consecutive_counterexample :
    isConvex ([⟨0, 0⟩, ⟨1, 0⟩, ⟨1, 1⟩, ⟨1, 0⟩] : List (pt ℚ)) = some false ∧
      ∀ i, i < ([⟨0, 0⟩, ⟨1, 0⟩, ⟨1, 1⟩, ⟨1, 0⟩] : List (pt ℚ)).length →
        ¬ ((0 < orientAt ([⟨0, 0⟩, ⟨1, 0⟩, ⟨1, 1⟩, ⟨1, 0⟩] : List (pt ℚ)) i ∧
            orientAt ([⟨0, 0⟩, ⟨1, 0⟩, ⟨1, 1⟩, ⟨1, 0⟩] : List (pt ℚ))
              ((i + 1) % ([⟨0, 0⟩, ⟨1, 0⟩, ⟨1, 1⟩, ⟨1, 0⟩] : List (pt ℚ)).length) < 0) ∨
          (orientAt ([⟨0, 0⟩, ⟨1, 0⟩, ⟨1, 1⟩, ⟨1, 0⟩] : List (pt ℚ)) i < 0 ∧
            0 < orientAt ([⟨0, 0⟩, ⟨1, 0⟩, ⟨1, 1⟩, ⟨1, 0⟩] : List (pt ℚ))
              ((i + 1) % ([⟨0, 0⟩, ⟨1, 0⟩, ⟨1, 1⟩, ⟨1, 0⟩] : List (pt ℚ)).length))) := by
  obtain ⟨o0, o1, o2, o3⟩ := orientAt_spike_example
  constructor
  · have hr : ∀ i, i < ([⟨0, 0⟩, ⟨1, 0⟩, ⟨1, 1⟩, ⟨1, 0⟩] : List (pt ℚ)).length →
        toInt (orientAt ([⟨0, 0⟩, ⟨1, 0⟩, ⟨1, 1⟩, ⟨1, 0⟩] : List (pt ℚ)) i)
          = some (trunc (orientAt ([⟨0, 0⟩, ⟨1, 0⟩, ⟨1, 1⟩, ⟨1, 0⟩] : List (pt ℚ)) i)) := by
      intro i hi
      simp only [List.length_cons, List.length_nil] at hi
      interval_cases i
      · rw [o0, trunc_intCast]; exact toInt_intCast _ (by decide) (by decide)
      · rw [o1, trunc_intCast]; exact toInt_intCast _ (by decide) (by decide)
      · rw [o2, trunc_intCast]; exact toInt_intCast _ (by decide) (by decide)
      · rw [o3, trunc_intCast]; exact toInt_intCast _ (by decide) (by decide)
    obtain ⟨b, hb, hiff⟩ := isConvex_eq _ hr
    have hne : ¬ b = true := by
      intro hb1
      apply hiff.mp hb1
      refine ⟨⟨0, by simp, ?_⟩, ⟨2, by simp, ?_⟩⟩
      · rw [o0, trunc_intCast]; decide
      · rw [o2, trunc_intCast]; decide
    rw [hb]
    cases b
    · rfl
    · exact absurd rfl hne
  · intro i hi
    simp only [List.length_cons, List.length_nil] at hi ⊢
    interval_cases i
    · rw [o0, o1]; norm_num
    · rw [o1, o2]; norm_num
    · rw [o2, o3]; norm_num
    · rw [o3, o0]; norm_num

theorem orientAt_square_example (i : Nat) (hi : i < 4) :
    orientAt ([⟨0, 0⟩, ⟨1, 0⟩, ⟨1, 1⟩, ⟨0, 1⟩] : List (pt ℚ)) i = ((1 : Int) : ℚ) := by
  interval_cases i <;> norm_num [orientAt, orient_eq, List.getD]

/-- Witness for `isConvex_iff`: the unit square, all of whose triple orientations are 1. -/
theorem isConvex_iff_witness :
    (∀ i, i < ([⟨0, 0⟩, ⟨1, 0⟩, ⟨1, 1⟩, ⟨0, 1⟩] : List (pt ℚ)).length →
      ∃ z : Int, -2147483648 ≤ z ∧ z ≤ 2147483647 ∧
        orientAt ([⟨0, 0⟩, ⟨1, 0⟩, ⟨1, 1⟩, ⟨0, 1⟩] : List (pt ℚ)) i = (z : ℚ)) ∧
    (∃ b, isConvex ([⟨0, 0⟩, ⟨1, 0⟩, ⟨1, 1⟩, ⟨0, 1⟩] : List (pt ℚ)) = some b ∧ (b = true ↔
      ¬ ((∃ i, i < ([⟨0, 0⟩, ⟨1, 0⟩, ⟨1, 1⟩, ⟨0, 1⟩] : List (pt ℚ)).length ∧
            0 < orientAt ([⟨0, 0⟩, ⟨1, 0⟩, ⟨1, 1⟩, ⟨0, 1⟩] : List (pt ℚ)) i) ∧
         (∃ j, j < ([⟨0, 0⟩, ⟨1, 0⟩, ⟨1, 1⟩, ⟨0, 1⟩] : List (pt ℚ)).length ∧
            orientAt ([⟨0, 0⟩, ⟨1, 0⟩, ⟨1, 1⟩, ⟨0, 1⟩] : List (pt ℚ)) j < 0)))) :=
  ⟨fun i hi => ⟨1, by decide, by decide, orientAt_square_example i hi⟩,
    isConvex_iff ([⟨0, 0⟩, ⟨1, 0⟩, ⟨1, 1⟩, ⟨0, 1⟩] : List (pt ℚ))
      (fun i hi => ⟨1, by decide, by decide, orientAt_square_example i hi⟩)⟩

/-- The truncation `int o = orient(...)` at work: the vertex list
(0,0),(1/2,0),(1/4,1/8),(1/2,1/2) has triple orientations 1/16 and -1/8 of opposite signs,
every orientation truncates to 0, and `isConvex` returns true. -/
theorem isConvex_truncation_example :
    0 < orientAt ([⟨0, 0⟩, ⟨1 / 2, 0⟩, ⟨1 / 4, 1 / 8⟩, ⟨1 / 2, 1 / 2⟩] : List (pt ℚ)) 0 ∧
    orientAt ([⟨0, 0⟩, ⟨1 / 2, 0⟩, ⟨1 / 4, 1 / 8⟩, ⟨1 / 2, 1 / 2⟩] : List (pt ℚ)) 1 < 0 ∧
    isConvex ([⟨0, 0⟩, ⟨1 / 2, 0⟩, ⟨1 / 4, 1 / 8⟩, ⟨1 / 2, 1 / 2⟩] : List (pt ℚ))
      = some true := by
  have hsmall : ∀ x : ℚ, -1 < x → x < 1 → trunc x = 0 := by
    intro x h1 h2
    unfold trunc
    split_ifs with h0
    · exact Int.floor_eq_zero_iff.mpr ⟨h0, h2⟩
    · rw [Int.ceil_eq_iff]
      push_neg at h0
      constructor
      · simpa using h1
      · simpa using le_of_lt h0
  have hz : ∀ i, i < ([⟨0, 0⟩, ⟨1 / 2, 0⟩, ⟨1 / 4, 1 / 8⟩, ⟨1 / 2, 1 / 2⟩] :
      List (pt ℚ)).length →
      trunc (orientAt ([⟨0, 0⟩, ⟨1 / 2, 0⟩, ⟨1 / 4, 1 / 8⟩, ⟨1 / 2, 1 / 2⟩] :
        List (pt ℚ)) i) = 0 := by
    intro i hi
    simp only [List.length_cons, List.length_nil] at hi
    apply hsmall
    · interval_cases i <;> norm_num [orientAt, orient_eq, List.getD]
    · interval_cases i <;> norm_num [orientAt, orient_eq, List.getD]
  refine ⟨?_, ?_, ?_⟩
  · norm_num [orientAt, orient_eq, List.getD]
  · norm_num [orientAt, orient_eq, List.getD]
  · obtain ⟨b, hb, hiff⟩ := isConvex_eq
      ([⟨0, 0⟩, ⟨1 / 2, 0⟩, ⟨1 / 4, 1 / 8⟩, ⟨1 / 2, 1 / 2⟩] : List (pt ℚ))
      (fun i hi => by
        unfold toInt
        rw [hz i hi]
        rfl)
    have hb1 : b = true := by
      apply hiff.mpr
      rintro ⟨⟨i, hi, hpos⟩, _⟩
      rw [hz i hi] at hpos
      exact absurd hpos (lt_irrefl _)
    rw [hb, hb1]

/-- Outside the range of `int`: the vertex list (0,0),(1,0),(1,1),(0,2147483648) has integer
coordinates and the triple orientations 1, 1, 2^31, 2^31, none of them negative, but 2^31 is
not an `int` and the conversion `int o = orient(...)` is undefined there. -/
theorem isConvex_int_range_example :
    orientAt ([⟨0, 0⟩, ⟨1, 0⟩, ⟨1, 1⟩, ⟨0, 2147483648⟩] : List (pt ℚ)) 2
      = ((2147483648 : Int) : ℚ) ∧
    isConvex ([⟨0, 0⟩, ⟨1, 0⟩, ⟨1, 1⟩, ⟨0, 2147483648⟩] : List (pt ℚ)) = none := by
  have h2 : orientAt ([⟨0, 0⟩, ⟨1, 0⟩, ⟨1, 1⟩, ⟨0, 2147483648⟩] : List (pt ℚ)) 2
      = ((2147483648 : Int) : ℚ) := by
    norm_num [orientAt, orient_eq, List.getD]
  refine ⟨h2, isConvex_undefined _ 2 (by simp) ?_⟩
  rw [h2]
  exact toInt_intCast_large _ (by decide)

/-! ## Distances: `segPoint`, `segSeg` -/

theorem sq_nonneg_pt (v : pt K) : 0 ≤ sq v := by
  unfold sq
  exact add_nonneg (mul_self_nonneg _) (mul_self_nonneg _)

theorem sqrt_eq_zero_iff {sqrt : K → K}
    (hs : ∀ x, 0 ≤ x → 0 ≤ sqrt x ∧ sqrt x * sqrt x = x) {x : K} (hx : 0 ≤ x) :
    sqrt x = 0 ↔ x = 0 := by
  constructor
  · intro h
    have := (hs x hx).2
    rw [h, mul_zero] at this
    exact this.symm
  · intro h
    have h2 := (hs x hx).2
    have h3 : sqrt x * sqrt x = 0 := by rw [h2, h]
    exact mul_self_eq_zero.mp h3

theorem abs_pt_nonneg {sqrt : K → K}
    (hs : ∀ x, 0 ≤ x → 0 ≤ sqrt x ∧ sqrt x * sqrt x = x) (v : pt K) : 0 ≤ abs sqrt v :=
  (hs _ (sq_nonneg_pt v)).1

theorem abs_sub_eq_zero_iff {sqrt : K → K}
    (hs : ∀ x, 0 ≤ x → 0 ≤ sqrt x ∧ sqrt x * sqrt x = x) (p a : pt K) :
    abs sqrt (p - a) = 0 ↔ p = a := by
  unfold abs
  rw [sqrt_eq_zero_iff hs (sq_nonneg_pt _)]
  constructor
  · intro h
    by_contra hne
    have := sq_pos_of_ne (fun e => hne e.symm)
    linarith
  · intro h
    rw [h]
    simp [sq]

theorem min_eq_zero_iff_of_nonneg {x y : K} (hx : 0 ≤ x) (hy : 0 ≤ y) :
    min x y = 0 ↔ x = 0 ∨ y = 0 := by
  constructor
  · intro h
    rcases le_total x y with hxy | hxy
    · rw [min_eq_left hxy] at h; exact Or.inl h
    · rw [min_eq_right hxy] at h; exact Or.inr h
  · rintro (h | h)
    · rw [h]; exact min_eq_left hy
    · rw [h]; exact min_eq_right hx

theorem dot_param {a b p : pt K} {t : K} (hx : p.x = a.x + (b.x - a.x) * t)
    (hy : p.y = a.y + (b.y - a.y) * t) :
    dot (b - a) p - dot (b - a) a = t * sq (b - a) ∧
    dot (b - a) b - dot (b - a) p = (1 - t) * sq (b - a) := by
  simp only [dot, sq, pt.sub_x, pt.sub_y]
  rw [hx, hy]
  constructor <;> ring

theorem segPoint_nonneg {sqrt : K → K}
    (hs : ∀ x, 0 ≤ x → 0 ≤ sqrt x ∧ sqrt x * sqrt x = x) (a b p : pt K) :
    0 ≤ segPoint sqrt a b p := by
  unfold segPoint
  split_ifs
  · exact div_nonneg (abs_nonneg _) (abs_pt_nonneg hs _)
  · exact le_min (abs_pt_nonneg hs _) (abs_pt_nonneg hs _)

/-- The distance `segPoint(a, b, p)` vanishes exactly for `p` on the closed segment `ab`. -/
theorem segPoint_eq_zero_iff {sqrt : K → K}
    (hs : ∀ x, 0 ≤ x → 0 ≤ sqrt x ∧ sqrt x * sqrt x = x) (a b p : pt K) :
    segPoint sqrt a b p = 0 ↔ OnSeg a b p := by
  unfold segPoint
  split_ifs with hc
  · obtain ⟨hab, h1, h2⟩ := hc
    simp only [line.cmpProj, line.ofPoints, decide_eq_true_eq] at h1 h2
    have hS : 0 < sq (b - a) := sq_pos_of_ne hab
    have habs : abs sqrt (b - a) ≠ 0 := by
      intro h
      have := (abs_sub_eq_zero_iff hs b a).mp h
      exact hab this.symm
    have hside : (line.ofPoints a b).side p = orient a b p := by
      simp only [line.side, line.ofPoints, cross, orient_eq, pt.sub_x, pt.sub_y]
      ring
    simp only [line.dist, line.ofPoints] at *
    rw [div_eq_zero_iff, abs_eq_zero]
    constructor
    · rintro (h | h)
      · have ho : orient a b p = 0 := by rw [← hside]; exact h
        obtain ⟨t, hx, hy⟩ := collinear_param hab ho
        obtain ⟨e1, e2⟩ := dot_param hx hy
        rw [onSeg_iff]
        refine ⟨t, ?_, ?_, hx, hy⟩
        · have : 0 < t * sq (b - a) := by rw [← e1]; linarith
          exact le_of_lt (pos_of_mul_pos_left this (le_of_lt hS))
        · have : 0 < (1 - t) * sq (b - a) := by rw [← e2]; linarith
          have := pos_of_mul_pos_left this (le_of_lt hS)
          linarith
      · exact absurd h habs
    · intro hon
      left
      have := orient_eq_zero_of_onSeg hon
      rw [← hside] at this
      exact this
  · rw [min_eq_zero_iff_of_nonneg (abs_pt_nonneg hs _) (abs_pt_nonneg hs _),
      abs_sub_eq_zero_iff hs, abs_sub_eq_zero_iff hs]
    constructor
    · rintro (h | h)
      · rw [h]; exact onSeg_left a b
      · rw [h]; exact onSeg_right a b
    · intro hon
      obtain ⟨t, ht0, ht1, hx, hy⟩ := (onSeg_iff a b p).mp hon
      by_cases hab : a = b
      · left
        subst hab
        exact pt.ext (by rw [hx]; ring) (by rw [hy]; ring)
      · obtain ⟨e1, e2⟩ := dot_param hx hy
        have hS : 0 < sq (b - a) := sq_pos_of_ne hab
        simp only [line.cmpProj, line.ofPoints, decide_eq_true_eq] at hc
        by_cases h0 : t = 0
        · left
          exact pt.ext (by rw [hx, h0]; ring) (by rw [hy, h0]; ring)
        · by_cases h1 : t = 1
          · right
            exact pt.ext (by rw [hx, h1]; ring) (by rw [hy, h1]; ring)
          · exfalso
            apply hc
            refine ⟨hab, ?_, ?_⟩
            · have : 0 < t * sq (b - a) := mul_pos (lt_of_le_of_ne ht0 (Ne.symm h0)) hS
              linarith
            · have : 0 < (1 - t) * sq (b - a) :=
                mul_pos (sub_pos.mpr (lt_of_le_of_ne ht1 h1)) hS
              linarith

theorem inters_iff_or (a b c d : pt K) :
    inters a b c d = true ↔
      ((properInter a b c d ⟨0, 0⟩).1 = true ∨ onSegment c d a = true ∨
        onSegment c d b = true ∨ onSegment a b c = true ∨ onSegment a b d = true) := by
  unfold inters
  by_cases h0 : (properInter a b c d ⟨0, 0⟩).1 = true
  · simp [h0]
  by_cases h1 : onSegment c d a = true
  · simp [h1]
  by_cases h2 : onSegment c d b = true
  · simp [h2]
  by_cases h3 : onSegment a b c = true
  · simp [h3]
  by_cases h4 : onSegment a b d = true
  · simp [h4]
  simp [h0, h1, h2, h3, h4]

/-- C20: `segSeg(a,b,c,d) = 0` exactly when `inters(a,b,c,d)` is true, degenerate segments
included; the segments (0,0)-(1,1) and (0,1)-(1,0) give 0.  Of `sqrt` it is used that on
non-negative arguments it is non-negative and squares back to the argument. -/
theorem segSeg_eq_zero_iff (sqrt : K → K)
    (hs : ∀ x, 0 ≤ x → 0 ≤ sqrt x ∧ sqrt x * sqrt x = x) (a b c d : pt K) :
    (segSeg sqrt a b c d = 0 ↔ inters a b c d = true) ∧
    segSeg sqrt ⟨0, 0⟩ ⟨1, 1⟩ ⟨0, 1⟩ ⟨1, 0⟩ = 0 := by
  constructor
  · rw [inters_iff_or, onSegment_iff, onSegment_iff, onSegment_iff, onSegment_iff]
    unfold segSeg
    by_cases hp : (properInter a b c d ⟨0, 0⟩).1 = true
    · simp [hp]
    · simp only [hp, if_false, false_or, Bool.false_eq_true]
      have n1 := segPoint_nonneg hs a b c
      have n2 := segPoint_nonneg hs a b d
      have n3 := segPoint_nonneg hs c d a
      have n4 := segPoint_nonneg hs c d b
      rw [min_eq_zero_iff_of_nonneg (le_min (le_min n1 n2) n3) n4,
        min_eq_zero_iff_of_nonneg (le_min n1 n2) n3, min_eq_zero_iff_of_nonneg n1 n2,
        segPoint_eq_zero_iff hs, segPoint_eq_zero_iff hs, segPoint_eq_zero_iff hs,
        segPoint_eq_zero_iff hs]
      tauto
  · have hp : (properInter (⟨0, 0⟩ : pt K) ⟨1, 1⟩ ⟨0, 1⟩ ⟨1, 0⟩ ⟨0, 0⟩).1 = true := by
      rw [properInter_fst]
      norm_num [orient_eq]
    simp [segSeg, hp]

/-- Witness for `segSeg_eq_zero_iff`: the real square root and the crossing segments
(0,0)-(1,1), (0,1)-(1,0). -/
theorem segSeg_eq_zero_iff_witness :
    (∀ x : ℝ, 0 ≤ x → 0 ≤ Real.sqrt x ∧ Real.sqrt x * Real.sqrt x = x) ∧
    ((segSeg Real.sqrt ⟨0, 0⟩ ⟨1, 1⟩ ⟨0, 1⟩ ⟨1, 0⟩ = 0 ↔
        inters (⟨0, 0⟩ : pt ℝ) ⟨1, 1⟩ ⟨0, 1⟩ ⟨1, 0⟩ = true) ∧
      segSeg Real.sqrt ⟨0, 0⟩ ⟨1, 1⟩ ⟨0, 1⟩ ⟨1, 0⟩ = 0) :=
  ⟨fun x hx => ⟨Real.sqrt_nonneg x, Real.mul_self_sqrt hx⟩,
    segSeg_eq_zero_iff Real.sqrt
      (fun x hx => ⟨Real.sqrt_nonneg x, Real.mul_self_sqrt hx⟩) ⟨0, 0⟩ ⟨1, 1⟩ ⟨0, 1⟩ ⟨1, 0⟩⟩

/-! ## `pointInPolygon` on the hull: list lemmas -/

theorem foldl_toggle {α : Type} (P : α → Prop) [DecidablePred P] :
    ∀ (L : List α) (c : Bool),
      L.foldl (fun c e => if P e then !c else c) c
        = if (L.countP (fun e => decide (P e))) % 2 = 1 then !c else c := by
  intro L
  induction L with
  | nil => intro c; simp
  | cons a L ih =>
    intro c
    rw [List.foldl_cons, ih]
    by_cases h : P a
    · simp only [h, if_true, List.countP_cons_of_pos, decide_True]
      rcases Nat.mod_two_eq_zero_or_one (List.countP (fun e => decide (P e)) L) with h0 | h0
      · have : (List.countP (fun e => decide (P e)) L + 1) % 2 = 1 := by omega
        simp [h0, this]
      · have : (List.countP (fun e => decide (P e)) L + 1) % 2 = 0 := by omega
        simp [h0, this]
    · simp [h]

theorem edges_reverse {α : Type} :
    ∀ L : List α, edges L.reverse = ((edges L).map Prod.swap).reverse := by
  intro L
  induction L with
  | nil => rfl
  | cons a L ih =>
    cases L with
    | nil => rfl
    | cons b L =>
      have h : (a :: b :: L).reverse = L.reverse ++ [b] ++ [a] := by simp
      have h' : (b :: L).reverse = L.reverse ++ [b] := by simp
      rw [h, edges_concat, ← h', ih, edges_cons_cons]
      simp

theorem edges_append_shared {α : Type} (M : α) (T : List α) :
    ∀ A : List α, edges (A ++ M :: T) = edges (A ++ [M]) ++ edges (M :: T) := by
  intro A
  induction A with
  | nil => simp [edges_singleton]
  | cons a A ih =>
    cases A with
    | nil =>
      simp only [List.nil_append, List.cons_append, List.singleton_append] at ih ⊢
      rw [edges_cons_cons, edges_cons_cons, edges_singleton]
      rfl
    | cons b A =>
      simp only [List.cons_append] at ih ⊢
      rw [edges_cons_cons, edges_cons_cons, ih]
      rfl

theorem chain_iff_edges {α : Type} {R : α → α → Prop} :
    ∀ S : List α, S.Chain' R ↔ ∀ e ∈ edges S, R e.1 e.2 := by
  intro S
  induction S with
  | nil => simp [edges_nil]
  | cons a S ih =>
    cases S with
    | nil => simp [edges_singleton]
    | cons b S =>
      rw [List.chain'_cons, ih, edges_cons_cons]
      simp

theorem mem_of_mem_edges {α : Type} :
    ∀ (S : List α) (e : α × α), e ∈ edges S → e.1 ∈ S ∧ e.2 ∈ S := by
  intro S e he
  unfold edges at he
  obtain ⟨h1, h2⟩ := List.of_mem_zip he
  exact ⟨h1, List.mem_of_mem_tail h2⟩

/-! ## `pointInPolygon` on the hull: the height along a chain -/

theorem persist_tail {g : pt K → K} {c : pt K} {S : List (pt K)} (h : Persist g (c :: S)) :
    Persist g S := by
  match S, h with
  | [], _ => trivial
  | [_], _ => trivial
  | _ :: _ :: _, h => exact h.2

/-- Once the key does not rise towards the newest entry, it is monotone all the way down. -/
theorem persist_mono (g : pt K → K) :
    ∀ (rest : List (pt K)) (c b : pt K), Persist g (c :: b :: rest) → g c ≤ g b →
      (c :: b :: rest).Chain' (fun v u => g v ≤ g u) := by
  intro rest
  induction rest with
  | nil =>
    intro c b _ h
    exact List.chain'_cons.mpr ⟨h, List.chain'_singleton _⟩
  | cons a r ih =>
    intro c b hp h
    exact List.chain'_cons.mpr ⟨h, ih b a (persist_tail hp) (hp.1 h)⟩

theorem chain_le_forall (g : pt K → K) :
    ∀ (S : List (pt K)) (b : pt K), (b :: S).Chain' (fun v u => g v ≤ g u) →
      ∀ w ∈ b :: S, g b ≤ g w := by
  intro S
  induction S with
  | nil =>
    intro b _ w hw
    simp only [List.mem_singleton] at hw
    rw [hw]
  | cons a S ih =>
    intro b hc w hw
    rcases List.mem_cons.mp hw with e | hw
    · rw [e]
    · have h1 : g b ≤ g a := (List.chain'_cons.mp hc).1
      exact le_trans h1 (ih a (List.Chain'.tail hc) w hw)

theorem chain_le_last (g : pt K → K) :
    ∀ (S : List (pt K)), S.Chain' (fun v u => g v ≤ g u) →
      ∀ w ∈ S, ∀ z ∈ S.getLast?, g w ≤ g z := by
  intro S
  induction S with
  | nil => intro _ w hw; simp at hw
  | cons b S ih =>
    intro hc w hw z hz
    cases S with
    | nil =>
      simp only [List.mem_singleton] at hw
      simp only [List.getLast?_singleton, Option.mem_def, Option.some.injEq] at hz
      rw [hw, hz]
    | cons a S =>
      rw [List.getLast?_cons_cons] at hz
      rcases List.mem_cons.mp hw with e | hw
      · rw [e]
        have h1 : g b ≤ g a := (List.chain'_cons.mp hc).1
        exact le_trans h1 (ih (List.Chain'.tail hc) a (by simp) z hz)
      · exact ih (List.Chain'.tail hc) w hw z hz

/-- Edges along which the key rises through `h` towards the newer entry: there is one if the
newest entry is above `h` and some entry is not, and none otherwise. -/
theorem count_rise (g : pt K → K) (h : K) :
    ∀ S : List (pt K), Persist g S →
      (((∃ t ∈ S.head?, h < g t) ∧ ∃ w ∈ S, g w ≤ h) →
        (edges S).countP (fun e => decide (g e.2 ≤ h ∧ h < g e.1)) = 1) ∧
      (¬ ((∃ t ∈ S.head?, h < g t) ∧ ∃ w ∈ S, g w ≤ h) →
        (edges S).countP (fun e => decide (g e.2 ≤ h ∧ h < g e.1)) = 0) := by
  intro S
  induction S with
  | nil =>
    intro _
    constructor
    · rintro ⟨⟨t, ht, _⟩, _⟩
      simp at ht
    · intro _; rfl
  | cons c S ih =>
    cases S with
    | nil =>
      intro _
      constructor
      · rintro ⟨⟨t, ht, hgt⟩, ⟨w, hw, hgw⟩⟩
        simp only [List.head?_cons, Option.mem_def, Option.some.injEq] at ht
        simp only [List.mem_singleton] at hw
        rw [← ht] at hgt
        rw [hw] at hgw
        exact absurd hgt (not_lt.mpr hgw)
      · intro _; rfl
    | cons b rest =>
      intro hp
      obtain ⟨ih1, ih0⟩ := ih (persist_tail hp)
      rw [edges_cons_cons]
      by_cases hedge : g b ≤ h ∧ h < g c
      · have hrest : ¬ ((∃ t ∈ (b :: rest).head?, h < g t) ∧ ∃ w ∈ b :: rest, g w ≤ h) := by
          rintro ⟨⟨t, ht, hgt⟩, _⟩
          simp only [List.head?_cons, Option.mem_def, Option.some.injEq] at ht
          rw [← ht] at hgt
          exact absurd hgt (not_lt.mpr hedge.1)
        rw [List.countP_cons_of_pos _ _ (by simpa using hedge), ih0 hrest]
        constructor
        · intro _; rfl
        · intro hn
          exact absurd ⟨⟨c, by simp, hedge.2⟩, ⟨b, by simp, hedge.1⟩⟩ hn
      · rw [List.countP_cons_of_neg _ _ (by simpa using hedge)]
        constructor
        · rintro ⟨⟨t, ht, hgt⟩, ⟨w, hw, hgw⟩⟩
          simp only [List.head?_cons, Option.mem_def, Option.some.injEq] at ht
          rw [← ht] at hgt
          have hw' : w ∈ b :: rest := by
            rcases List.mem_cons.mp hw with e | hw
            · rw [e] at hgw; exact absurd hgt (not_lt.mpr hgw)
            · exact hw
          apply ih1
          refine ⟨⟨b, by simp, ?_⟩, ⟨w, hw', hgw⟩⟩
          by_contra hb
          exact hedge ⟨not_lt.mp hb, hgt⟩
        · intro hn
          apply ih0
          rintro ⟨⟨t, ht, hgt⟩, ⟨w, hw, hgw⟩⟩
          simp only [List.head?_cons, Option.mem_def, Option.some.injEq] at ht
          rw [← ht] at hgt
          apply hn
          refine ⟨⟨c, by simp, ?_⟩, ⟨w, List.mem_cons_of_mem _ hw, hgw⟩⟩
          by_contra hc
          have hcb : g c ≤ g b := le_trans (not_lt.mp hc) (le_of_lt hgt)
          have hmono := chain_le_forall g rest b
            (List.Chain'.tail (persist_mono g rest c b hp hcb)) w hw
          exact absurd (lt_of_lt_of_le hgt hmono) (not_lt.mpr hgw)

/-- Edges along which the key falls through `h` towards the newer entry: there is one if the
oldest entry is not below `h` and some entry is, and none otherwise. -/
theorem count_fall (g : pt K → K) (h : K) :
    ∀ S : List (pt K), Persist g S →
      (((∃ z ∈ S.getLast?, h ≤ g z) ∧ ∃ w ∈ S, g w < h) →
        (edges S).countP (fun e => decide (g e.1 < h ∧ h ≤ g e.2)) = 1) ∧
      (¬ ((∃ z ∈ S.getLast?, h ≤ g z) ∧ ∃ w ∈ S, g w < h) →
        (edges S).countP (fun e => decide (g e.1 < h ∧ h ≤ g e.2)) = 0) := by
  intro S
  induction S with
  | nil =>
    intro _
    constructor
    · rintro ⟨⟨t, ht, _⟩, _⟩
      simp at ht
    · intro _; rfl
  | cons c S ih =>
    cases S with
    | nil =>
      intro _
      constructor
      · rintro ⟨⟨t, ht, hgt⟩, ⟨w, hw, hgw⟩⟩
        simp only [List.getLast?_singleton, Option.mem_def, Option.some.injEq] at ht
        simp only [List.mem_singleton] at hw
        rw [← ht] at hgt
        rw [hw] at hgw
        exact absurd hgw (not_lt.mpr hgt)
      · intro _; rfl
    | cons b rest =>
      intro hp
      obtain ⟨ih1, ih0⟩ := ih (persist_tail hp)
      rw [edges_cons_cons]
      by_cases hedge : g c < h ∧ h ≤ g b
      · have hmono := chain_le_forall g rest b
          (List.Chain'.tail (persist_mono g rest c b hp (le_of_lt (lt_of_lt_of_le hedge.1 hedge.2))))
        have hrest : ¬ ((∃ z ∈ (b :: rest).getLast?, h ≤ g z) ∧ ∃ w ∈ b :: rest, g w < h) := by
          rintro ⟨_, ⟨w, hw, hgw⟩⟩
          exact absurd (lt_of_le_of_lt (le_trans hedge.2 (hmono w hw)) hgw) (lt_irrefl _)
        rw [List.countP_cons_of_pos _ _ (by simpa using hedge), ih0 hrest]
        constructor
        · intro _; rfl
        · intro hn
          exfalso
          apply hn
          have hne : (b :: rest) ≠ [] := by simp
          refine ⟨⟨(b :: rest).getLast hne, ?_, ?_⟩, ⟨c, by simp, hedge.1⟩⟩
          · rw [List.getLast?_cons_cons, List.getLast?_eq_getLast _ hne]
            rfl
          · exact le_trans hedge.2 (hmono _ (List.getLast_mem hne))
      · rw [List.countP_cons_of_neg _ _ (by simpa using hedge)]
        have hiff : ((∃ z ∈ (c :: b :: rest).getLast?, h ≤ g z) ∧ ∃ w ∈ c :: b :: rest, g w < h) ↔
            ((∃ z ∈ (b :: rest).getLast?, h ≤ g z) ∧ ∃ w ∈ b :: rest, g w < h) := by
          rw [List.getLast?_cons_cons]
          constructor
          · rintro ⟨hz, ⟨w, hw, hgw⟩⟩
            refine ⟨hz, ?_⟩
            rcases List.mem_cons.mp hw with e | hw
            · rw [e] at hgw
              refine ⟨b, by simp, ?_⟩
              by_contra hb
              exact hedge ⟨hgw, not_lt.mp hb⟩
            · exact ⟨w, hw, hgw⟩
          · rintro ⟨hz, ⟨w, hw, hgw⟩⟩
            exact ⟨hz, ⟨w, List.mem_cons_of_mem _ hw, hgw⟩⟩
        rw [hiff]
        exact ⟨ih1, ih0⟩

/-- Along a stack with a persistent key every entry is bounded by the larger of the two
ends. -/
theorem persist_le_ends (g : pt K → K) (B : K) :
    ∀ S : List (pt K), Persist g S → (∀ t ∈ S.head?, g t ≤ B) → (∀ z ∈ S.getLast?, g z ≤ B) →
      ∀ w ∈ S, g w ≤ B := by
  intro S
  induction S with
  | nil => intro _ _ _ w hw; simp at hw
  | cons c S ih =>
    cases S with
    | nil =>
      intro _ ht _ w hw
      simp only [List.mem_singleton] at hw
      rw [hw]
      exact ht c (by simp)
    | cons b rest =>
      intro hp ht hz w hw
      have hc : g c ≤ B := ht c (by simp)
      rcases List.mem_cons.mp hw with e | hw'
      · rw [e]; exact hc
      · rcases le_total (g b) (g c) with hbc | hcb
        · refine ih (persist_tail hp) ?_ ?_ w hw'
          · intro t ht'
            simp only [List.head?_cons, Option.mem_def, Option.some.injEq] at ht'
            rw [← ht']
            exact le_trans hbc hc
          · rw [List.getLast?_cons_cons] at hz
            exact hz
        · have hch := persist_mono g rest c b hp hcb
          have hne : (c :: b :: rest) ≠ [] := by simp
          have hl := chain_le_last g _ hch w hw ((c :: b :: rest).getLast hne)
            (by rw [List.getLast?_eq_getLast _ hne]; rfl)
          exact le_trans hl (hz _ (by rw [List.getLast?_eq_getLast _ hne]; rfl))

/-! ## `pointInPolygon` on the hull: the hull is not flat -/

/-- Distinct input points: consecutive entries of the stack left by both passes differ. -/
theorem upperPass_chain_ne (l : List (pt K)) (hnd : l.Nodup) :
    (upperPass l).Chain' (fun v u => u ≠ v) := by
  have hLwN : (lowerPass l).Nodup := (lowerPass_sublist l).nodup (List.nodup_reverse.mpr hnd)
  have hUpN : (lowerPass l.reverse).Nodup :=
    (lowerPass_sublist l.reverse).nodup (by simpa using hnd)
  have c1 : (lowerPass l).Chain' (fun v u => u ≠ v) :=
    (List.Pairwise.chain' hLwN).imp (fun _ _ h => Ne.symm h)
  have c2 : (lowerPass l.reverse).Chain' (fun v u => u ≠ v) :=
    (List.Pairwise.chain' hUpN).imp (fun _ _ h => Ne.symm h)
  rw [upperPass_eq, List.chain'_append]
  refine ⟨c2, List.Chain'.tail c1, ?_⟩
  intro x hx y hy
  rw [lowerPass_getLast, List.head?_reverse, ← lowerPass_head] at hx
  cases hS : lowerPass l with
  | nil => rw [hS] at hx; simp at hx
  | cons x1 T =>
    rw [hS] at hx hy c1
    simp only [List.head?_cons, Option.mem_def, Option.some.injEq] at hx
    subst hx
    simp only [List.tail_cons] at hy
    exact List.Chain'.rel_head? c1 hy

theorem two_le_length_of_ne {α : Type} {l : List α} {a b : α} (ha : a ∈ l) (hb : b ∈ l)
    (hab : a ≠ b) : 2 ≤ l.length := by
  match l, ha, hb with
  | [], ha, _ => simp at ha
  | [x], ha, hb =>
    simp only [List.mem_singleton] at ha hb
    exact absurd (ha.trans hb.symm) hab
  | _ :: _ :: _, _, _ => simp

theorem length_of_not_collinear {l : List (pt K)}
    (hnc : ∃ p ∈ l, ∃ q ∈ l, ∃ r ∈ l, orient p q r ≠ 0) : 2 ≤ l.length := by
  obtain ⟨p, hp, q, hq, r, _, hne⟩ := hnc
  refine two_le_length_of_ne hp hq ?_
  intro e
  apply hne
  rw [e, orient_eq]; ring

/-- Distinct points, not all on one line: the entries of the stack left by both passes are
not all on one line either. -/
theorem upperPass_not_on_line (l : List (pt K)) (hl : l.Pairwise pt.le) (hnd : l.Nodup)
    (hnc : ∃ p ∈ l, ∃ q ∈ l, ∃ r ∈ l, orient p q r ≠ 0) (a b : pt K) (hab : a ≠ b)
    (hline : ∀ w ∈ upperPass l, orient a b w = 0) : False := by
  have h2 := length_of_not_collinear hnc
  obtain ⟨m, y, rest, hrev, hhead, _⟩ := upperPass_wrap l hl h2
  have hall := upperPass_allLeft l hl hnd
  have hne := upperPass_chain_ne l hnd
  have hmem : ∀ w ∈ upperPass l, w ∈ l := fun w hw => mem_of_mem_upperPass hw
  have hallR : ((upperPass l).reverse).Chain' (fun u v => ∀ q ∈ l, 0 ≤ orient u v q) := by
    rw [List.chain'_reverse]; exact hall
  have hneR : ((upperPass l).reverse).Chain' (fun u v => u ≠ v) := by
    rw [List.chain'_reverse]; exact hne
  rw [hrev] at hallR hneR
  have hmy : ∀ q ∈ l, 0 ≤ orient m y q := (List.chain'_cons.mp hallR).1
  have hmney : m ≠ y := (List.chain'_cons.mp hneR).1
  have hyF : y ∈ upperPass l := by
    rw [← List.mem_reverse, hrev]; simp
  have hmF : m ∈ upperPass l := by
    rw [← List.mem_reverse, hrev]; simp
  cases hF : upperPass l with
  | nil => rw [hF] at hmF; simp at hmF
  | cons m0 F1 =>
    rw [hF] at hhead hall hne
    simp only [List.head?_cons, Option.some.injEq] at hhead
    subst hhead
    cases F1 with
    | nil =>
      rw [hF] at hrev
      simp at hrev
    | cons e F2 =>
      have hem : ∀ q ∈ l, 0 ≤ orient e m0 q := (List.chain'_cons.mp hall).1
      have hmnee : e ≠ m0 := (List.chain'_cons.mp hne).1
      have heF : e ∈ upperPass l := by rw [hF]; simp
      have hmin : ∀ q ∈ l, pt.le m0 q := by
        have hh := upperPass_head l
        rw [hF] at hh
        simp only [List.head?_cons] at hh
        cases l with
        | nil => simp at hh
        | cons x l1 =>
          simp only [List.head?_cons, Option.some.injEq] at hh
          subst hh
          intro q hq
          rcases List.mem_cons.mp hq with e1 | hq
          · rw [e1]; exact ptLe_refl _
          · exact (List.pairwise_cons.mp hl).1 q hq
      have h0 : orient m0 y e = 0 :=
        collinear_of_line hab (hline m0 hmF) (hline y hyF) (hline e heF)
      have hlex1 := (ptLe_iff_sub m0 y).mp (hmin y (hmem y hyF))
      have hlex2 := (ptLe_iff_sub m0 e).mp (hmin e (hmem e heF))
      have hall0 : ∀ q ∈ l, orient m0 y q = 0 := by
        intro q hq
        have hA := hmy q hq
        have hB := hem q hq
        rw [orient_eq] at h0 hA hB ⊢
        have := vec_parallel_zero (y.x - m0.x) (y.y - m0.y) (e.x - m0.x) (e.y - m0.y)
          (q.x - m0.x) (q.y - m0.y) hlex1 hlex2 (sub_ne_zero_of_ne hmney)
          (sub_ne_zero_of_ne (Ne.symm hmnee)) (by linarith) (by linarith) (by linarith)
        linarith
      obtain ⟨p, hp, q, hq, r, hr, hn⟩ := hnc
      exact hn (collinear_of_line hmney (hall0 p hp) (hall0 q hq) (hall0 r hr))

/-! ## `pointInPolygon` on the hull: the vertex mean -/

theorem foldl_add_x (V : List (pt K)) :
    ∀ s : pt K, (V.foldl (fun s w => s + w) s).x = s.x + (V.map (fun w => w.x)).sum := by
  induction V with
  | nil => intro s; simp
  | cons a V ih =>
    intro s
    rw [List.foldl_cons, ih, List.map_cons, List.sum_cons, pt.add_x, add_assoc]

theorem foldl_add_y (V : List (pt K)) :
    ∀ s : pt K, (V.foldl (fun s w => s + w) s).y = s.y + (V.map (fun w => w.y)).sum := by
  induction V with
  | nil => intro s; simp
  | cons a V ih =>
    intro s
    rw [List.foldl_cons, ih, List.map_cons, List.sum_cons, pt.add_y, add_assoc]

theorem vertexMean_x (V : List (pt K)) :
    (vertexMean V).x = (V.map (fun w => w.x)).sum / (V.length : K) := by
  unfold vertexMean
  rw [pt.div_x, foldl_add_x]
  simp

theorem vertexMean_y (V : List (pt K)) :
    (vertexMean V).y = (V.map (fun w => w.y)).sum / (V.length : K) := by
  unfold vertexMean
  rw [pt.div_y, foldl_add_y]
  simp

theorem sum_orient (u v : pt K) (V : List (pt K)) :
    (V.map (fun w => orient u v w)).sum =
      (v.x - u.x) * ((V.map (fun w => w.y)).sum - (V.length : K) * u.y) -
        (v.y - u.y) * ((V.map (fun w => w.x)).sum - (V.length : K) * u.x) := by
  induction V with
  | nil => simp
  | cons a V ih =>
    rw [List.map_cons, List.sum_cons, ih, orient_eq]
    simp only [List.map_cons, List.sum_cons, List.length_cons, Nat.cast_add, Nat.cast_one]
    ring

/-- The orientation test is affine in its last argument: at the mean of a list of points it
is the mean of its values. -/
theorem orient_vertexMean (u v : pt K) (V : List (pt K)) (hV : V ≠ []) :
    orient u v (vertexMean V) * (V.length : K) = (V.map (fun w => orient u v w)).sum := by
  have hn : (V.length : K) ≠ 0 := by
    have : V.length ≠ 0 := fun h => hV (List.length_eq_zero.mp h)
    exact_mod_cast this
  rw [sum_orient, orient_eq, vertexMean_x, vertexMean_y]
  field_simp

theorem orient_vertexMean_pos (u v : pt K) (V : List (pt K))
    (hall : ∀ w ∈ V, 0 ≤ orient u v w) (hex : ∃ w ∈ V, 0 < orient u v w) :
    0 < orient u v (vertexMean V) := by
  obtain ⟨w, hw, hpos⟩ := hex
  have hV : V ≠ [] := List.ne_nil_of_mem hw
  have hn : (0 : K) < (V.length : K) := by
    have : 0 < V.length := List.length_pos.mpr hV
    exact_mod_cast this
  have hsum : orient u v w ≤ (V.map (fun w => orient u v w)).sum := by
    apply List.single_le_sum
    · intro x hx
      obtain ⟨z, hz, rfl⟩ := List.mem_map.mp hx
      exact hall z hz
    · exact List.mem_map.mpr ⟨w, hw, rfl⟩
  rw [← orient_vertexMean u v V hV] at hsum
  by_contra hcon
  have : orient u v (vertexMean V) * (V.length : K) ≤ 0 :=
    mul_nonpos_of_nonpos_of_nonneg (not_lt.mp hcon) (le_of_lt hn)
  linarith

/-- Distinct points, not all on one line: the mean of the hull vertices is strictly left of
every directed line that has all hull vertices on it or on its left. -/
theorem mean_strict (l : List (pt K)) (hl : l.Pairwise pt.le) (hnd : l.Nodup)
    (hnc : ∃ p ∈ l, ∃ q ∈ l, ∃ r ∈ l, orient p q r ≠ 0) (V : List (pt K))
    (hV : ∀ w, w ∈ V ↔ w ∈ upperPass l) (a b : pt K) (hab : a ≠ b)
    (hall : ∀ w ∈ V, 0 ≤ orient a b w) : 0 < orient a b (vertexMean V) := by
  apply orient_vertexMean_pos a b V hall
  by_contra hcon
  push_neg at hcon
  apply upperPass_not_on_line l hl hnd hnc a b hab
  intro w hw
  have hw' := (hV w).mpr hw
  exact le_antisymm (hcon w hw') (hall w hw')

/-! ## `pointInPolygon` on the hull: the loop as a count of crossing edges -/

theorem pointInPolygon_eq_count (p : List (pt K)) (q : pt K) :
    pointInPolygon p q =
      decide ((edges (closeWalk p)).countP (fun e => decide (Toggles q e)) % 2 = 1) := by
  have h : pointInPolygon p q =
      ((List.range p.length).map
        (fun i => (p.getD i (⟨0, 0⟩ : pt K), p.getD ((i + 1) % p.length) ⟨0, 0⟩))).foldl
        (fun c e => if Toggles q e then !c else c) false := by
    rw [List.foldl_map]
    rfl
  rw [h, range_map_closeWalk, foldl_toggle]
  by_cases hc : (edges (closeWalk p)).countP (fun e => decide (Toggles q e)) % 2 = 1
  · simp [hc]
  · simp [hc]

/-- For a point strictly left of the edge `u → v`, the loop toggles exactly when the edge
rises through the height of the point. -/
theorem toggles_iff_rising (u v q : pt K) (h : 0 < orient u v q) :
    Toggles q (u, v) ↔ (u.y ≤ q.y ∧ q.y < v.y) := by
  rw [orient_eq] at h
  unfold Toggles
  simp only
  constructor
  · rintro ⟨h1 | h2, hx⟩
    · exact h1
    · exfalso
      have hd : v.y - u.y < 0 := by linarith [h2.1, h2.2]
      have hx' : q.x - u.x < (v.x - u.x) * (q.y - u.y) / (v.y - u.y) := by linarith
      rw [lt_div_iff_of_neg hd] at hx'
      linarith
  · intro h1
    refine ⟨Or.inl h1, ?_⟩
    have hd : 0 < v.y - u.y := by linarith [h1.1, h1.2]
    have hx' : q.x - u.x < (v.x - u.x) * (q.y - u.y) / (v.y - u.y) := by
      rw [lt_div_iff₀ hd]
      linarith
    linarith

theorem turn_keeps_falling {a b c : pt K} (hab : pt.le a b) (hbc : pt.le b c) (hne : b ≠ c)
    (ho : 0 ≤ orient a b c) (h : c.y ≤ b.y) : b.y ≤ a.y := by
  rw [ptLe_iff] at hab hbc
  rw [orient_eq] at ho
  by_contra hcon
  have hlt : a.y < b.y := not_le.mp hcon
  have hdx1 : 0 ≤ b.x - a.x := by
    rcases hab with h1 | h1
    · linarith
    · linarith [h1.1]
  rcases hbc with h1 | ⟨h1, h2⟩
  · have p1 : 0 < (b.y - a.y) * (c.x - b.x) := mul_pos (by linarith) (by linarith)
    have p2 : (b.x - a.x) * (c.y - b.y) ≤ 0 :=
      mul_nonpos_of_nonneg_of_nonpos hdx1 (by linarith)
    have e : (b.x - a.x) * (c.y - a.y) - (b.y - a.y) * (c.x - a.x) =
        (b.x - a.x) * (c.y - b.y) - (b.y - a.y) * (c.x - b.x) := by ring
    linarith
  · exact hne (pt.ext h1 (le_antisymm h2 h))

theorem turn_keeps_rising {a b c : pt K} (hab : pt.le b a) (hbc : pt.le c b) (hne : b ≠ c)
    (ho : 0 ≤ orient a b c) (h : b.y ≤ c.y) : a.y ≤ b.y := by
  rw [ptLe_iff] at hab hbc
  rw [orient_eq] at ho
  by_contra hcon
  have hlt : b.y < a.y := not_le.mp hcon
  have hdx1 : 0 ≤ a.x - b.x := by
    rcases hab with h1 | h1
    · linarith
    · linarith [h1.1]
  rcases hbc with h1 | ⟨h1, h2⟩
  · have p1 : 0 < (a.y - b.y) * (b.x - c.x) := mul_pos (by linarith) (by linarith)
    have p2 : (a.x - b.x) * (b.y - c.y) ≤ 0 :=
      mul_nonpos_of_nonneg_of_nonpos hdx1 (by linarith)
    have e : (b.x - a.x) * (c.y - a.y) - (b.y - a.y) * (c.x - a.x) =
        (a.x - b.x) * (b.y - c.y) - (a.y - b.y) * (b.x - c.x) := by ring
    linarith
  · exact hne (pt.ext h1.symm (le_antisymm h h2))

/-- Along the lower chain the height, once it falls towards the newer entry, fell before. -/
theorem persist_lower :
    ∀ S : List (pt K), S.Chain' (fun v u => pt.le u v ∧ u ≠ v) → LeftTurns S →
      Persist (fun w => w.y) S := by
  intro S
  induction S with
  | nil => intro _ _; trivial
  | cons c S ih =>
    match S, ih with
    | [], _ => intro _ _; trivial
    | [_], _ => intro _ _; trivial
    | b :: a :: r, ih =>
      intro hc ht
      have hcb := (List.chain'_cons.mp hc).1
      have hba := (List.chain'_cons.mp (List.Chain'.tail hc)).1
      exact ⟨fun h => turn_keeps_falling hba.1 hcb.1 hcb.2 ht.1 h,
        ih (List.Chain'.tail hc) ht.2⟩

/-- Along the upper chain the height, once it rises towards the newer entry, rose before. -/
theorem persist_upper :
    ∀ S : List (pt K), S.Chain' (fun v u => pt.le v u ∧ u ≠ v) → LeftTurns S →
      Persist (fun w => -w.y) S := by
  intro S
  induction S with
  | nil => intro _ _; trivial
  | cons c S ih =>
    match S, ih with
    | [], _ => intro _ _; trivial
    | [_], _ => intro _ _; trivial
    | b :: a :: r, ih =>
      intro hc ht
      have hcb := (List.chain'_cons.mp hc).1
      have hba := (List.chain'_cons.mp (List.Chain'.tail hc)).1
      refine ⟨fun h => ?_, ih (List.Chain'.tail hc) ht.2⟩
      simp only [neg_le_neg_iff] at h ⊢
      exact turn_keeps_rising hba.1 hcb.1 hcb.2 ht.1 h

/-! ## `pointInPolygon` on the hull: one rising edge at every height inside -/

/-- Distinct sorted points: at a height `h` that some stack entry reaches and some entry
exceeds, exactly one edge of the stack left by both passes rises through `h` (from the older
entry at or below `h` to the newer entry above it). -/
theorem upperPass_rising_count (l : List (pt K)) (hl : l.Pairwise pt.le) (hnd : l.Nodup)
    (h2 : 2 ≤ l.length) (h : K) (hlo : ∃ w ∈ upperPass l, w.y ≤ h)
    (hhi : ∃ w ∈ upperPass l, h < w.y) :
    (edges (upperPass l)).countP (fun e => decide (e.2.y ≤ h ∧ h < e.1.y)) = 1 := by
  have hLwN : (lowerPass l).Nodup := (lowerPass_sublist l).nodup (List.nodup_reverse.mpr hnd)
  have hUpN : (lowerPass l.reverse).Nodup :=
    (lowerPass_sublist l.reverse).nodup (by simpa using hnd)
  have hlow := scanInv_lowerPass ptLe_turnOrder l hl
  have hup := scanInv_upper l hl
  have pL : Persist (fun w => w.y) (lowerPass l) :=
    persist_lower _ (chain_and _ (hlow.edges.imp (fun _ _ h => h.2.2.1))
      ((List.Pairwise.chain' hLwN).imp (fun _ _ h => Ne.symm h))) hlow.turns
  have pU : Persist (fun w => -w.y) (lowerPass l.reverse) :=
    persist_upper _ (chain_and _ (hup.edges.imp (fun _ _ h => h.2.2.1))
      ((List.Pairwise.chain' hUpN).imp (fun _ _ h => Ne.symm h))) hup.turns
  have hLwHead := lowerPass_head l
  have hLwLast := lowerPass_getLast l
  have hUpHead := lowerPass_head l.reverse
  have hUpLast := lowerPass_getLast l.reverse
  rw [List.getLast?_reverse] at hUpHead
  rw [List.head?_reverse] at hUpLast
  obtain ⟨M, t1, T, hLw⟩ := lowerPass_two l h2
  obtain ⟨m, e1, E, hUp⟩ := lowerPass_two l.reverse (by simpa using h2)
  have hUpLastM : (lowerPass l.reverse).getLast? = some M := by
    rw [hUpLast, ← hLwHead, hLw]; rfl
  have hLwLastm : (lowerPass l).getLast? = some m := by
    rw [hLwLast, ← hUpHead, hUp]; rfl
  have hMU : M ∈ lowerPass l.reverse := List.mem_of_getLast?_eq_some hUpLastM
  have hmL : m ∈ lowerPass l := List.mem_of_getLast?_eq_some hLwLastm
  have hmU : m ∈ lowerPass l.reverse := by rw [hUp]; simp
  have hML : M ∈ lowerPass l := by rw [hLw]; simp
  have hsplit : edges (upperPass l) = edges (lowerPass l.reverse) ++ edges (lowerPass l) := by
    rw [upperPass_eq_dropLast, hLw, edges_append_shared]
    rw [← hLw, List.dropLast_append_getLast? M hUpLastM]
  have hmemF : ∀ w, w ∈ upperPass l ↔ (w ∈ lowerPass l.reverse ∨ w ∈ lowerPass l) := by
    intro w
    rw [upperPass_eq, List.mem_append]
    constructor
    · rintro (hw | hw)
      · exact Or.inl hw
      · exact Or.inr (List.mem_of_mem_tail hw)
    · rintro (hw | hw)
      · exact Or.inl hw
      · rw [hLw] at hw ⊢
        rcases List.mem_cons.mp hw with e | hw
        · rw [e]; exact Or.inl hMU
        · exact Or.inr hw
  have cL := count_rise (fun w => w.y) h (lowerPass l) pL
  have cU := count_fall (fun w => -w.y) (-h) (lowerPass l.reverse) pU
  have hcongr : (edges (lowerPass l.reverse)).countP (fun e => decide (e.2.y ≤ h ∧ h < e.1.y))
      = (edges (lowerPass l.reverse)).countP
          (fun e => decide ((fun w : pt K => -w.y) e.1 < -h ∧ -h ≤ (fun w : pt K => -w.y) e.2)) := by
    apply List.countP_congr
    intro e _
    simp only [decide_eq_true_eq, neg_lt_neg_iff, neg_le_neg_iff]
    exact and_comm
  rw [hsplit, List.countP_append, hcongr]
  obtain ⟨wlo, hwlo, hlo⟩ := hlo
  obtain ⟨whi, hwhi, hhi⟩ := hhi
  by_cases hM : h < M.y
  · have hU0 := cU.2 (by
      rintro ⟨⟨z, hz, hzh⟩, _⟩
      rw [hUpLastM] at hz
      simp only [Option.mem_def, Option.some.injEq] at hz
      rw [← hz] at hzh
      simp only [neg_le_neg_iff] at hzh
      exact absurd hM (not_lt.mpr hzh))
    have hL1 := cL.1 (by
      refine ⟨⟨M, by rw [hLw]; rfl, hM⟩, ?_⟩
      by_cases hm : m.y ≤ h
      · exact ⟨m, hmL, hm⟩
      · rcases (hmemF wlo).mp hwlo with hw | hw
        · exfalso
          have hb := persist_le_ends (fun w => -w.y) (max (-m.y) (-M.y)) _ pU
            (fun t ht => by
              rw [hUp] at ht
              simp only [List.head?_cons, Option.mem_def, Option.some.injEq] at ht
              rw [← ht]; exact le_max_left _ _)
            (fun z hz => by
              rw [hUpLastM] at hz
              simp only [Option.mem_def, Option.some.injEq] at hz
              rw [← hz]; exact le_max_right _ _)
            wlo hw
          have hlt : max (-m.y) (-M.y) < -h := max_lt (by linarith [not_le.mp hm]) (by linarith)
          simp only at hb
          linarith
        · exact ⟨wlo, hw, hlo⟩)
    rw [hU0, hL1]
  · have hMh : M.y ≤ h := not_lt.mp hM
    have hL0 := cL.2 (by
      rintro ⟨⟨t, ht, hth⟩, _⟩
      rw [hLw] at ht
      simp only [List.head?_cons, Option.mem_def, Option.some.injEq] at ht
      rw [← ht] at hth
      exact hM hth)
    have hU1 := cU.1 (by
      refine ⟨⟨M, hUpLastM, by simpa using hMh⟩, ?_⟩
      by_cases hm : h < m.y
      · exact ⟨m, hmU, by simpa using hm⟩
      · rcases (hmemF whi).mp hwhi with hw | hw
        · exact ⟨whi, hw, by simpa using hhi⟩
        · exfalso
          have hb := persist_le_ends (fun w => w.y) h _ pL
            (fun t ht => by
              rw [hLw] at ht
              simp only [List.head?_cons, Option.mem_def, Option.some.injEq] at ht
              rw [← ht]; exact hMh)
            (fun z hz => by
              rw [hLwLastm] at hz
              simp only [Option.mem_def, Option.some.injEq] at hz
              rw [← hz]; exact not_lt.mp hm)
            whi hw
          simp only at hb
          linarith)
    rw [hU1, hL0]

/-! ## `pointInPolygon` on the hull polygon and its vertex mean -/

/-- Two or more sorted points: the hull vertices, walked back to the first one, are the whole
buffer, and they are the entries of the stack left by both passes. -/
theorem closeWalk_dropLast_upperPass (l : List (pt K)) (hl : l.Pairwise pt.le)
    (h2 : 2 ≤ l.length) :
    closeWalk (upperPass l).reverse.dropLast = (upperPass l).reverse ∧
      ∀ w, w ∈ (upperPass l).reverse.dropLast ↔ w ∈ upperPass l := by
  obtain ⟨m, y, rest, hrev, hhead, _⟩ := upperPass_wrap l hl h2
  have hlast : ((upperPass l).reverse).getLast? = some m := by
    rw [List.getLast?_reverse, hhead]
  have hH := List.dropLast_append_getLast? m hlast
  have hV : (upperPass l).reverse.dropLast = m :: (y :: rest).dropLast := by
    rw [hrev]; rfl
  have hcw : closeWalk (upperPass l).reverse.dropLast = (upperPass l).reverse := by
    unfold closeWalk
    conv_lhs => rw [hV]
    rw [List.take_succ_cons, List.take_zero, ← hV, hH]
  refine ⟨hcw, fun w => ?_⟩
  constructor
  · intro hw
    exact List.mem_reverse.mp (List.dropLast_subset _ hw)
  · intro hw
    have hw' : w ∈ (upperPass l).reverse := List.mem_reverse.mpr hw
    rw [← hH, List.mem_append] at hw'
    rcases hw' with hw' | hw'
    · exact hw'
    · simp only [List.mem_singleton] at hw'
      rw [hw', hV]
      simp

/-- The unit square with the corner `(1,0)` given twice: the buffer keeps both copies on the
way out and on the way back. -/
theorem hullVertices_square_dup_example :
    hullVertices ([⟨0, 0⟩, ⟨1, 0⟩, ⟨1, 0⟩, ⟨1, 1⟩, ⟨0, 1⟩] : List (pt ℚ))
      = [⟨0, 0⟩, ⟨1, 0⟩, ⟨1, 0⟩, ⟨1, 1⟩, ⟨1, 0⟩, ⟨1, 0⟩, ⟨0, 1⟩] := by
  norm_num [hullVertices, hullBuffer, upperPass, lowerPass, sortPoints, hullStep, popWhile,
    orient_eq, pt.le, pt.lt, List.insertionSort, List.orderedInsert]

theorem vertexMean_square_dup_example :
    vertexMean ([⟨0, 0⟩, ⟨1, 0⟩, ⟨1, 0⟩, ⟨1, 1⟩, ⟨1, 0⟩, ⟨1, 0⟩, ⟨0, 1⟩] : List (pt ℚ))
      = ⟨5 / 7, 2 / 7⟩ := by
  ext
  · rw [vertexMean_x]; norm_num
  · rw [vertexMean_y]; norm_num

theorem foldl_hullStepH_none (lim : Int) :
    ∀ L : List (pt K), L.foldl (hullStepH lim) none = none := by
  intro L
  induction L with
  | nil => rfl
  | cons p L ih => rw [List.foldl_cons]; exact ih

theorem popWhile_length_le (lim : Int) (p : pt K) (S : List (pt K)) :
    (popWhile lim p S).length ≤ S.length :=
  (popWhile_suffix lim p S).length_le

/-- A checked run that ends, ends where the unchecked steps end, with at most `Hsize`
entries. -/
theorem foldl_hullStepH_some (lim : Int) :
    ∀ (L S R : List (pt K)), L.foldl (hullStepH lim) (some S) = some R →
      R = L.foldl (hullStep lim) S ∧ (S.length ≤ Hsize → R.length ≤ Hsize) := by
  intro L
  induction L with
  | nil =>
    intro S R h
    simp only [List.foldl_nil, Option.some.injEq] at h
    subst h
    exact ⟨rfl, fun h => h⟩
  | cons p L ih =>
    intro S R h
    rw [List.foldl_cons] at h
    by_cases hlt : (popWhile lim p S).length < Hsize
    · have hstep : hullStepH lim (some S) p = some (p :: popWhile lim p S) := by
        simp only [hullStepH, if_pos hlt]
      rw [hstep] at h
      obtain ⟨h1, h2⟩ := ih _ R h
      refine ⟨?_, fun _ => h2 ?_⟩
      · rw [List.foldl_cons]; exact h1
      · simp only [List.length_cons]; omega
    · have hstep : hullStepH lim (some S) p = none := by
        simp only [hullStepH, if_neg hlt]
      rw [hstep, foldl_hullStepH_none] at h
      exact absurd h (by simp)

/-- A run with room for every write ends. -/
theorem foldl_hullStepH_fits (lim : Int) :
    ∀ (L S : List (pt K)), S.length + L.length ≤ Hsize →
      L.foldl (hullStepH lim) (some S) = some (L.foldl (hullStep lim) S) := by
  intro L
  induction L with
  | nil => intro S _; rfl
  | cons p L ih =>
    intro S h
    simp only [List.length_cons] at h
    have hle := popWhile_length_le lim p S
    have hlt : (popWhile lim p S).length < Hsize := by omega
    have hstep : hullStepH lim (some S) p = some (hullStep lim S p) := by
      simp only [hullStepH, if_pos hlt, hullStep]
    rw [List.foldl_cons, List.foldl_cons, hstep]
    apply ih
    simp only [hullStep, List.length_cons]
    omega

/-- When the checked run returns, it returns the value and the buffer of the unchecked
description, and the buffer fits the array. -/
theorem monotoneChainH_eq (points : List (pt K)) (r : Int × List (pt K))
    (h : monotoneChainH points = some r) :
    r = (monotoneChain points, hullBuffer points) ∧ r.2.length ≤ Hsize := by
  unfold monotoneChainH at h
  cases hU : upperPassH (sortPoints points) with
  | none => rw [hU] at h; simp at h
  | some S =>
    rw [hU] at h
    simp only [Option.some.injEq] at h
    unfold upperPassH at hU
    cases hL : lowerPassH (sortPoints points) with
    | none => rw [hL] at hU; simp at hU
    | some low =>
      rw [hL] at hU
      simp only at hU
      obtain ⟨hl1, hl2⟩ := foldl_hullStepH_some 2 _ _ _ hL
      obtain ⟨hu1, hu2⟩ := foldl_hullStepH_some _ _ _ _ hU
      have hlow : low = lowerPass (sortPoints points) := hl1
      have hS : S = upperPass (sortPoints points) := by
        rw [hu1, hlow]; rfl
      have hlen : S.length ≤ Hsize := hu2 (hl2 (by simp))
      subst h
      refine ⟨?_, by simpa using hlen⟩
      rw [hS]
      simp [monotoneChain, hullBuffer]

/-- Every input of at most 50003 points leaves room for every write: `2 n - 1 ≤ Hsize`. -/
theorem monotoneChainH_fits (points : List (pt K)) (h : 2 * points.length ≤ Hsize + 1) :
    monotoneChainH points = some (monotoneChain points, hullBuffer points) := by
  have hn : (sortPoints points).length = points.length := (sortPoints_perm points).length_eq
  have hL : lowerPassH (sortPoints points) = some (lowerPass (sortPoints points)) := by
    unfold lowerPassH lowerPass
    apply foldl_hullStepH_fits
    simp only [List.length_nil, zero_add]
    omega
  have hlen := (lowerPass_sublist (sortPoints points)).length_le
  simp only [List.length_reverse] at hlen
  have hU : upperPassH (sortPoints points) = some (upperPass (sortPoints points)) := by
    unfold upperPassH
    rw [hL]
    simp only
    unfold upperPass
    apply foldl_hullStepH_fits
    simp only [List.length_tail, List.length_reverse]
    omega
  unfold monotoneChainH
  rw [hU]
  simp [monotoneChain, hullBuffer]

theorem popWhile_flat (lim : Int) (p : pt K) (hp : p.y = 0) :
    ∀ S : List (pt K), (∀ q ∈ S, q.y = 0) → popWhile lim p S = S := by
  intro S hS
  match S, hS with
  | [], _ => exact popWhile_nil lim p
  | [b], _ => exact popWhile_singleton lim p b
  | b :: a :: rest, hS =>
    rw [popWhile_cons_cons, if_neg]
    rintro ⟨_, ho⟩
    rw [orient_eq, hp, hS a (by simp), hS b (by simp)] at ho
    simp at ho

/-- Points on the x-axis are never popped: every orientation test gives 0. -/
theorem foldl_hullStep_flat (lim : Int) :
    ∀ (L S : List (pt K)), (∀ q ∈ L, q.y = 0) → (∀ q ∈ S, q.y = 0) →
      L.foldl (hullStep lim) S = L.reverse ++ S := by
  intro L
  induction L with
  | nil => intro S _ _; rfl
  | cons p L ih =>
    intro S hL hS
    have hp : p.y = 0 := hL p (by simp)
    rw [List.foldl_cons, hullStep, popWhile_flat lim p hp S hS,
      ih (p :: S) (fun q hq => hL q (List.mem_cons_of_mem _ hq))
        (fun q hq => by
          rcases List.mem_cons.mp hq with e | hq
          · rw [e]; exact hp
          · exact hS q hq)]
    simp

/-- For `n` points on the x-axis the buffer holds `2 n - 1` entries. -/
theorem hullBuffer_length_flat (points : List (pt K)) (h : ∀ p ∈ points, p.y = 0) :
    (hullBuffer points).length = 2 * points.length - 1 := by
  have hn : (sortPoints points).length = points.length := (sortPoints_perm points).length_eq
  have hs : ∀ q ∈ sortPoints points, q.y = 0 := fun q hq => h q (mem_sortPoints.mp hq)
  have hlow : lowerPass (sortPoints points) = (sortPoints points).reverse := by
    unfold lowerPass
    rw [foldl_hullStep_flat 2 _ [] hs (by simp)]
    simp
  have hup : upperPass (sortPoints points)
      = (sortPoints points).reverse.tail.reverse ++ (sortPoints points).reverse := by
    unfold upperPass
    rw [hlow]
    simp only
    apply foldl_hullStep_flat
    · intro q hq
      exact hs q (List.mem_reverse.mp (List.mem_of_mem_tail hq))
    · intro q hq
      exact hs q (List.mem_reverse.mp hq)
  unfold hullBuffer
  rw [List.length_reverse, hup]
  simp only [List.length_append, List.length_reverse, List.length_tail, hn]
  omega

theorem flatRow_length (n : Nat) : (flatRow n : List (pt K)).length = n := by
  simp [flatRow]

theorem flatRow_flat (n : Nat) : ∀ p ∈ (flatRow n : List (pt K)), p.y = 0 := by
  intro p hp
  simp only [flatRow, List.mem_map, List.mem_range] at hp
  obtain ⟨i, _, rfl⟩ := hp
  rfl

/-- More than 50003 points on a line: the run writes past the end of `H`. -/
theorem monotoneChainH_flat_overflow (points : List (pt K)) (h : ∀ p ∈ points, p.y = 0)
    (hn : Hsize + 1 < 2 * points.length) : monotoneChainH points = none := by
  cases hr : monotoneChainH points with
  | none => rfl
  | some r =>
    exfalso
    obtain ⟨he, hlen⟩ := monotoneChainH_eq points r hr
    rw [he] at hlen
    simp only at hlen
    rw [hullBuffer_length_flat points h] at hlen
    omega

/-! ## Concrete runs on the array `H` -/

theorem monotoneChainH_triangle_example :
    monotoneChainH ([⟨0, 0⟩, ⟨1, 0⟩, ⟨0, 1⟩] : List (pt ℚ))
      = some (4, [⟨0, 0⟩, ⟨1, 0⟩, ⟨0, 1⟩, ⟨0, 0⟩]) := by
  rw [monotoneChainH_fits _ (by norm_num [Hsize]), monotoneChain, hullBuffer_triangle_example]
  rfl

theorem monotoneChainH_dup_example :
    monotoneChainH ([⟨0, 0⟩, ⟨1, 1⟩, ⟨1, 1⟩, ⟨2, 0⟩] : List (pt ℚ))
      = some (7, [⟨0, 0⟩, ⟨1, 1⟩, ⟨1, 1⟩, ⟨2, 0⟩, ⟨1, 1⟩, ⟨1, 1⟩, ⟨0, 0⟩]) := by
  rw [monotoneChainH_fits _ (by norm_num [Hsize]), monotoneChain, hullBuffer_dup_example]
  rfl

theorem monotoneChainH_flat_example :
    monotoneChainH ([⟨0, 0⟩, ⟨1, 0⟩, ⟨2, 0⟩, ⟨1, 1⟩] : List (pt ℚ))
      = some (5, [⟨0, 0⟩, ⟨1, 0⟩, ⟨2, 0⟩, ⟨1, 1⟩, ⟨0, 0⟩]) := by
  rw [monotoneChainH_fits _ (by norm_num [Hsize]), monotoneChain, hullBuffer_flat_example]
  rfl

theorem monotoneChainH_line_example :
    monotoneChainH ([⟨0, 0⟩, ⟨1, 0⟩, ⟨2, 0⟩] : List (pt ℚ))
      = some (5, [⟨0, 0⟩, ⟨1, 0⟩, ⟨2, 0⟩, ⟨1, 0⟩, ⟨0, 0⟩]) := by
  rw [monotoneChainH_fits _ (by norm_num [Hsize]), monotoneChain, hullBuffer_line_example]
  rfl

/-- The run on the 50004 points `(0,0), (1,0), ..., (50003,0)` needs `2 n - 1 = 100007`
entries, two more than `H` has, and writes past the end of the array. -/
theorem monotoneChainH_flatRow_example :
    (flatRow 50004 : List (pt ℚ)).length = 50004 ∧
    (hullBuffer (flatRow 50004 : List (pt ℚ))).length = 100007 ∧
    monotoneChainH (flatRow 50004 : List (pt ℚ)) = none := by
  refine ⟨flatRow_length _, ?_, ?_⟩
  · rw [hullBuffer_length_flat _ (flatRow_flat _), flatRow_length]
  · apply monotoneChainH_flat_overflow _ (flatRow_flat _)
    rw [flatRow_length]
    norm_num [Hsize]

/-! ## The hull claims, for the run on the array `H` -/

/-- C1 (amended to pairwise distinct points and to runs that stay inside the array `H`):
for distinct input points the run returns whenever there are at most 50003 points, and
whenever it returns `st` and the buffer `H[0..st-1]`, every input point lies on or left of
every edge `H[i] → H[i+1]`, `0 ≤ i < st - 1`. -/
theorem hull_contains_points (points : List (pt K)) (hnd : points.Nodup) :
    (2 * points.length ≤ Hsize + 1 → ∃ r, monotoneChainH points = some r) ∧
    ∀ (st : Int) (H : List (pt K)), monotoneChainH points = some (st, H) →
      st = (H.length : Int) ∧
      ∀ (i : Nat) (a b : pt K), H[i]? = some a → H[i + 1]? = some b →
        ∀ p ∈ points, 0 ≤ orient a b p := by
  refine ⟨fun h => ⟨_, monotoneChainH_fits points h⟩, ?_⟩
  intro st H hr
  obtain ⟨he, _⟩ := monotoneChainH_eq points (st, H) hr
  obtain ⟨h1, h2⟩ := Prod.mk.inj he
  subst h1 h2
  exact ⟨rfl, fun i a b ha hb p hp => hullBuffer_contains_points points hnd i a b ha hb p hp⟩

/-- Counterexample to C1 as stated: with the point (1,1) given twice the run returns
`st = 7` and a buffer that starts (0,0),(1,1), and the input point (2,0) lies strictly right
of that edge. -/
theorem hull_contains_points_counterexample :
    monotoneChainH ([⟨0, 0⟩, ⟨1, 1⟩, ⟨1, 1⟩, ⟨2, 0⟩] : List (pt ℚ))
      = some (7, [⟨0, 0⟩, ⟨1, 1⟩, ⟨1, 1⟩, ⟨2, 0⟩, ⟨1, 1⟩, ⟨1, 1⟩, ⟨0, 0⟩]) ∧
    (⟨2, 0⟩ : pt ℚ) ∈ ([⟨0, 0⟩, ⟨1, 1⟩, ⟨1, 1⟩, ⟨2, 0⟩] : List (pt ℚ)) ∧
    orient (⟨0, 0⟩ : pt ℚ) ⟨1, 1⟩ ⟨2, 0⟩ < 0 := by
  refine ⟨monotoneChainH_dup_example, by simp, ?_⟩
  norm_num [orient_eq]

/-- Witness for `hull_contains_points`: the triangle (0,0),(1,0),(0,1), edge `H[0] → H[1]`
and the input point (0,1). -/
theorem hull_contains_points_witness :
    ([⟨0, 0⟩, ⟨1, 0⟩, ⟨0, 1⟩] : List (pt ℚ)).Nodup ∧
    monotoneChainH ([⟨0, 0⟩, ⟨1, 0⟩, ⟨0, 1⟩] : List (pt ℚ))
      = some (4, [⟨0, 0⟩, ⟨1, 0⟩, ⟨0, 1⟩, ⟨0, 0⟩]) ∧
    0 ≤ orient (⟨0, 0⟩ : pt ℚ) ⟨1, 0⟩ ⟨0, 1⟩ :=
  ⟨by decide, monotoneChainH_triangle_example,
    ((hull_contains_points ([⟨0, 0⟩, ⟨1, 0⟩, ⟨0, 1⟩] : List (pt ℚ)) (by decide)).2 4
      [⟨0, 0⟩, ⟨1, 0⟩, ⟨0, 1⟩, ⟨0, 0⟩] monotoneChainH_triangle_example).2 0 ⟨0, 0⟩ ⟨1, 0⟩
      rfl rfl ⟨0, 1⟩ (by simp)⟩

/-- C2 (amended from a strict to a weak turn and to runs that stay inside the array `H`):
the run returns whenever there are at most 50003 points, and whenever it returns, every
three cyclically consecutive hull vertices `V[i], V[i+1], V[i+2]` (indices modulo the vertex
count, `V` the buffer without its closing point) make a left turn or are collinear,
`orient ≥ 0`. -/
theorem hull_turns_weak (points : List (pt K)) :
    (2 * points.length ≤ Hsize + 1 → ∃ r, monotoneChainH points = some r) ∧
    ∀ (st : Int) (H : List (pt K)), monotoneChainH points = some (st, H) →
      ∀ (i : Nat) (a b c : pt K), H.dropLast[i]? = some a →
        H.dropLast[(i + 1) % H.dropLast.length]? = some b →
        H.dropLast[(i + 2) % H.dropLast.length]? = some c → 0 ≤ orient a b c := by
  refine ⟨fun h => ⟨_, monotoneChainH_fits points h⟩, ?_⟩
  intro st H hr
  obtain ⟨he, _⟩ := monotoneChainH_eq points (st, H) hr
  obtain ⟨h1, h2⟩ := Prod.mk.inj he
  subst h1 h2
  exact fun i a b c ha hb hc => hullVertices_turns_weak points i a b c ha hb hc

/-- Counterexample to C2 as stated: the four points (0,0),(1,0),(2,0),(1,1) are not all
collinear, the run returns the buffer (0,0),(1,0),(2,0),(1,1),(0,0), so the hull keeps the
collinear boundary point (1,0): the vertices (0,0),(1,0),(2,0) are consecutive and their
orientation is 0. -/
theorem hull_turns_strict_counterexample :
    3 ≤ ([⟨0, 0⟩, ⟨1, 0⟩, ⟨2, 0⟩, ⟨1, 1⟩] : List (pt ℚ)).length ∧
    orient (⟨0, 0⟩ : pt ℚ) ⟨1, 0⟩ ⟨1, 1⟩ ≠ 0 ∧
    monotoneChainH ([⟨0, 0⟩, ⟨1, 0⟩, ⟨2, 0⟩, ⟨1, 1⟩] : List (pt ℚ))
      = some (5, [⟨0, 0⟩, ⟨1, 0⟩, ⟨2, 0⟩, ⟨1, 1⟩, ⟨0, 0⟩]) ∧
    ¬ (0 < orient (⟨0, 0⟩ : pt ℚ) ⟨1, 0⟩ ⟨2, 0⟩) := by
  refine ⟨by simp, by norm_num [orient_eq], monotoneChainH_flat_example, ?_⟩
  norm_num [orient_eq]

/-- Witness for `hull_turns_weak`: the triangle (0,0),(1,0),(0,1) at `i = 0`. -/
theorem hull_turns_weak_witness :
    monotoneChainH ([⟨0, 0⟩, ⟨1, 0⟩, ⟨0, 1⟩] : List (pt ℚ))
      = some (4, [⟨0, 0⟩, ⟨1, 0⟩, ⟨0, 1⟩, ⟨0, 0⟩]) ∧
    0 ≤ orient (⟨0, 0⟩ : pt ℚ) ⟨1, 0⟩ ⟨0, 1⟩ :=
  ⟨monotoneChainH_triangle_example,
    (hull_turns_weak ([⟨0, 0⟩, ⟨1, 0⟩, ⟨0, 1⟩] : List (pt ℚ))).2 4
      [⟨0, 0⟩, ⟨1, 0⟩, ⟨0, 1⟩, ⟨0, 0⟩] monotoneChainH_triangle_example 0 ⟨0, 0⟩ ⟨1, 0⟩ ⟨0, 1⟩
      rfl rfl rfl⟩

/-- C3 (amended to distinct points that are not all collinear and to runs that stay inside
the array `H`): the run returns whenever there are at most 50003 points, and whenever it
returns `st`, the hull vertex count `st - 1` (the returned length minus the duplicated
closing point) is at most the number of input points. -/
theorem hull_count_le (points : List (pt K)) (hnd : points.Nodup)
    (hnc : ∃ p ∈ points, ∃ q ∈ points, ∃ r ∈ points, orient p q r ≠ 0) :
    (2 * points.length ≤ Hsize + 1 → ∃ r, monotoneChainH points = some r) ∧
    ∀ (st : Int) (H : List (pt K)), monotoneChainH points = some (st, H) →
      st - 1 ≤ (points.length : Int) := by
  refine ⟨fun h => ⟨_, monotoneChainH_fits points h⟩, ?_⟩
  intro st H hr
  obtain ⟨he, _⟩ := monotoneChainH_eq points (st, H) hr
  obtain ⟨h1, h2⟩ := Prod.mk.inj he
  subst h1 h2
  exact hullBuffer_count_le points hnd hnc

/-- Counterexample to C3 as stated, one run for each condition of the amended claim: for the
three collinear points (0,0),(1,0),(2,0) the returned length is 5, so the vertex count 4
exceeds the 3 input points; and for (0,0),(1,1),(1,1),(2,0), which are not all collinear
but have (1,1) twice, the returned length is 7, so the vertex count 6 exceeds the 4 input
points. -/
theorem hull_count_counterexample :
    (monotoneChainH ([⟨0, 0⟩, ⟨1, 0⟩, ⟨2, 0⟩] : List (pt ℚ))
        = some (5, [⟨0, 0⟩, ⟨1, 0⟩, ⟨2, 0⟩, ⟨1, 0⟩, ⟨0, 0⟩]) ∧
      ¬ ((5 : Int) - 1 ≤ (([⟨0, 0⟩, ⟨1, 0⟩, ⟨2, 0⟩] : List (pt ℚ)).length : Int))) ∧
    (monotoneChainH ([⟨0, 0⟩, ⟨1, 1⟩, ⟨1, 1⟩, ⟨2, 0⟩] : List (pt ℚ))
        = some (7, [⟨0, 0⟩, ⟨1, 1⟩, ⟨1, 1⟩, ⟨2, 0⟩, ⟨1, 1⟩, ⟨1, 1⟩, ⟨0, 0⟩]) ∧
      orient (⟨0, 0⟩ : pt ℚ) ⟨1, 1⟩ ⟨2, 0⟩ ≠ 0 ∧
      ¬ ((7 : Int) - 1 ≤ (([⟨0, 0⟩, ⟨1, 1⟩, ⟨1, 1⟩, ⟨2, 0⟩] : List (pt ℚ)).length : Int))) := by
  refine ⟨⟨monotoneChainH_line_example, by decide⟩, monotoneChainH_dup_example, ?_, by decide⟩
  norm_num [orient_eq]

/-- Witness for `hull_count_le`: the triangle (0,0),(1,0),(0,1). -/
theorem hull_count_le_witness :
    ([⟨0, 0⟩, ⟨1, 0⟩, ⟨0, 1⟩] : List (pt ℚ)).Nodup ∧
    (∃ p ∈ ([⟨0, 0⟩, ⟨1, 0⟩, ⟨0, 1⟩] : List (pt ℚ)),
      ∃ q ∈ ([⟨0, 0⟩, ⟨1, 0⟩, ⟨0, 1⟩] : List (pt ℚ)),
      ∃ r ∈ ([⟨0, 0⟩, ⟨1, 0⟩, ⟨0, 1⟩] : List (pt ℚ)), orient p q r ≠ 0) ∧
    monotoneChainH ([⟨0, 0⟩, ⟨1, 0⟩, ⟨0, 1⟩] : List (pt ℚ))
      = some (4, [⟨0, 0⟩, ⟨1, 0⟩, ⟨0, 1⟩, ⟨0, 0⟩]) ∧
    (4 : Int) - 1 ≤ (([⟨0, 0⟩, ⟨1, 0⟩, ⟨0, 1⟩] : List (pt ℚ)).length : Int) :=
  ⟨by decide,
    ⟨⟨0, 0⟩, by simp, ⟨1, 0⟩, by simp, ⟨0, 1⟩, by simp, by norm_num [orient_eq]⟩,
    monotoneChainH_triangle_example,
    (hull_count_le ([⟨0, 0⟩, ⟨1, 0⟩, ⟨0, 1⟩] : List (pt ℚ)) (by decide)
      ⟨⟨0, 0⟩, by simp, ⟨1, 0⟩, by simp, ⟨0, 1⟩, by simp, by norm_num [orient_eq]⟩).2 4
      [⟨0, 0⟩, ⟨1, 0⟩, ⟨0, 1⟩, ⟨0, 0⟩] monotoneChainH_triangle_example⟩

/-- C4 (amended to runs that stay inside the array `H`): for two lists that are permutations
of each other the run on one returns exactly when the run on the other does, with the same
returned length and the same buffer contents, and for at most 50003 points both runs
return. -/
theorem monotoneChain_perm (l1 l2 : List (pt K)) (h : l1.Perm l2) :
    monotoneChainH l1 = monotoneChainH l2 ∧
    (2 * l1.length ≤ Hsize + 1 → ∃ (st : Int) (H : List (pt K)),
      monotoneChainH l1 = some (st, H) ∧ monotoneChainH l2 = some (st, H)) := by
  have he : monotoneChainH l1 = monotoneChainH l2 := by
    unfold monotoneChainH
    rw [sortPoints_eq_of_perm h]
  refine ⟨he, fun hn => ?_⟩
  have h1 := monotoneChainH_fits l1 hn
  exact ⟨_, _, h1, by rw [← he]; exact h1⟩

/-- Counterexample to C4 as stated: the 50004 points `(0,0), ..., (50003,0)` and the same
points in the opposite order are permutations of each other, and on both inputs the run
writes past the end of `H`: there is no returned length and no buffer to compare. -/
theorem monotoneChain_perm_counterexample :
    (flatRow 50004 : List (pt ℚ)).Perm (flatRow 50004 : List (pt ℚ)).reverse ∧
    monotoneChainH (flatRow 50004 : List (pt ℚ)) = none ∧
    monotoneChainH (flatRow 50004 : List (pt ℚ)).reverse = none := by
  refine ⟨(List.reverse_perm _).symm, ?_, ?_⟩
  · apply monotoneChainH_flat_overflow _ (flatRow_flat _)
    rw [flatRow_length]
    norm_num [Hsize]
  · apply monotoneChainH_flat_overflow _
      (fun p hp => flatRow_flat 50004 p (List.mem_reverse.mp hp))
    rw [List.length_reverse, flatRow_length]
    norm_num [Hsize]

/-- Witness for `monotoneChain_perm`: the two orders of the points (0,0), (1,0). -/
theorem monotoneChain_perm_witness :
    List.Perm [(⟨0, 0⟩ : pt ℚ), ⟨1, 0⟩] [⟨1, 0⟩, ⟨0, 0⟩] ∧
    2 * [(⟨0, 0⟩ : pt ℚ), ⟨1, 0⟩].length ≤ Hsize + 1 ∧
    ∃ (st : Int) (H : List (pt ℚ)), monotoneChainH [(⟨0, 0⟩ : pt ℚ), ⟨1, 0⟩] = some (st, H) ∧
      monotoneChainH [(⟨1, 0⟩ : pt ℚ), ⟨0, 0⟩] = some (st, H) :=
  ⟨List.Perm.swap _ _ _, by norm_num [Hsize],
    (monotoneChain_perm [(⟨0, 0⟩ : pt ℚ), ⟨1, 0⟩] [⟨1, 0⟩, ⟨0, 0⟩] (List.Perm.swap _ _ _)).2
      (by norm_num [Hsize])⟩

/-- C19 (amended to runs that stay inside the array `H`): the run returns whenever there are
at most 50003 points, and whenever it returns `st` and the buffer `H[0..st-1]`, every entry
of the buffer is an input point, and for at least two input points the buffer is closed:
`H[st-1] = H[0]`, the smallest input point in the order of `pt::operator<` (by `x`, then
`y`). -/
theorem hullBuffer_closed (points : List (pt K)) :
    (2 * points.length ≤ Hsize + 1 → ∃ r, monotoneChainH points = some r) ∧
    ∀ (st : Int) (H : List (pt K)), monotoneChainH points = some (st, H) →
      st = (H.length : Int) ∧ (∀ x ∈ H, x ∈ points) ∧
      (2 ≤ points.length → ∃ m, H[0]? = some m ∧ H[H.length - 1]? = some m ∧
        m ∈ points ∧ ∀ p ∈ points, ¬ pt.lt p m) := by
  refine ⟨fun h => ⟨_, monotoneChainH_fits points h⟩, ?_⟩
  intro st H hr
  obtain ⟨he, _⟩ := monotoneChainH_eq points (st, H) hr
  obtain ⟨h1, h2⟩ := Prod.mk.inj he
  subst h1 h2
  exact ⟨rfl, hullBuffer_members_closed points⟩

/-- Counterexample to C19 as stated: on the 50004 points `(0,0), ..., (50003,0)` the two
passes push `2 n - 1 = 100007` points, the array `H` has 100005 entries, and the run writes
past its end: the entries `H[0..st-1]` are not all entries of the buffer. -/
theorem hullBuffer_closed_counterexample :
    (flatRow 50004 : List (pt ℚ)).length = 50004 ∧
    (hullBuffer (flatRow 50004 : List (pt ℚ))).length = 100007 ∧
    Hsize = 100005 ∧
    monotoneChainH (flatRow 50004 : List (pt ℚ)) = none :=
  ⟨monotoneChainH_flatRow_example.1, monotoneChainH_flatRow_example.2.1, rfl,
    monotoneChainH_flatRow_example.2.2⟩

/-- Witness for `hullBuffer_closed`: the triangle (0,0),(1,0),(0,1), whose buffer
(0,0),(1,0),(0,1),(0,0) starts and ends with (0,0). -/
theorem hullBuffer_closed_witness :
    monotoneChainH ([⟨0, 0⟩, ⟨1, 0⟩, ⟨0, 1⟩] : List (pt ℚ))
      = some (4, [⟨0, 0⟩, ⟨1, 0⟩, ⟨0, 1⟩, ⟨0, 0⟩]) ∧
    ∃ m : pt ℚ, ([⟨0, 0⟩, ⟨1, 0⟩, ⟨0, 1⟩, ⟨0, 0⟩] : List (pt ℚ))[0]? = some m ∧
      ([⟨0, 0⟩, ⟨1, 0⟩, ⟨0, 1⟩, ⟨0, 0⟩] : List (pt ℚ))[
        ([⟨0, 0⟩, ⟨1, 0⟩, ⟨0, 1⟩, ⟨0, 0⟩] : List (pt ℚ)).length - 1]? = some m ∧
      m ∈ ([⟨0, 0⟩, ⟨1, 0⟩, ⟨0, 1⟩] : List (pt ℚ)) ∧
      ∀ p ∈ ([⟨0, 0⟩, ⟨1, 0⟩, ⟨0, 1⟩] : List (pt ℚ)), ¬ pt.lt p m :=
  ⟨monotoneChainH_triangle_example,
    ((hullBuffer_closed ([⟨0, 0⟩, ⟨1, 0⟩, ⟨0, 1⟩] : List (pt ℚ))).2 4
      [⟨0, 0⟩, ⟨1, 0⟩, ⟨0, 1⟩, ⟨0, 0⟩] monotoneChainH_triangle_example).2.2 (by simp)⟩

end Geo
